import Mathlib

/-!
# rag-history: vocabulary, frequency vectors and cosine similarity

A shallow embedding of the Go programs `vectors`, `bag-of-words` and `tf-idf`
of the repository, followed by theorems about them.

Conventions of the embedding

* A Go slice is a `List`; a loop `for i, x := range xs` is a fold or a
  structural recursion over the list.
* A Go `map[string]int` is an association list (`GoMap`): a lookup returns the
  first entry of the key, `len` counts the distinct keys, an assignment
  replaces the entry of a key that is present and adds one otherwise.  The
  programs never iterate over a map, so no iteration order is modelled.
* A Go `int` is an `Int`.  The only integer arithmetic of the programs counts
  tokens and documents, so every value is bounded by the size of the input and
  64-bit wraparound is out of reach.
* A run-time panic (an explicit `panic(...)`, an index out of range, a
  negative `make` length) is the `error` case of `Except String`.
* A Go `float64` is a value of `F64`, a model of IEEE 754 binary64 with
  round-to-nearest-even, signed zeros, infinities and NaN.  Every operation is
  rounded on its own (no fused multiply-add), `math.Sqrt` is the correctly
  rounded square root, and `math.Log` is left abstract on finite positive
  arguments.
-/

set_option autoImplicit false

deriving instance DecidableEq for Except

/-! ## Go maps -/

/-- A Go `map[string]int`, as the list of its entries. -/
abbrev GoMap := List (String × Int)

namespace GoMap

/-- The lookup `v, ok := m[key]`: `some v` when `ok`, `none` otherwise. -/
def get : GoMap → String → Option Int
  | [], _ => none
  | (k, v) :: rest, key => if k = key then some v else get rest key

/-- The assignment `m[key] = val`. -/
def set (m : GoMap) (key : String) (val : Int) : GoMap :=
  match m.get key with
  | some _ => m.map (fun e => if e.1 = key then (key, val) else e)
  | none => m ++ [(key, val)]

/-- The builtin `len(m)`: the number of distinct keys. -/
def len (m : GoMap) : Nat := (m.map Prod.fst).dedup.length

/-- Every index stored in the map lies in `[0, len(m))`. -/
def IndicesInRange (m : GoMap) : Prop :=
  ∀ w i, m.get w = some i → 0 ≤ i ∧ i < (m.len : Int)

end GoMap

/-! ## Go strings

A Go string is a sequence of bytes; the documents of the programs are texts, modelled as
Lean strings (sequences of Unicode characters).  The separator of `tokenize` is the one
byte `0x20`, which never occurs inside the UTF-8 encoding of another character, so
splitting the bytes at `0x20` and splitting the characters at the space agree. -/

/-- The pieces of `strings.Split(s, " ")`, on the characters of `s`: a space closes the
current piece (which may be empty) and every other character extends it; the text after
the last space, empty or not, is the last piece. -/
def splitSpaces : List Char → List (List Char)
  | [] => [[]]
  | c :: cs =>
    if c = ' ' then [] :: splitSpaces cs
    else
      match splitSpaces cs with
      | [] => [[c]]
      | t :: ts => (c :: t) :: ts

/-- The call `strings.Split(s, " ")`. -/
def stringsSplit (s : String) : List String := (splitSpaces s.toList).map String.mk

/-! ## Go slices -/

/-- The expression `make([]int, n)`: a run-time panic for a negative `n`. -/
def makeInts (n : Int) : Except String (List Int) :=
  if 0 ≤ n then .ok (List.replicate n.toNat 0) else .error "makeslice: len out of range"

/-- The read `s[i]` of a slice of ints: a run-time panic when `i` is out of range. -/
def sliceGet (s : List Int) (i : Int) : Except String Int :=
  if 0 ≤ i ∧ i < s.length then .ok (s.getD i.toNat 0) else .error "index out of range"

/-- The write `s[i] = x`: a run-time panic when `i` is out of range. -/
def sliceSet (s : List Int) (i : Int) (x : Int) : Except String (List Int) :=
  if 0 ≤ i ∧ i < s.length then .ok (s.set i.toNat x) else .error "index out of range"

/-- The statement `s[i] += d` (also `s[i]++` with `d = 1`). -/
def sliceAdd (s : List Int) (i : Int) (d : Int) : Except String (List Int) := do
  let cur ← sliceGet s i
  sliceSet s i (cur + d)

/-! ## IEEE 754 binary64 (`float64`)

Every finite binary64 value is an integer multiple of `2^-1074` (the smallest
subnormal), so a finite value is stored as a sign and a magnitude in that unit.
The arithmetic computes the exact result as a ratio of naturals and rounds it
once, to nearest with ties to even, as IEEE 754 prescribes; `math.Sqrt` is the
correctly rounded square root.  Operations are not fused. -/

/-- A `float64`: NaN, an infinity, or the finite value `± mag · 2^-1074`. -/
inductive F64 where
  | nan
  | inf (neg : Bool)
  | fin (neg : Bool) (mag : Nat)
  deriving DecidableEq

namespace F64

/-- The least `s` among `s₀, 2 s₀, 4 s₀, ...` with `n >>> s = 0`. -/
def topShift : Nat → Nat → Nat → Nat
  | 0, _, s => s
  | fuel + 1, n, s => if n >>> s = 0 then s else topShift fuel n (2 * s)

/-- Bisection for the bit length of `n` between `lo` (where `n >>> lo ≠ 0`) and `hi`
(where `n >>> hi = 0`). -/
def bitLenSearch : Nat → Nat → Nat → Nat → Nat
  | 0, _, _, hi => hi
  | fuel + 1, n, lo, hi =>
    if hi ≤ lo + 1 then hi
    else if n >>> ((lo + hi) / 2) = 0 then bitLenSearch fuel n lo ((lo + hi) / 2)
    else bitLenSearch fuel n ((lo + hi) / 2) hi

/-- The number of binary digits of `n` (0 for 0). -/
def bitLen (n : Nat) : Nat :=
  if n = 0 then 0 else bitLenSearch (topShift n n 1) n 0 (topShift n n 1)

/-- Newton iteration for the integer square root, from an upper bound `x`: the
iterates decrease strictly until the root is reached, so a fuel of `x` suffices. -/
def isqrtLoop : Nat → Nat → Nat → Nat
  | 0, _, x => x
  | fuel + 1, n, x => if (x + n / x) / 2 < x then isqrtLoop fuel n ((x + n / x) / 2) else x

/-- The integer square root: the largest `r` with `r * r ≤ n`. -/
def isqrt (n : Nat) : Nat :=
  if n = 0 then 0 else isqrtLoop (1 <<< (bitLen n / 2 + 1)) n (1 <<< (bitLen n / 2 + 1))

/-- The integer nearest to `p / q`, the even one of the two at a tie. -/
def roundHalfEven (p q : Nat) : Nat :=
  if q < 2 * (p % q) ∨ (2 * (p % q) = q ∧ p / q % 2 = 1) then p / q + 1 else p / q

/-- The magnitude of `2^1024`: finite magnitudes lie strictly below. -/
def overflowMag : Nat := 1 <<< 2098

/-- The bit position of the last place of the binade of the magnitude `t`: 0 up
to `2^53`, then one more for each doubling. -/
def ulpShift (t : Nat) : Nat := if t < 1 <<< 53 then 0 else bitLen t - 53

/-- Rounding of the exact non-negative value `p / q` (in units of `2^-1074`) to
binary64, to nearest, ties to even, overflow to infinity. -/
def round (neg : Bool) (p q : Nat) : F64 :=
  if roundHalfEven p (q <<< ulpShift (p / q)) <<< ulpShift (p / q) < overflowMag then
    fin neg (roundHalfEven p (q <<< ulpShift (p / q)) <<< ulpShift (p / q))
  else inf neg

/-- The constant `+0`. -/
def zero : F64 := fin false 0

/-- The conversion `float64(n)` of an integer, also of an untyped integer constant. -/
def ofInt (n : Int) : F64 := round (decide (n < 0)) (n.natAbs <<< 1074) 1

/-- The conversion to `float64` of the untyped constant `± num / den`. -/
def ofRatio (neg : Bool) (num den : Nat) : F64 := round neg (num <<< 1074) den

/-- The constant `1`. -/
def one : F64 := ofInt 1

/-- Unary minus. -/
def negate : F64 → F64
  | nan => nan
  | inf s => inf (!s)
  | fin s m => fin (!s) m

/-- The sum `x + y`. -/
def add : F64 → F64 → F64
  | nan, _ => nan
  | _, nan => nan
  | inf s, inf t => if s = t then inf s else nan
  | inf s, fin _ _ => inf s
  | fin _ _, inf t => inf t
  | fin s m, fin t n =>
    if s = t then round s (m + n) 1
    else if m = n then fin false 0
    else if n < m then round s (m - n) 1
    else round t (n - m) 1

/-- The difference `x - y`. -/
def sub (x y : F64) : F64 := add x (negate y)

/-- The product `x * y`. -/
def mul : F64 → F64 → F64
  | nan, _ => nan
  | _, nan => nan
  | inf s, inf t => inf (xor s t)
  | inf s, fin t n => if n = 0 then nan else inf (xor s t)
  | fin s m, inf t => if m = 0 then nan else inf (xor s t)
  | fin s m, fin t n => round (xor s t) (m * n) (1 <<< 1074)

/-- The quotient `x / y`. -/
def div : F64 → F64 → F64
  | nan, _ => nan
  | _, nan => nan
  | inf _, inf _ => nan
  | inf s, fin t _ => inf (xor s t)
  | fin s _, inf t => fin (xor s t) 0
  | fin s m, fin t n =>
    if n = 0 then (if m = 0 then nan else inf (xor s t))
    else round (xor s t) (m <<< 1074) n

/-- The function `math.Sqrt`. -/
def sqrt : F64 → F64
  | nan => nan
  | inf s => if s then nan else inf false
  | fin s m =>
    if m = 0 then fin s 0
    else if s then nan
    else
      let n := m <<< 1074
      let sh := ulpShift (isqrt n)
      let k := isqrt (n >>> (2 * sh))
      if ((2 * k + 1) * (2 * k + 1)) <<< (2 * sh) < 4 * n
          ∨ (((2 * k + 1) * (2 * k + 1)) <<< (2 * sh) = 4 * n ∧ k % 2 = 1) then
        fin false ((k + 1) <<< sh)
      else fin false (k <<< sh)

/-- The function `math.Log`.  Its special cases are those of the Go documentation
(`Log(+Inf) = +Inf`, `Log(0) = -Inf`, `Log(x < 0) = NaN`, `Log(NaN) = NaN`); its
value on a finite positive argument is left to the parameter `ln`. -/
def log (ln : F64 → F64) : F64 → F64
  | nan => nan
  | inf s => if s then nan else inf false
  | fin s m =>
    if m = 0 then inf true
    else if s then nan
    else ln (fin s m)

/-- Whether the value is finite: neither an infinity nor a NaN. -/
def isFinite : F64 → Bool
  | fin _ _ => true
  | _ => false

/-- Whether the value is a NaN. -/
def isNaN : F64 → Bool
  | nan => true
  | _ => false

/-- The position of a non-NaN value on the number line, in units of `2^-1074`,
with the infinities at `± 2^1024`. -/
def key : F64 → Int
  | nan => 0
  | inf s => if s then -(overflowMag : Int) else (overflowMag : Int)
  | fin s m => if s then -(m : Int) else (m : Int)

/-- The comparison `x == y`. -/
def eq (x y : F64) : Bool := !x.isNaN && !y.isNaN && decide (x.key = y.key)

/-- The comparison `x < y`. -/
def lt (x y : F64) : Bool := !x.isNaN && !y.isNaN && decide (x.key < y.key)

/-- The comparison `x <= y`. -/
def le (x y : F64) : Bool := !x.isNaN && !y.isNaN && decide (x.key ≤ y.key)

/-- The comparison `x >= y`. -/
def ge (x y : F64) : Bool := le y x

/-- The comparison `x > y`. -/
def gt (x y : F64) : Bool := lt y x

/-- Whether the value is a binary64 value: a finite magnitude is below `2^1024` and
has at most 53 significant bits. -/
def valid : F64 → Bool
  | fin _ m => decide (m < overflowMag) && decide ((m >>> ulpShift m) <<< ulpShift m = m)
  | _ => true

end F64

/-! ## Loops over two slices

The loops `for i := range a { ... a[i] ... b[i] ... }` of the programs read `b` at
every index of `a`: an index beyond `len(b)` is a run-time panic, and entries of `b`
beyond `len(a)` are never read. -/

/-- The loop `for i := range a { result[i] = op(a[i], b[i]) }` into a fresh slice
`result` of length `len(a)`. -/
def pairwiseLoop (op : F64 → F64 → F64) : List F64 → List F64 → Except String (List F64)
  | [], _ => .ok []
  | _ :: _, [] => .error "index out of range"
  | x :: a, y :: b => do
    let rest ← pairwiseLoop op a b
    pure (op x y :: rest)

/-- The loop `for i := range a { sum += a[i] * b[i] }`. -/
def dotLoop : F64 → List F64 → List F64 → Except String F64
  | sum, [], _ => .ok sum
  | _, _ :: _, [] => .error "index out of range"
  | sum, x :: a, y :: b => dotLoop (F64.add sum (F64.mul x y)) a b

/-- The loop of `cosineSimilarity` over the state `(dot, normA, normB)`:
`dot += a[i] * b[i]; normA += a[i] * a[i]; normB += b[i] * b[i]`. -/
def cosineLoop : F64 × F64 × F64 → List F64 → List F64 → Except String (F64 × F64 × F64)
  | st, [], _ => .ok st
  | _, _ :: _, [] => .error "index out of range"
  | st, x :: a, y :: b =>
    cosineLoop (F64.add st.1 (F64.mul x y), F64.add st.2.1 (F64.mul x x),
      F64.add st.2.2 (F64.mul y y)) a b

/-! ## vectors/main.go -/

namespace Vectors

/-- The function `assertVectorsLengthEqual(a, b []float64)`. -/
def assertVectorsLengthEqual (a b : List F64) : Except String Unit :=
  if a.length ≠ b.length then .error "vectors must have the same length" else .ok ()

/-- The function `magnitude(vec []float64) float64`. -/
def magnitude (vec : List F64) : F64 :=
  F64.sqrt (vec.foldl (fun sum v => F64.add sum (F64.mul v v)) F64.zero)

/-- The function `dotProduct(a, b []float64) float64`. -/
def dotProduct (a b : List F64) : Except String F64 := do
  assertVectorsLengthEqual a b
  dotLoop F64.zero a b

/-- The function `isOrthoganal(a, b []float64) bool`. -/
def isOrthoganal (a b : List F64) : Except String Bool := do
  let d ← dotProduct a b
  pure (F64.eq d F64.zero)

/-- The function `cosineSimilarity(a, b []float64) float64`. -/
def cosineSimilarity (a b : List F64) : Except String F64 := do
  assertVectorsLengthEqual a b
  let st ← cosineLoop (F64.zero, F64.zero, F64.zero) a b
  if F64.eq st.2.1 F64.zero || F64.eq st.2.2 F64.zero then pure F64.zero
  else pure (F64.div st.1 (F64.mul (F64.sqrt st.2.1) (F64.sqrt st.2.2)))

/-- The function `classifyCosine(cos float64) string`. -/
def classifyCosine (cos : F64) : String :=
  if F64.eq cos F64.one then "Identical"
  else if F64.eq cos F64.zero then "Orthogonal"
  else if F64.ge cos (F64.ofRatio false 4 5) then "Similar"
  else if F64.le cos (F64.ofRatio true 4 5) then "Opposite"
  else "Unrelated"

/-- The function `add(a, b []float64) []float64`. -/
def add (a b : List F64) : Except String (List F64) := do
  assertVectorsLengthEqual a b
  pairwiseLoop F64.add a b

/-- The function `subtract(a, b []float64) []float64`. -/
def subtract (a b : List F64) : Except String (List F64) := do
  assertVectorsLengthEqual a b
  pairwiseLoop F64.sub a b

/-- The function `multiply(a, b []float64) []float64`. -/
def multiply (a b : List F64) : Except String (List F64) := do
  assertVectorsLengthEqual a b
  pairwiseLoop F64.mul a b

/-- The function `divide(a, b []float64) []float64`. -/
def divide (a b : List F64) : Except String (List F64) := do
  assertVectorsLengthEqual a b
  pairwiseLoop F64.div a b

end Vectors

/-! ## The cosine computation over an arbitrary arithmetic

The text of `cosineSimilarity` again, with the arithmetic as a parameter.  With the
binary64 operations it is the Go function; with the operations of an ordered field that
has exact square roots it is the same computation free of rounding. -/

/-- The operations a run of `cosineSimilarity` uses: `0`, `+`, `*`, `/`, `math.Sqrt`
and the test `x == 0`. -/
structure Arith (K : Type) where
  zero : K
  add : K → K → K
  mul : K → K → K
  div : K → K → K
  sqrt : K → K
  eqZero : K → Bool

/-- The binary64 arithmetic of Go. -/
def F64.arith : Arith F64 :=
  { zero := F64.zero, add := F64.add, mul := F64.mul, div := F64.div, sqrt := F64.sqrt,
    eqZero := fun x => F64.eq x F64.zero }

/-- The exact arithmetic of an ordered field, with `sqrt` for the square root. -/
def exactArith (K : Type) [LinearOrderedField K] (sqrt : K → K) : Arith K :=
  { zero := 0, add := fun x y => x + y, mul := fun x y => x * y, div := fun x y => x / y,
    sqrt := sqrt, eqZero := fun x => decide (x = 0) }

/-- The loop of `cosineSimilarity` over the arithmetic `A`. -/
def cosineLoopIn {K : Type} (A : Arith K) :
    K × K × K → List K → List K → Except String (K × K × K)
  | st, [], _ => .ok st
  | _, _ :: _, [] => .error "index out of range"
  | st, x :: a, y :: b =>
    cosineLoopIn A (A.add st.1 (A.mul x y), A.add st.2.1 (A.mul x x),
      A.add st.2.2 (A.mul y y)) a b

/-- The function `cosineSimilarity` over the arithmetic `A`. -/
def cosineSimilarityIn {K : Type} (A : Arith K) (a b : List K) : Except String K := do
  if a.length ≠ b.length then throw "vectors must have the same length"
  let st ← cosineLoopIn A (A.zero, A.zero, A.zero) a b
  if A.eqZero st.2.1 || A.eqZero st.2.2 then pure A.zero
  else pure (A.div st.1 (A.mul (A.sqrt st.2.1) (A.sqrt st.2.2)))

/-! ## bag-of-words/main.go -/

namespace BagOfWords

/-- One step of the inner loop of `buildVocab`: the state is `(vocab, index)`. -/
def buildVocabStep (st : GoMap × Int) (word : String) : GoMap × Int :=
  match st.1.get word with
  | none => (st.1.set word st.2, st.2 + 1)
  | some _ => st

/-- The function `buildVocab(tokens [][]string) map[string]int`. -/
def buildVocab (tokens : List (List String)) : GoMap :=
  (tokens.foldl (fun st doc => doc.foldl buildVocabStep st) (([] : GoMap), (0 : Int))).1

/-- The function `oneHot(word string, vocab map[string]int) []int`. -/
def oneHot (word : String) (vocab : GoMap) : Except String (List Int) := do
  let vec ← makeInts vocab.len
  match vocab.get word with
  | some i => sliceSet vec i 1
  | none => pure vec

/-- The function `documentToOneHotSequence(doc []string, vocab map[string]int) [][]int`. -/
def documentToOneHotSequence (doc : List String) (vocab : GoMap) :
    Except String (List (List Int)) :=
  doc.foldlM (fun result word => do
    let vec ← oneHot word vocab
    pure (result ++ [vec])) []

/-- The inner loop `for i, val := range vec { bow[i] += val }` of
`bagOfWordsFromOneHots`, from position `i` of `vec` on. -/
def addVector : List Int → Nat → List Int → Except String (List Int)
  | bow, _, [] => .ok bow
  | bow, i, val :: rest => do
    let bow ← sliceAdd bow i val
    addVector bow (i + 1) rest

/-- The function `bagOfWordsFromOneHots(oneHots [][]int, vocabSize int) []int`. -/
def bagOfWordsFromOneHots (oneHots : List (List Int)) (vocabSize : Int) :
    Except String (List Int) := do
  let bow ← makeInts vocabSize
  oneHots.foldlM (fun bow vec => addVector bow 0 vec) bow

/-- The function `assertVectorsLengthEqual(a, b []float64)`. -/
def assertVectorsLengthEqual (a b : List F64) : Except String Unit :=
  if a.length ≠ b.length then .error "vectors must have the same length" else .ok ()

/-- The function `cosineSimilarity(a, b []float64) float64`. -/
def cosineSimilarity (a b : List F64) : Except String F64 := do
  assertVectorsLengthEqual a b
  let st ← cosineLoop (F64.zero, F64.zero, F64.zero) a b
  if F64.eq st.2.1 F64.zero || F64.eq st.2.2 F64.zero then pure F64.zero
  else pure (F64.div st.1 (F64.mul (F64.sqrt st.2.1) (F64.sqrt st.2.2)))

/-- The function `sliceIntToFloat(s []int) []float64`. -/
def sliceIntToFloat (s : List Int) : List F64 := s.map F64.ofInt

/-- The function `tokenize(corpus []string) [][]string`. -/
def tokenize (corpus : List String) : List (List String) :=
  corpus.foldl (fun tokens doc => tokens ++ [stringsSplit doc]) []

end BagOfWords

/-! ## tf-idf/main.go -/

namespace TfIdf

/-- One step of the inner loop of `buildVocab`: the state is `(vocab, index)`. -/
def buildVocabStep (st : GoMap × Int) (word : String) : GoMap × Int :=
  match st.1.get word with
  | none => (st.1.set word st.2, st.2 + 1)
  | some _ => st

/-- The function `buildVocab(tokens [][]string) map[string]int`. -/
def buildVocab (tokens : List (List String)) : GoMap :=
  (tokens.foldl (fun st doc => doc.foldl buildVocabStep st) (([] : GoMap), (0 : Int))).1

/-- The function `termFrequency(doc []string, vocab map[string]int) []int`. -/
def termFrequency (doc : List String) (vocab : GoMap) : Except String (List Int) := do
  let tf ← makeInts vocab.len
  doc.foldlM (fun tf word =>
    match vocab.get word with
    | some i => sliceAdd tf i 1
    | none => pure tf) tf

/-- One step of the inner loop of `documentFrequency`.  The state is `(df, seen)`;
the map `seen` of type `map[int]bool` only ever receives `true`, so it is modelled
by the list of its keys and `seen[i]` by membership. -/
def documentFrequencyStep (vocab : GoMap) (st : List Int × List Int) (word : String) :
    Except String (List Int × List Int) :=
  match vocab.get word with
  | some i =>
    if i ∈ st.2 then pure st
    else do
      let df ← sliceAdd st.1 i 1
      pure (df, i :: st.2)
  | none => pure st

/-- The function `documentFrequency(tokens [][]string, vocab map[string]int) []int`. -/
def documentFrequency (tokens : List (List String)) (vocab : GoMap) :
    Except String (List Int) := do
  let df ← makeInts vocab.len
  tokens.foldlM (fun df doc => do
    let st ← doc.foldlM (documentFrequencyStep vocab) (df, [])
    pure st.1) df

/-- The function `inverseDocumentFrequency(df []float64, numDocs int) []float64`:
`idf[i] = math.Log(float64(numDocs) / val)` for every entry `val` of `df`.  The value
of `math.Log` on finite positive arguments is the parameter `ln`. -/
def inverseDocumentFrequency (ln : F64 → F64) (df : List F64) (numDocs : Int) : List F64 :=
  df.map (fun val => F64.log ln (F64.div (F64.ofInt numDocs) val))

/-- The function `tfIDF(tf []float64, idf []float64) []float64`. -/
def tfIDF (tf idf : List F64) : Except String (List F64) :=
  pairwiseLoop F64.mul tf idf

/-- The function `sliceIntToFloat(s []int) []float64`. -/
def sliceIntToFloat (s : List Int) : List F64 := s.map F64.ofInt

/-- The function `containsWord(tf []float64, wordIdx int) bool`. -/
def containsWord (tf : List F64) (wordIdx : Int) : Except String Bool :=
  if 0 ≤ wordIdx ∧ wordIdx < tf.length then
    .ok (F64.lt F64.zero (tf.getD wordIdx.toNat F64.zero))
  else .error "index out of range"

/-- The function `tokenize(corpus []string) [][]string`. -/
def tokenize (corpus : List String) : List (List String) :=
  corpus.foldl (fun tokens doc => tokens ++ [stringsSplit doc]) []

end TfIdf

/-! ## simple-embedding/main.go

The ranking of `main` calls `sort.Slice` of the Go library, which is not part of the
repository.  It is taken as a parameter `sortSlice`, of which only the documented
contract is assumed (`SortContract`): the result is a permutation of the input, it is
sorted when `less` is a transitive ordering, and the sort is not guaranteed to be
stable. -/

namespace SimpleEmbedding

/-- The type `Match`. -/
structure Match where
  Index : Int
  Score : F64
  deriving DecidableEq

/-- The loop of `main` that builds `matches`: one `Match{Index: i, Score: score}` for
every `i, score := range similarities`.  The state is `(matches, i)`. -/
def buildMatches (similarities : List F64) : List Match :=
  (similarities.foldl (fun (st : List Match × Int) score =>
    (st.1 ++ [{ Index := st.2, Score := score }], st.2 + 1)) (([] : List Match), (0 : Int))).1

/-- The ranking of `main`: `matches` sorted by
`sort.Slice(matches, func(i, j int) bool { return matches[i].Score > matches[j].Score })`. -/
def rankMatches (sortSlice : (Match → Match → Bool) → List Match → List Match)
    (similarities : List F64) : List Match :=
  sortSlice (fun mi mj => F64.gt mi.Score mj.Score) (buildMatches similarities)

/-- The requirement of the library on `less`, over the elements of the slice: a
transitive ordering (irreflexive, transitive, and with a transitive "not less"). -/
def TransitiveOrdering (less : Match → Match → Bool) (data : List Match) : Prop :=
  (∀ x ∈ data, less x x = false)
  ∧ (∀ x ∈ data, ∀ y ∈ data, ∀ z ∈ data,
      less x y = true → less y z = true → less x z = true)
  ∧ (∀ x ∈ data, ∀ y ∈ data, ∀ z ∈ data,
      less x y = false → less y z = false → less x z = false)

/-- The documented contract of `sort.Slice`: the result is a permutation of the input,
and when `less` is a transitive ordering no element is `less` than an earlier one.
Nothing is said of the order of elements neither of which is `less` than the other. -/
def SortContract (sort : (Match → Match → Bool) → List Match → List Match) : Prop :=
  ∀ less data, (sort less data).Perm data
    ∧ (TransitiveOrdering less data →
        (sort less data).Pairwise (fun x y => less y x = false))

/-- One step of an insertion sort: the element `x` moves left past every element it is
`less` than.  The part of the slice before `x` is given last element first. -/
def insertBack (less : Match → Match → Bool) (x : Match) : List Match → List Match
  | [] => [x]
  | y :: ys => if less x y then y :: insertBack less x ys else x :: y :: ys

/-- An insertion sort from the front of the slice: one sort that meets `SortContract`;
it leaves elements in place when no comparison is true. -/
def insertionSort (less : Match → Match → Bool) (data : List Match) : List Match :=
  (data.foldl (fun acc x => insertBack less x acc) []).reverse

/-- An insertion sort that takes the elements from the end of the slice: another sort
that meets `SortContract`; it returns elements that compare equal in the reverse of
their original order. -/
def insertionSortFromEnd (less : Match → Match → Bool) (data : List Match) : List Match :=
  insertionSort less data.reverse

/-- The candidates of a ranking: candidate `i` carries the score `similarities[i]`. -/
def candidates (similarities : List F64) : List Match :=
  similarities.enum.map (fun p => { Index := (p.1 : Int), Score := p.2 })

/-- The function `widenFloats(fs []float32) []float64`.  A `float32` is represented by
its value, which is a binary64 value as well, so that the conversion `float64(f)` is
exact: it returns the same value. -/
def widenFloats (fs : List F64) : List F64 :=
  fs.foldl (fun result f => result ++ [f]) []

/-- The function `cosineSimilarity(a, b []float64) float64` of simple-embedding: the
call of `log.Fatal` on different lengths is the error, and the quotient is returned
without any test of the norms. -/
def cosineSimilarity (a b : List F64) : Except String F64 :=
  if a.length ≠ b.length then .error "vectors must be same length"
  else do
    let st ← cosineLoop (F64.zero, F64.zero, F64.zero) a b
    pure (F64.div st.1 (F64.mul (F64.sqrt st.2.1) (F64.sqrt st.2.2)))

/-- The function `querySimilarities(query []float32, documentEmbeddings [][]float32)
[]float64`. -/
def querySimilarities (query : List F64) (documentEmbeddings : List (List F64)) :
    Except String (List F64) :=
  documentEmbeddings.foldlM (fun results doc => do
    let score ← cosineSimilarity (widenFloats doc) (widenFloats query)
    pure (results ++ [score])) []

end SimpleEmbedding

/-! ## Specification vocabulary -/

/-- The number of distinct tokens met strictly before the first occurrence of
`w` in the scan `toks`. -/
def distinctBefore (toks : List String) (w : String) : Nat :=
  (toks.take (toks.indexOf w)).toFinset.card

/-- The number of distinct tokens of a scan. -/
def distinctCount (toks : List String) : Nat := toks.toFinset.card

/-- The element-wise sum of the vectors `vs`, as a vector of length `n`: entry `j` is
the sum of the entries `j` of the vectors. -/
def elementwiseSum (n : Nat) (vs : List (List Int)) : List Int :=
  (List.range n).map (fun j => (vs.map (fun v => v.getD j 0)).sum)

/-- The number of documents of a corpus that contain the token `w`. -/
def docsContaining (tokens : List (List String)) (w : String) : Nat :=
  tokens.countP (fun doc => decide (w ∈ doc))

/-- Whether the document holds a token whose vocabulary index is `j`. -/
def hasIndex (vocab : GoMap) (doc : List String) (j : Nat) : Bool :=
  doc.any (fun w => decide (vocab.get w = some (j : Int)))

/-- The state `(vocab, index)` of `buildVocab` after scanning the tokens `p`. -/
structure VocabInv (st : GoMap × Int) (p : List String) : Prop where
  keys_nodup : (st.1.map Prod.fst).Nodup
  size : st.1.length = distinctCount p
  next : st.2 = (distinctCount p : Int)
  bound : ∀ w k, st.1.get w = some k → 0 ≤ k ∧ k < st.2
  onto : ∀ k : Int, 0 ≤ k → k < st.2 → ∃ w, st.1.get w = some k
  inj : ∀ w₁ w₂ k, st.1.get w₁ = some k → st.1.get w₂ = some k → w₁ = w₂
  get_iff : ∀ w k, st.1.get w = some k ↔ w ∈ p ∧ k = (distinctBefore p w : Int)


/-- The assumption on `math.Log` under which inverse document frequencies can be
compared: on finite positive arguments its value is finite, and it is monotone (a
larger argument never gives a smaller value; equal values are allowed, as rounding
makes them). -/
def LogMonotone (ln : F64 → F64) : Prop :=
  (∀ m, m ≠ 0 → m < F64.overflowMag →
      ∃ s r, r < F64.overflowMag ∧ ln (F64.fin false m) = F64.fin s r)
  ∧ (∀ m m', m ≠ 0 → m ≤ m' → m' < F64.overflowMag →
      F64.le (ln (F64.fin false m)) (ln (F64.fin false m')) = true)

/-- The assumption on `math.Log` under which tf-idf scores have a sign: `Log(1)` is
zero, and on a finite argument that is at least 1 its value is finite and not
negative. -/
def LogNonnegFromOne (ln : F64 → F64) : Prop :=
  F64.eq (ln F64.one) F64.zero = true
  ∧ ∀ m : Nat, F64.one.key ≤ (m : Int) → m < F64.overflowMag →
      (ln (F64.fin false m)).isFinite = true ∧ F64.ge (ln (F64.fin false m)) F64.zero = true

/-- A stand-in for `math.Log` that meets `LogNonnegFromOne` and `LogMonotone`: `x - 1`
on finite `x >= 1` (computed without rounding), zero on smaller positive arguments. -/
def lnMinusOne : F64 → F64
  | F64.fin false m => F64.fin false (m - 1 <<< 1074)
  | _ => F64.nan

/-- The rational value of a finite binary64 number; 0 for the infinities and the NaN. -/
def F64.toRat : F64 → ℚ
  | F64.fin s m => if s then -((m : ℚ) / 2 ^ 1074) else (m : ℚ) / 2 ^ 1074
  | _ => 0

/-- A finite binary64 number that is zero or of magnitude at least `2^-510`: its square,
and its product with another such number, do not fall in the subnormal range. -/
def F64.AwayFromUnderflow (x : F64) : Prop :=
  ∃ s m, x = F64.fin s m ∧ (m = 0 ∨ 2 ^ 564 ≤ m)

/-- The bound on the magnitude of a cosine computed in binary64 on vectors of length
`n`: with the unit roundoff `u = 2^-53`, it is `(1 + u)^(2n+3) / (1 - u)^(2n+1)`, a
little more than `1 + (4n + 4) u`. -/
def cosineBound (n : Nat) : ℚ :=
  (1 + 1 / 2 ^ 53) ^ (2 * n + 3) / (1 - 1 / 2 ^ 53) ^ (2 * n + 1)
/-! ## Theorems: the integer helpers of the binary64 model -/

theorem F64.shiftRight_eq_zero_iff (n s : Nat) : n >>> s = 0 ↔ n < 2 ^ s := by
  rw [Nat.shiftRight_eq_div_pow, Nat.div_eq_zero_iff (Nat.pow_pos (by decide))]

theorem F64.topShift_spec (fuel : Nat) :
    ∀ n s : Nat, 0 < s → n < 2 ^ (s * 2 ^ fuel) →
      n >>> F64.topShift fuel n s = 0 ∧ 0 < F64.topShift fuel n s := by
  induction fuel with
  | zero =>
    intro n s hs h
    simp only [F64.topShift]
    exact ⟨(F64.shiftRight_eq_zero_iff n s).mpr (by simpa using h), hs⟩
  | succ fuel ih =>
    intro n s hs h
    simp only [F64.topShift]
    split
    · next h0 => exact ⟨h0, hs⟩
    · exact ih n (2 * s) (by omega) (by
        have : 2 * s * 2 ^ fuel = s * 2 ^ (fuel + 1) := by ring
        rw [this]
        exact h)

theorem F64.bitLenSearch_spec (fuel : Nat) :
    ∀ n lo hi : Nat, lo < hi → hi ≤ lo + fuel → n >>> lo ≠ 0 → n >>> hi = 0 →
      n >>> F64.bitLenSearch fuel n lo hi = 0
      ∧ n >>> (F64.bitLenSearch fuel n lo hi - 1) ≠ 0
      ∧ 0 < F64.bitLenSearch fuel n lo hi := by
  induction fuel with
  | zero =>
    intro n lo hi h1 h2
    omega
  | succ fuel ih =>
    intro n lo hi h1 h2 hlo hhi
    simp only [F64.bitLenSearch]
    split
    · next hle =>
      have : hi - 1 = lo := by omega
      exact ⟨hhi, by rw [this]; exact hlo, by omega⟩
    · next hgt =>
      split
      · next hmid => exact ih n lo ((lo + hi) / 2) (by omega) (by omega) hlo hmid
      · next hmid => exact ih n ((lo + hi) / 2) hi (by omega) (by omega) hmid hhi

/-- The number `bitLen n` is the length of the binary expansion of `n`. -/
theorem F64.bitLen_spec (n : Nat) (h : n ≠ 0) :
    2 ^ (F64.bitLen n - 1) ≤ n ∧ n < 2 ^ F64.bitLen n := by
  have hfuel : n < 2 ^ (1 * 2 ^ n) := by
    have h1 : n < 2 ^ n := Nat.lt_two_pow n
    have h2 : n < 2 ^ (2 ^ n) := Nat.lt_of_lt_of_le (Nat.lt_two_pow n)
      (Nat.pow_le_pow_right (by decide) h1.le)
    simpa using h2
  obtain ⟨htop, hpos⟩ := F64.topShift_spec n n 1 (by decide) hfuel
  obtain ⟨h1, h2, _⟩ := F64.bitLenSearch_spec (F64.topShift n n 1) n 0 (F64.topShift n n 1)
    hpos (by omega) (by simpa using h) htop
  have hdef : F64.bitLen n
      = F64.bitLenSearch (F64.topShift n n 1) n 0 (F64.topShift n n 1) := by
    simp [F64.bitLen, h]
  rw [hdef]
  constructor
  · by_contra hlt
    exact h2 ((F64.shiftRight_eq_zero_iff _ _).mpr (by omega))
  · exact (F64.shiftRight_eq_zero_iff _ _).mp h1

theorem F64.isqrtLoop_eq_iter (fuel : Nat) :
    ∀ n x : Nat, x ≤ fuel → F64.isqrtLoop fuel n x = Nat.sqrt.iter n x := by
  induction fuel with
  | zero =>
    intro n x hx
    have : x = 0 := by omega
    subst this
    unfold Nat.sqrt.iter
    simp [F64.isqrtLoop]
  | succ fuel ih =>
    intro n x _
    unfold Nat.sqrt.iter
    simp only [F64.isqrtLoop]
    split
    · next hlt => exact ih n _ (by omega)
    · rfl

/-- The function `isqrt` is the integer square root. -/
theorem F64.isqrt_eq_sqrt (n : Nat) : F64.isqrt n = Nat.sqrt n := by
  by_cases h : n = 0
  · subst h
    simp [F64.isqrt]
  · have hdef : F64.isqrt n = Nat.sqrt.iter n (1 <<< (F64.bitLen n / 2 + 1)) := by
      simp only [F64.isqrt, h, if_false]
      exact F64.isqrtLoop_eq_iter _ n _ (le_refl _)
    rw [hdef, Nat.eq_sqrt]
    refine ⟨Nat.sqrt.iter_sq_le _ _, Nat.sqrt.lt_iter_succ_sq _ _ ?_⟩
    have hlen := (F64.bitLen_spec n h).2
    rw [Nat.one_shiftLeft]
    have h1 : F64.bitLen n ≤ 2 * (F64.bitLen n / 2 + 1) := by omega
    have h2 : 2 ^ F64.bitLen n ≤ 2 ^ (2 * (F64.bitLen n / 2 + 1)) :=
      Nat.pow_le_pow_right (by decide) h1
    have h3 : 2 ^ (2 * (F64.bitLen n / 2 + 1))
        = 2 ^ (F64.bitLen n / 2 + 1) * 2 ^ (F64.bitLen n / 2 + 1) := by
      rw [← Nat.pow_add]; congr 1; omega
    have h4 : 2 ^ (F64.bitLen n / 2 + 1) * 2 ^ (F64.bitLen n / 2 + 1)
        ≤ (2 ^ (F64.bitLen n / 2 + 1) + 1) * (2 ^ (F64.bitLen n / 2 + 1) + 1) :=
      Nat.mul_le_mul (Nat.le_succ _) (Nat.le_succ _)
    omega

/-- The number `roundHalfEven p q` is an integer nearest to `p / q`: twice its distance
to `p / q` is at most 1, and at a tie it is even. -/
theorem F64.roundHalfEven_nearest (p q : Nat) (hq : 0 < q) :
    2 * (F64.roundHalfEven p q * q) ≤ 2 * p + q
    ∧ 2 * p ≤ 2 * (F64.roundHalfEven p q * q) + q
    ∧ ((2 * (F64.roundHalfEven p q * q) = 2 * p + q
        ∨ 2 * p = 2 * (F64.roundHalfEven p q * q) + q) → F64.roundHalfEven p q % 2 = 0) := by
  have hdm : p = p / q * q + p % q := by
    have := Nat.div_add_mod p q
    rw [Nat.mul_comm] at this
    omega
  have hlt : p % q < q := Nat.mod_lt p hq
  unfold F64.roundHalfEven
  split
  · next hup =>
    rw [Nat.add_mul, Nat.one_mul]
    refine ⟨by omega, by omega, ?_⟩
    intro htie
    rcases hup with h | ⟨h1, h2⟩
    · omega
    · omega
  · next hdown =>
    simp only [not_or, not_lt, not_and] at hdown
    refine ⟨by omega, by omega, ?_⟩
    intro htie
    have : 2 * (p % q) = q := by omega
    have := hdown.2 this
    omega

/-- The shift `ulpShift t` places the last of 53 significant bits: it is 0 below `2^53`,
and otherwise `t / 2 ^ ulpShift t` has exactly 53 binary digits. -/
theorem F64.ulpShift_spec (t : Nat) :
    (t < 2 ^ 53 ∧ F64.ulpShift t = 0)
    ∨ (2 ^ 52 ≤ t / 2 ^ F64.ulpShift t ∧ t / 2 ^ F64.ulpShift t < 2 ^ 53) := by
  have h53 : (1 <<< 53 : Nat) = 2 ^ 53 := Nat.one_shiftLeft 53
  unfold F64.ulpShift
  rw [h53]
  by_cases h : t < 2 ^ 53
  · left
    exact ⟨h, by rw [if_pos h]⟩
  · right
    rw [if_neg h]
    have ht : t ≠ 0 := by
      intro h0
      rw [h0] at h
      exact h (by decide)
    obtain ⟨hlo, hhi⟩ := F64.bitLen_spec t ht
    have hL : 53 < F64.bitLen t := by
      by_contra hle
      have : 2 ^ F64.bitLen t ≤ 2 ^ 53 := Nat.pow_le_pow_right (by decide) (by omega)
      omega
    have e1 : 2 ^ (F64.bitLen t - 1) = 2 ^ 52 * 2 ^ (F64.bitLen t - 53) := by
      rw [← Nat.pow_add]; congr 1; omega
    have e2 : 2 ^ F64.bitLen t = 2 ^ 53 * 2 ^ (F64.bitLen t - 53) := by
      rw [← Nat.pow_add]; congr 1; omega
    have hpos : 0 < 2 ^ (F64.bitLen t - 53) := Nat.pow_pos (by decide)
    constructor
    · rw [Nat.le_div_iff_mul_le hpos, ← e1]
      exact hlo
    · rw [Nat.div_lt_iff_lt_mul hpos, ← e2]
      exact hhi

/-- The rounding `round neg p q` of the exact value `p / q`: the result is `k * 2^sh`
(or the infinity when that is `2^1024` or more), where `2^sh` is the spacing of the
binary64 values around `p / q`, the significand `k` has at most 53 bits (`k <= 2^53`),
and `k * 2^sh` is nearest to `p / q`: twice the distance is at most `2^sh`, and at a
tie `k` is even. -/
theorem F64.round_spec (neg : Bool) (p q : Nat) (hq : 0 < q) :
    ∃ k sh : Nat,
      (F64.round neg p q = if k * 2 ^ sh < F64.overflowMag then F64.fin neg (k * 2 ^ sh)
        else F64.inf neg)
      ∧ sh = F64.ulpShift (p / q)
      ∧ k ≤ 2 ^ 53
      ∧ 2 * (k * 2 ^ sh * q) ≤ 2 * p + 2 ^ sh * q
      ∧ 2 * p ≤ 2 * (k * 2 ^ sh * q) + 2 ^ sh * q
      ∧ ((2 * (k * 2 ^ sh * q) = 2 * p + 2 ^ sh * q
          ∨ 2 * p = 2 * (k * 2 ^ sh * q) + 2 ^ sh * q) → k % 2 = 0) := by
  have hQ : 0 < q * 2 ^ F64.ulpShift (p / q) := Nat.mul_pos hq (Nat.pow_pos (by decide))
  obtain ⟨h1, h2, h3⟩ := F64.roundHalfEven_nearest p (q * 2 ^ F64.ulpShift (p / q)) hQ
  refine ⟨F64.roundHalfEven p (q * 2 ^ F64.ulpShift (p / q)), F64.ulpShift (p / q),
    ?_, rfl, ?_, ?_, ?_, ?_⟩
  · simp only [F64.round, Nat.shiftLeft_eq]
  · have hk : F64.roundHalfEven p (q * 2 ^ F64.ulpShift (p / q))
        ≤ p / (q * 2 ^ F64.ulpShift (p / q)) + 1 := by
      unfold F64.roundHalfEven
      split <;> omega
    have hdd : p / (q * 2 ^ F64.ulpShift (p / q)) = p / q / 2 ^ F64.ulpShift (p / q) :=
      (Nat.div_div_eq_div_mul p q _).symm
    rcases F64.ulpShift_spec (p / q) with ⟨hlt, hz⟩ | ⟨_, hhi⟩
    · rw [hz] at hk
      simp only [pow_zero, Nat.mul_one] at hk
      rw [hz]
      simp only [pow_zero, Nat.mul_one]
      omega
    · rw [hdd] at hk
      omega
  · have : F64.roundHalfEven p (q * 2 ^ F64.ulpShift (p / q)) * 2 ^ F64.ulpShift (p / q) * q
        = F64.roundHalfEven p (q * 2 ^ F64.ulpShift (p / q)) * (q * 2 ^ F64.ulpShift (p / q)) := by
      ring
    rw [this, Nat.mul_comm (2 ^ F64.ulpShift (p / q)) q]
    exact h1
  · have : F64.roundHalfEven p (q * 2 ^ F64.ulpShift (p / q)) * 2 ^ F64.ulpShift (p / q) * q
        = F64.roundHalfEven p (q * 2 ^ F64.ulpShift (p / q)) * (q * 2 ^ F64.ulpShift (p / q)) := by
      ring
    rw [this, Nat.mul_comm (2 ^ F64.ulpShift (p / q)) q]
    exact h2
  · have : F64.roundHalfEven p (q * 2 ^ F64.ulpShift (p / q)) * 2 ^ F64.ulpShift (p / q) * q
        = F64.roundHalfEven p (q * 2 ^ F64.ulpShift (p / q)) * (q * 2 ^ F64.ulpShift (p / q)) := by
      ring
    rw [this, Nat.mul_comm (2 ^ F64.ulpShift (p / q)) q]
    exact h3

theorem F64.sqrt_div_four_pow (n s : Nat) :
    Nat.sqrt (n / (2 ^ s * 2 ^ s)) = Nat.sqrt n / 2 ^ s := by
  have hpos : 0 < 2 ^ s := Nat.pow_pos (by decide)
  have hpos2 : 0 < 2 ^ s * 2 ^ s := Nat.mul_pos hpos hpos
  symm
  rw [Nat.eq_sqrt]
  have hr1 : Nat.sqrt n * Nat.sqrt n ≤ n := Nat.sqrt_le n
  have hr2 : n < (Nat.sqrt n + 1) * (Nat.sqrt n + 1) := Nat.lt_succ_sqrt n
  have hj1 : Nat.sqrt n / 2 ^ s * 2 ^ s ≤ Nat.sqrt n := Nat.div_mul_le_self _ _
  have hj2 : Nat.sqrt n + 1 ≤ (Nat.sqrt n / 2 ^ s + 1) * 2 ^ s := by
    have := Nat.lt_div_mul_add (a := Nat.sqrt n) hpos
    rw [Nat.add_mul, Nat.one_mul]
    omega
  constructor
  · rw [Nat.le_div_iff_mul_le hpos2]
    calc Nat.sqrt n / 2 ^ s * (Nat.sqrt n / 2 ^ s) * (2 ^ s * 2 ^ s)
        = (Nat.sqrt n / 2 ^ s * 2 ^ s) * (Nat.sqrt n / 2 ^ s * 2 ^ s) := by ring
      _ ≤ Nat.sqrt n * Nat.sqrt n := Nat.mul_le_mul hj1 hj1
      _ ≤ n := hr1
  · rw [Nat.div_lt_iff_lt_mul hpos2]
    calc n < (Nat.sqrt n + 1) * (Nat.sqrt n + 1) := hr2
      _ ≤ ((Nat.sqrt n / 2 ^ s + 1) * 2 ^ s) * ((Nat.sqrt n / 2 ^ s + 1) * 2 ^ s) :=
        Nat.mul_le_mul hj2 hj2
      _ = (Nat.sqrt n / 2 ^ s + 1) * (Nat.sqrt n / 2 ^ s + 1) * (2 ^ s * 2 ^ s) := by ring

/-- The function `sqrt` on a positive finite value `m * 2^-1074`: the result is
`k * 2^sh`, where `2^sh` is the spacing of the binary64 values around the exact root of
`n = m * 2^1074` (the root in units of `2^-1074`; `n` is written `m <<< 1074`), `k` has at most 53 bits, and
`k * 2^sh` is within half a spacing of the exact root:
`(2k - 1)^2 * 4^sh <= 4n <= (2k + 1)^2 * 4^sh`. -/
theorem F64.sqrt_spec (m : Nat) (hm : m ≠ 0) :
    ∃ k sh : Nat,
      F64.sqrt (F64.fin false m) = F64.fin false (k * 2 ^ sh)
      ∧ sh = F64.ulpShift (Nat.sqrt (m <<< 1074))
      ∧ k ≤ 2 ^ 53
      ∧ (2 * k - 1) * (2 * k - 1) * (2 ^ sh * 2 ^ sh) ≤ 4 * (m <<< 1074)
      ∧ 4 * (m <<< 1074) ≤ (2 * k + 1) * (2 * k + 1) * (2 ^ sh * 2 ^ sh) := by
  simp only [F64.sqrt, hm, if_false, Bool.false_eq_true]
  generalize m <<< 1074 = n
  have hfloor : F64.isqrt (n >>> (2 * F64.ulpShift (Nat.sqrt n)))
      = Nat.sqrt n / 2 ^ F64.ulpShift (Nat.sqrt n) := by
    rw [F64.isqrt_eq_sqrt, Nat.shiftRight_eq_div_pow, Nat.two_mul, Nat.pow_add,
      F64.sqrt_div_four_pow]
  generalize hsh : F64.ulpShift (Nat.sqrt n) = sh at hfloor
  have hpos : 0 < 2 ^ sh * 2 ^ sh := Nat.mul_pos (Nat.pow_pos (by decide)) (Nat.pow_pos (by decide))
  have hk53 : Nat.sqrt n / 2 ^ sh < 2 ^ 53 := by
    rcases F64.ulpShift_spec (Nat.sqrt n) with ⟨hlt, hz⟩ | ⟨_, hhi⟩
    · rw [hsh] at hz
      rw [hz]
      simpa using hlt
    · rw [hsh] at hhi
      exact hhi
  have hk := hfloor ▸ F64.isqrt_eq_sqrt (n >>> (2 * sh))
  have hq : Nat.sqrt (n / (2 ^ sh * 2 ^ sh)) = Nat.sqrt n / 2 ^ sh := F64.sqrt_div_four_pow n sh
  have hlo : Nat.sqrt n / 2 ^ sh * (Nat.sqrt n / 2 ^ sh) * (2 ^ sh * 2 ^ sh) ≤ n := by
    have := Nat.sqrt_le (n / (2 ^ sh * 2 ^ sh))
    rw [hq, Nat.le_div_iff_mul_le hpos] at this
    exact this
  have hhi : n < (Nat.sqrt n / 2 ^ sh + 1) * (Nat.sqrt n / 2 ^ sh + 1) * (2 ^ sh * 2 ^ sh) := by
    have := Nat.lt_succ_sqrt (n / (2 ^ sh * 2 ^ sh))
    rw [hq, Nat.div_lt_iff_lt_mul hpos] at this
    exact this
  have hshift : ∀ a : Nat, a <<< (2 * sh) = a * (2 ^ sh * 2 ^ sh) := by
    intro a
    rw [Nat.shiftLeft_eq, Nat.two_mul, Nat.pow_add]
  rw [F64.isqrt_eq_sqrt n, hsh]
  simp only [hfloor, hshift]
  simp only [Nat.shiftLeft_eq]
  generalize Nat.sqrt n / 2 ^ sh = k at hk53 hlo hhi ⊢
  obtain ⟨w, hw⟩ : ∃ w, w = 2 ^ sh * 2 ^ sh := ⟨_, rfl⟩
  rw [← hw] at hpos hlo hhi
  simp only [← hw]
  split
  · next hup =>
    refine ⟨k + 1, sh, rfl, rfl, by omega, ?_, ?_⟩
    · have e : 2 * (k + 1) - 1 = 2 * k + 1 := by omega
      rw [e, ← hw]
      rcases hup with h | ⟨h, _⟩
      · exact h.le
      · exact h.le
    · have e : (2 * (k + 1) + 1) * (2 * (k + 1) + 1) * w
          = 4 * ((k + 1) * (k + 1) * w) + (4 * (k + 1) + 1) * w := by ring
      rw [← hw, e]
      omega
  · next hdown =>
    simp only [not_or, not_lt] at hdown
    refine ⟨k, sh, rfl, rfl, by omega, ?_, by rw [← hw]; exact hdown.1⟩
    have e : (2 * k - 1) * (2 * k - 1) * w ≤ 4 * (k * k * w) := by
      have h1 : (2 * k - 1) * (2 * k - 1) ≤ (2 * k) * (2 * k) :=
        Nat.mul_le_mul (Nat.sub_le _ _) (Nat.sub_le _ _)
      calc (2 * k - 1) * (2 * k - 1) * w ≤ (2 * k) * (2 * k) * w := Nat.mul_le_mul_right w h1
        _ = 4 * (k * k * w) := by ring
    rw [← hw]
    omega
/-! ## Theorems: vocabulary construction -/

theorem GoMap.get_append_of_none (m : GoMap) (k : String) (v : Int) (w : String)
    (h : m.get k = none) :
    GoMap.get (m ++ [(k, v)]) w = if w = k then some v else m.get w := by
  induction m with
  | nil => simp [GoMap.get, eq_comm]
  | cons e rest ih =>
    obtain ⟨k', v'⟩ := e
    simp only [GoMap.get, List.cons_append] at h ⊢
    by_cases hk : k' = k
    · simp [hk] at h
    · simp only [hk, if_false] at h
      by_cases hw : k' = w
      · subst hw
        simp [hk]
      · simp [hw, ih h]

theorem GoMap.get_isSome_iff (m : GoMap) (w : String) :
    (m.get w).isSome ↔ w ∈ m.map Prod.fst := by
  induction m with
  | nil => simp [GoMap.get]
  | cons e rest ih =>
    obtain ⟨k', v'⟩ := e
    simp only [GoMap.get, List.map_cons, List.mem_cons]
    by_cases hk : k' = w
    · simp [hk]
    · have hk' : ¬ w = k' := fun h => hk h.symm
      simp [hk, hk', ih]

theorem GoMap.get_eq_none_iff (m : GoMap) (w : String) :
    m.get w = none ↔ w ∉ m.map Prod.fst := by
  rw [← GoMap.get_isSome_iff]
  cases m.get w <;> simp

theorem GoMap.len_of_nodup (m : GoMap) (h : (m.map Prod.fst).Nodup) : m.len = m.length := by
  simp [GoMap.len, List.dedup_eq_self.mpr h]

theorem distinctCount_snoc (p : List String) (x : String) :
    distinctCount (p ++ [x]) = if x ∈ p then distinctCount p else distinctCount p + 1 := by
  unfold distinctCount
  rw [List.toFinset_append]
  have hx : ([x] : List String).toFinset = {x} := by simp
  rw [hx, Finset.union_comm, ← Finset.insert_eq]
  by_cases h : x ∈ p
  · rw [if_pos h, Finset.insert_eq_of_mem (List.mem_toFinset.mpr h)]
  · rw [if_neg h, Finset.card_insert_of_not_mem (fun hm => h (List.mem_toFinset.mp hm))]

theorem distinctBefore_append_of_mem (p q : List String) (w : String) (h : w ∈ p) :
    distinctBefore (p ++ q) w = distinctBefore p w := by
  unfold distinctBefore
  rw [List.indexOf_append_of_mem h,
    List.take_append_of_le_length (List.indexOf_lt_length.mpr h).le]

theorem distinctBefore_snoc_self (p : List String) (x : String) (h : x ∉ p) :
    distinctBefore (p ++ [x]) x = distinctCount p := by
  unfold distinctBefore distinctCount
  rw [List.indexOf_append_of_not_mem h]
  simp

theorem VocabInv.init : VocabInv (([] : GoMap), (0 : Int)) [] := by
  refine ⟨by simp, by simp [distinctCount], by simp [distinctCount], ?_, ?_, ?_, ?_⟩
  · intro w k h; simp [GoMap.get] at h
  · intro k h0 h1; omega
  · intro w₁ w₂ k h; simp [GoMap.get] at h
  · intro w k; simp [GoMap.get]

theorem VocabInv.step {st : GoMap × Int} {p : List String} (inv : VocabInv st p) (x : String) :
    VocabInv (BagOfWords.buildVocabStep st x) (p ++ [x]) := by
  unfold BagOfWords.buildVocabStep
  cases hx : st.1.get x with
  | some k₀ =>
    have hxp : x ∈ p := ((inv.get_iff x k₀).mp hx).1
    have hmem : ∀ w, w ∈ p ++ [x] ↔ w ∈ p := by
      intro w
      simp only [List.mem_append, List.mem_singleton]
      constructor
      · rintro (h | h)
        · exact h
        · exact h ▸ hxp
      · exact Or.inl
    have hcount : distinctCount (p ++ [x]) = distinctCount p := by
      rw [distinctCount_snoc, if_pos hxp]
    refine ⟨inv.keys_nodup, by rw [hcount]; exact inv.size, by rw [hcount]; exact inv.next,
      inv.bound, inv.onto, inv.inj, ?_⟩
    intro w k
    rw [inv.get_iff, hmem]
    constructor
    · rintro ⟨h1, h2⟩
      exact ⟨h1, by rw [distinctBefore_append_of_mem p [x] w h1]; exact h2⟩
    · rintro ⟨h1, h2⟩
      exact ⟨h1, by rw [distinctBefore_append_of_mem p [x] w h1] at h2; exact h2⟩
  | none =>
    have hxk : x ∉ st.1.map Prod.fst := (GoMap.get_eq_none_iff _ _).mp hx
    have hxp : x ∉ p := by
      intro hmem
      have := (inv.get_iff x (distinctBefore p x)).mpr ⟨hmem, rfl⟩
      rw [hx] at this
      exact Option.noConfusion this
    have hset : st.1.set x st.2 = st.1 ++ [(x, st.2)] := by
      simp [GoMap.set, hx]
    have hget : ∀ w, GoMap.get (st.1 ++ [(x, st.2)]) w
        = if w = x then some st.2 else st.1.get w :=
      fun w => GoMap.get_append_of_none st.1 x st.2 w hx
    have hcount : distinctCount (p ++ [x]) = distinctCount p + 1 := by
      rw [distinctCount_snoc, if_neg hxp]
    simp only [hset]
    refine ⟨?_, ?_, ?_, ?_, ?_, ?_, ?_⟩
    · simp only [List.map_append, List.map_cons, List.map_nil]
      refine List.Nodup.append inv.keys_nodup (List.nodup_singleton x) ?_
      intro a ha hax
      rw [List.mem_singleton] at hax
      exact hxk (hax ▸ ha)
    · simp [hcount, inv.size]
    · simp [hcount, inv.next]
    · intro w k h
      rw [hget] at h
      by_cases hw : w = x
      · rw [if_pos hw] at h
        have hk : st.2 = k := Option.some.inj h
        have := inv.next
        simp only at this ⊢
        omega
      · rw [if_neg hw] at h
        have := inv.bound w k h
        simp only at this ⊢
        omega
    · intro k h0 h1
      by_cases hk : k = st.2
      · exact ⟨x, by rw [hget, if_pos rfl, hk]⟩
      · have hlt : k < st.2 := by simp only at h1; omega
        obtain ⟨w, hw⟩ := inv.onto k h0 hlt
        have hne : w ≠ x := by
          intro h
          rw [h, hx] at hw
          exact Option.noConfusion hw
        exact ⟨w, by rw [hget, if_neg hne]; exact hw⟩
    · intro w₁ w₂ k h₁ h₂
      rw [hget] at h₁ h₂
      by_cases hw₁ : w₁ = x <;> by_cases hw₂ : w₂ = x
      · rw [hw₁, hw₂]
      · rw [if_pos hw₁] at h₁
        rw [if_neg hw₂] at h₂
        have := inv.bound w₂ k h₂
        have hk : st.2 = k := Option.some.inj h₁
        omega
      · rw [if_neg hw₁] at h₁
        rw [if_pos hw₂] at h₂
        have := inv.bound w₁ k h₁
        have hk : st.2 = k := Option.some.inj h₂
        omega
      · rw [if_neg hw₁] at h₁
        rw [if_neg hw₂] at h₂
        exact inv.inj w₁ w₂ k h₁ h₂
    · intro w k
      rw [hget]
      by_cases hw : w = x
      · subst hw
        rw [if_pos rfl, distinctBefore_snoc_self p w hxp]
        simp only [List.mem_append, List.mem_singleton, or_true, true_and]
        rw [inv.next]
        constructor
        · intro h; exact (Option.some.inj h).symm
        · intro h; rw [h]
      · rw [if_neg hw, inv.get_iff]
        simp only [List.mem_append, List.mem_singleton, hw, or_false]
        constructor
        · rintro ⟨h1, h2⟩
          exact ⟨h1, by rw [distinctBefore_append_of_mem p [x] w h1]; exact h2⟩
        · rintro ⟨h1, h2⟩
          exact ⟨h1, by rw [distinctBefore_append_of_mem p [x] w h1] at h2; exact h2⟩

theorem VocabInv.scan {st : GoMap × Int} {p : List String} (inv : VocabInv st p)
    (q : List String) : VocabInv (q.foldl BagOfWords.buildVocabStep st) (p ++ q) := by
  induction q generalizing st p with
  | nil => simpa using inv
  | cons x q ih =>
    have := ih (inv.step x)
    simpa using this

theorem buildVocab_inv (tokens : List (List String)) :
    ∃ idx : Int, VocabInv (BagOfWords.buildVocab tokens, idx) tokens.flatten := by
  refine ⟨(tokens.foldl (fun st doc => doc.foldl BagOfWords.buildVocabStep st)
    (([] : GoMap), (0 : Int))).2, ?_⟩
  have := VocabInv.init.scan tokens.flatten
  rw [List.foldl_flatten] at this
  simpa [BagOfWords.buildVocab] using this

theorem TfIdf.buildVocab_eq (tokens : List (List String)) :
    TfIdf.buildVocab tokens = BagOfWords.buildVocab tokens := rfl

/-- Claim C1. For every corpus, `buildVocab` (the same function in bag-of-words and in
tf-idf) returns a map whose keys are exactly the tokens of the corpus, whose size is
the number `n` of distinct tokens, whose values lie in `0 .. n-1` with every such
value carried by exactly one token, and where a token has index `k` exactly when `k`
distinct tokens were met before its first occurrence in the scan of the documents in
order, the tokens of each document in order. -/
theorem buildVocab_first_seen_indices (tokens : List (List String)) :
    TfIdf.buildVocab tokens = BagOfWords.buildVocab tokens
    ∧ (∀ w, ((BagOfWords.buildVocab tokens).get w).isSome ↔ w ∈ tokens.flatten)
    ∧ (BagOfWords.buildVocab tokens).len = distinctCount tokens.flatten
    ∧ (∀ w k, (BagOfWords.buildVocab tokens).get w = some k →
        0 ≤ k ∧ k < (distinctCount tokens.flatten : Int))
    ∧ (∀ k : Nat, k < distinctCount tokens.flatten →
        ∃! w, (BagOfWords.buildVocab tokens).get w = some (k : Int))
    ∧ (∀ w k, (BagOfWords.buildVocab tokens).get w = some k ↔
        w ∈ tokens.flatten ∧ k = (distinctBefore tokens.flatten w : Int)) := by
  obtain ⟨idx, inv⟩ := buildVocab_inv tokens
  have hnext : idx = (distinctCount tokens.flatten : Int) := inv.next
  refine ⟨rfl, ?_, ?_, ?_, ?_, inv.get_iff⟩
  · intro w
    constructor
    · intro h
      obtain ⟨k, hk⟩ := Option.isSome_iff_exists.mp h
      exact ((inv.get_iff w k).mp hk).1
    · intro h
      rw [(inv.get_iff w _).mpr ⟨h, rfl⟩]
      rfl
  · rw [GoMap.len_of_nodup _ inv.keys_nodup]
    exact inv.size
  · intro w k h
    have := inv.bound w k h
    simp only at this
    omega
  · intro k hk
    obtain ⟨w, hw⟩ := inv.onto (k : Int) (by omega) (by simp only; omega)
    exact ⟨w, hw, fun w' hw' => inv.inj w' w _ hw' hw⟩

/-! ## Theorems: slices -/

theorem makeInts_natCast (n : Nat) : makeInts (n : Int) = .ok (List.replicate n 0) := by
  simp [makeInts]

theorem sliceAdd_natCast (s : List Int) (i : Nat) (d : Int) (h : i < s.length) :
    sliceAdd s (i : Int) d = .ok (s.set i (s.getD i 0 + d)) := by
  have h' : (i : Int) < (s.length : Int) := by exact_mod_cast h
  simp [sliceAdd, sliceGet, sliceSet, h', bind, Except.bind]

theorem sliceSet_natCast (s : List Int) (i : Nat) (x : Int) (h : i < s.length) :
    sliceSet s (i : Int) x = .ok (s.set i x) := by
  have h' : (i : Int) < (s.length : Int) := by exact_mod_cast h
  simp [sliceSet, h']

theorem getD_set_of_lt (s : List Int) (i j : Nat) (x : Int) (h : i < s.length) :
    (s.set i x).getD j 0 = if j = i then x else s.getD j 0 := by
  simp only [List.getD_eq_getElem?_getD, List.getElem?_set]
  by_cases hij : i = j
  · subst hij
    simp [h]
  · have hji : ¬ j = i := fun e => hij e.symm
    simp [hij, hji]

theorem list_ext_getD {a b : List Int} (hlen : a.length = b.length)
    (h : ∀ j, a.getD j 0 = b.getD j 0) : a = b := by
  apply List.ext_getElem hlen
  intro j h₁ h₂
  have := h j
  simpa [List.getD_eq_getElem?_getD, List.getElem?_eq_getElem h₁,
    List.getElem?_eq_getElem h₂] using this

theorem getD_of_length_le (s : List Int) (j : Nat) (h : s.length ≤ j) : s.getD j 0 = 0 := by
  simp [List.getD_eq_getElem?_getD, List.getElem?_eq_none h]

/-! ## Theorems: one-hot vectors, bag of words and term frequency -/

theorem addVector_spec (vec : List Int) :
    ∀ (bow : List Int) (i : Nat), i + vec.length ≤ bow.length →
      ∃ r, BagOfWords.addVector bow i vec = .ok r ∧ r.length = bow.length ∧
        ∀ j, r.getD j 0 = bow.getD j 0 + (if i ≤ j then vec.getD (j - i) 0 else 0) := by
  induction vec with
  | nil =>
    intro bow i _
    exact ⟨bow, rfl, rfl, by intro j; simp⟩
  | cons val rest ih =>
    intro bow i h
    have hi : i < bow.length := by simp at h; omega
    obtain ⟨r, hr, hlen, hget⟩ := ih (bow.set i (bow.getD i 0 + val)) (i + 1)
      (by simp at h ⊢; omega)
    refine ⟨r, ?_, by simpa using hlen, ?_⟩
    · rw [BagOfWords.addVector, sliceAdd_natCast bow i val hi]
      exact hr
    · intro j
      rw [hget j, getD_set_of_lt _ _ _ _ hi]
      by_cases hji : j = i
      · subst hji
        simp
      · by_cases hlt : i ≤ j
        · have h1 : i + 1 ≤ j := by omega
          have h2 : j - i = (j - (i + 1)) + 1 := by omega
          simp only [hji, if_false, h1, hlt, if_true]
          rw [h2]
          simp
        · have h1 : ¬ i + 1 ≤ j := by omega
          simp [hji, hlt, h1]

theorem oneHot_char (vocab : GoMap) (h : vocab.IndicesInRange) (w : String) :
    ∃ v, BagOfWords.oneHot w vocab = .ok v ∧ v.length = vocab.len ∧
      ∀ j : Nat, v.getD j 0 = if vocab.get w = some (j : Int) then 1 else 0 := by
  unfold BagOfWords.oneHot
  rw [makeInts_natCast]
  cases hw : vocab.get w with
  | none =>
    refine ⟨List.replicate vocab.len 0, rfl, by simp, ?_⟩
    intro j
    by_cases hj : j < vocab.len
    · simp [List.getD_eq_getElem?_getD, List.getElem?_replicate, hj]
    · simp [List.getD_eq_getElem?_getD, List.getElem?_replicate, hj]
  | some i =>
    obtain ⟨h0, h1⟩ := h w i hw
    obtain ⟨k, rfl⟩ := Int.eq_ofNat_of_zero_le h0
    have hk : k < (List.replicate vocab.len (0 : Int)).length := by
      simp only [List.length_replicate]
      exact_mod_cast h1
    refine ⟨(List.replicate vocab.len 0).set k 1, ?_, by simp, ?_⟩
    · show sliceSet _ _ _ = _
      exact sliceSet_natCast _ k 1 hk
    · intro j
      rw [getD_set_of_lt _ _ _ _ hk]
      by_cases hj : j = k
      · subst hj
        simp
      · have hne : ¬ (k : Int) = (j : Int) := by
          intro e
          exact hj (by exact_mod_cast e.symm)
        have hz : (List.replicate vocab.len (0 : Int)).getD j 0 = 0 := by
          by_cases hjl : j < vocab.len
          · simp [List.getD_eq_getElem?_getD, List.getElem?_replicate, hjl]
          · simp [List.getD_eq_getElem?_getD, List.getElem?_replicate, hjl]
        simp [hj, hne, hz]

theorem documentToOneHotSequence_fold (vocab : GoMap) (h : vocab.IndicesInRange)
    (doc : List String) :
    ∀ acc : List (List Int), ∃ ohs,
      doc.foldlM (fun result word => do
        let vec ← BagOfWords.oneHot word vocab
        pure (result ++ [vec])) acc = Except.ok (acc ++ ohs) ∧
      List.Forall₂ (fun w v => BagOfWords.oneHot w vocab = .ok v) doc ohs := by
  induction doc with
  | nil =>
    intro acc
    exact ⟨[], by simp [pure, Except.pure], List.Forall₂.nil⟩
  | cons w rest ih =>
    intro acc
    obtain ⟨v, hv, _, _⟩ := oneHot_char vocab h w
    obtain ⟨ohs, hfold, hall⟩ := ih (acc ++ [v])
    refine ⟨v :: ohs, ?_, List.Forall₂.cons hv hall⟩
    rw [List.foldlM_cons, hv]
    simpa [bind, Except.bind, pure, Except.pure] using hfold

theorem bagOfWords_fold (n : Nat) (vs : List (List Int)) (hvs : ∀ v ∈ vs, v.length = n) :
    ∀ bow : List Int, bow.length = n → ∃ r,
      vs.foldlM (fun bow vec => BagOfWords.addVector bow 0 vec) bow = Except.ok r ∧
      r.length = n ∧
      ∀ j, r.getD j 0 = bow.getD j 0 + (vs.map (fun v => v.getD j 0)).sum := by
  induction vs with
  | nil =>
    intro bow hb
    exact ⟨bow, by simp [pure, Except.pure], hb, by simp⟩
  | cons v rest ih =>
    intro bow hb
    have hv : v.length = n := hvs v (List.mem_cons_self _ _)
    obtain ⟨b₁, h₁, hl₁, hg₁⟩ := addVector_spec v bow 0 (by omega)
    obtain ⟨r, hr, hlr, hgr⟩ := ih (fun u hu => hvs u (List.mem_cons_of_mem _ hu)) b₁
      (by omega)
    refine ⟨r, ?_, hlr, ?_⟩
    · rw [List.foldlM_cons, h₁]
      exact hr
    · intro j
      rw [hgr j, hg₁ j]
      simp only [Nat.zero_le, if_true, Nat.sub_zero, List.map_cons, List.sum_cons]
      ring

theorem termFrequency_fold (vocab : GoMap) (h : vocab.IndicesInRange) (doc : List String) :
    ∀ tf : List Int, tf.length = vocab.len → ∃ r,
      doc.foldlM (fun tf word =>
        match vocab.get word with
        | some i => sliceAdd tf i 1
        | none => pure tf) tf = Except.ok r ∧
      r.length = vocab.len ∧
      ∀ j : Nat, r.getD j 0
        = tf.getD j 0 + (doc.countP (fun w => decide (vocab.get w = some (j : Int))) : Int) := by
  induction doc with
  | nil =>
    intro tf htf
    exact ⟨tf, by simp [pure, Except.pure], htf, by simp⟩
  | cons w rest ih =>
    intro tf htf
    cases hw : vocab.get w with
    | none =>
      obtain ⟨r, hr, hlr, hgr⟩ := ih tf htf
      refine ⟨r, ?_, hlr, ?_⟩
      · rw [List.foldlM_cons]
        simp only [hw]
        exact hr
      · intro j
        rw [hgr j, List.countP_cons]
        simp [hw]
    | some i =>
      obtain ⟨h0, h1⟩ := h w i hw
      obtain ⟨k, rfl⟩ := Int.eq_ofNat_of_zero_le h0
      have hk : k < tf.length := by
        rw [htf]
        exact_mod_cast h1
      obtain ⟨r, hr, hlr, hgr⟩ := ih (tf.set k (tf.getD k 0 + 1)) (by simpa using htf)
      refine ⟨r, ?_, hlr, ?_⟩
      · rw [List.foldlM_cons]
        simp only [hw]
        rw [sliceAdd_natCast tf k 1 hk]
        exact hr
      · intro j
        rw [hgr j, getD_set_of_lt _ _ _ _ hk, List.countP_cons]
        by_cases hj : j = k
        · subst hj
          simp [hw]
          ring
        · have hne : ¬ (k : Int) = (j : Int) := by
            intro e
            exact hj (by exact_mod_cast e.symm)
          simp [hw, hj, hne]

theorem sum_oneHots_eq_count (vocab : GoMap) (j : Nat) (doc : List String)
    (ohs : List (List Int))
    (hall : List.Forall₂ (fun w v => BagOfWords.oneHot w vocab = .ok v) doc ohs)
    (h : vocab.IndicesInRange) :
    (ohs.map (fun v => v.getD j 0)).sum
      = (doc.countP (fun w => decide (vocab.get w = some (j : Int))) : Int) := by
  induction hall with
  | nil => simp
  | @cons w v doc' ohs' hv _ ih =>
    obtain ⟨v', hv', _, hg⟩ := oneHot_char vocab h w
    have : v = v' := by
      rw [hv] at hv'
      exact Except.ok.inj hv'
    subst this
    rw [List.map_cons, List.sum_cons, ih, hg j, List.countP_cons]
    by_cases hw : vocab.get w = some (j : Int)
    · simp [hw]
      ring
    · simp [hw]

theorem forall₂_oneHot_length (vocab : GoMap) (h : vocab.IndicesInRange) (doc : List String)
    (ohs : List (List Int))
    (hall : List.Forall₂ (fun w v => BagOfWords.oneHot w vocab = .ok v) doc ohs) :
    ∀ v ∈ ohs, v.length = vocab.len := by
  induction hall with
  | nil => simp
  | @cons w v doc' ohs' hv _ ih =>
    intro u hu
    rcases List.mem_cons.mp hu with rfl | hu
    · obtain ⟨v', hv', hl, _⟩ := oneHot_char vocab h w
      rw [hv] at hv'
      rw [Except.ok.inj hv']
      exact hl
    · exact ih u hu

theorem buildVocab_indicesInRange (tokens : List (List String)) :
    (BagOfWords.buildVocab tokens).IndicesInRange := by
  obtain ⟨idx, inv⟩ := buildVocab_inv tokens
  intro w i hw
  have hb : 0 ≤ i ∧ i < idx := inv.bound w i hw
  have hn : idx = (distinctCount tokens.flatten : Int) := inv.next
  have hs : (BagOfWords.buildVocab tokens).length = distinctCount tokens.flatten := inv.size
  rw [GoMap.len_of_nodup _ inv.keys_nodup, hs, ← hn]
  exact hb

theorem getD_replicate_zero (n j : Nat) : (List.replicate n (0 : Int)).getD j 0 = 0 := by
  by_cases hj : j < n
  · simp [List.getD_eq_getElem?_getD, List.getElem?_replicate, hj]
  · simp [List.getD_eq_getElem?_getD, List.getElem?_replicate, hj]

theorem getD_elementwiseSum (n : Nat) (vs : List (List Int)) (j : Nat) (hj : j < n) :
    (elementwiseSum n vs).getD j 0 = (vs.map (fun v => v.getD j 0)).sum := by
  simp [elementwiseSum, List.getD_eq_getElem?_getD, List.getElem?_map, List.getElem?_range hj]

/-- Claim C2. For every corpus, with `vocab = buildVocab(corpus)`, and every token
sequence `doc` (tokens absent from the vocabulary included), the one-hot sequence of
`doc` is computed without a panic, `bagOfWordsFromOneHots` of it with `len(vocab)`
returns the same vector as `termFrequency(doc, vocab)`, and that vector is the
element-wise sum of the one-hot vectors of the tokens of `doc`. -/
theorem bagOfWords_eq_termFrequency (tokens : List (List String)) (doc : List String) :
    ∃ ohs bow,
      BagOfWords.documentToOneHotSequence doc (BagOfWords.buildVocab tokens) = .ok ohs
      ∧ List.Forall₂ (fun w v => BagOfWords.oneHot w (BagOfWords.buildVocab tokens) = .ok v)
          doc ohs
      ∧ BagOfWords.bagOfWordsFromOneHots ohs (BagOfWords.buildVocab tokens).len = .ok bow
      ∧ TfIdf.termFrequency doc (TfIdf.buildVocab tokens) = .ok bow
      ∧ bow = elementwiseSum (BagOfWords.buildVocab tokens).len ohs := by
  have hr := buildVocab_indicesInRange tokens
  rw [TfIdf.buildVocab_eq]
  generalize BagOfWords.buildVocab tokens = vocab at hr ⊢
  obtain ⟨ohs, hohs, hall⟩ := documentToOneHotSequence_fold vocab hr doc []
  have hlen := forall₂_oneHot_length vocab hr doc ohs hall
  obtain ⟨bow, hbow, hbl, hbg⟩ := bagOfWords_fold vocab.len ohs hlen
    (List.replicate vocab.len 0) (by simp)
  obtain ⟨tf, htf, htl, htg⟩ := termFrequency_fold vocab hr doc
    (List.replicate vocab.len 0) (by simp)
  have hsum := fun j => sum_oneHots_eq_count vocab j doc ohs hall hr
  refine ⟨ohs, bow, by simpa [BagOfWords.documentToOneHotSequence] using hohs, hall, ?_, ?_, ?_⟩
  · unfold BagOfWords.bagOfWordsFromOneHots
    rw [makeInts_natCast]
    exact hbow
  · unfold TfIdf.termFrequency
    rw [makeInts_natCast]
    have : tf = bow := by
      apply list_ext_getD (by omega)
      intro j
      rw [htg j, hbg j, hsum j]
    rw [← this]
    exact htf
  · apply list_ext_getD (by simp [elementwiseSum, hbl])
    intro j
    by_cases hj : j < vocab.len
    · rw [getD_elementwiseSum _ _ _ hj, hbg j, getD_replicate_zero]
      simp
    · rw [getD_of_length_le bow j (by omega),
        getD_of_length_le _ j (by simp [elementwiseSum]; omega)]

/-- Claim C3. For every vocabulary whose indices lie in `[0, len(vocab))` and every
token: when the token is in the vocabulary, `oneHot` returns a vector of length
`len(vocab)` with 1 at the index of the token and 0 at every other position; when the
token is absent, `oneHot` returns the all-zero vector of length `len(vocab)`, without
a panic. -/
theorem oneHot_single_one (vocab : GoMap) (word : String) (h : vocab.IndicesInRange) :
    (∀ i, vocab.get word = some i →
      ∃ vec, BagOfWords.oneHot word vocab = .ok vec ∧ vec.length = vocab.len ∧
        ∀ j : Nat, j < vocab.len → vec[j]? = some (if (j : Int) = i then 1 else 0))
    ∧ (vocab.get word = none →
      BagOfWords.oneHot word vocab = .ok (List.replicate vocab.len 0)) := by
  obtain ⟨v, hv, hl, hg⟩ := oneHot_char vocab h word
  constructor
  · intro i hi
    refine ⟨v, hv, hl, ?_⟩
    intro j hj
    have hjv : j < v.length := by omega
    have := hg j
    rw [List.getD_eq_getElem?_getD, List.getElem?_eq_getElem hjv, Option.getD_some, hi] at this
    rw [List.getElem?_eq_getElem hjv, this]
    by_cases hji : (j : Int) = i
    · simp [hji]
    · have : ¬ i = (j : Int) := fun e => hji e.symm
      simp [hji, this]
  · intro hnone
    simp [BagOfWords.oneHot, makeInts_natCast, hnone, bind, Except.bind, pure, Except.pure]

/-- Witness for C3: the vocabulary `{the: 0, cat: 1}` has its indices in range, and the
one-hot vector of `cat` is `[0, 1]`. -/
theorem oneHot_single_one_witness :
    GoMap.IndicesInRange [("the", 0), ("cat", 1)]
    ∧ (∃ vec, BagOfWords.oneHot "cat" [("the", 0), ("cat", 1)] = .ok vec ∧
        vec.length = GoMap.len [("the", 0), ("cat", 1)] ∧
        ∀ j : Nat, j < GoMap.len [("the", 0), ("cat", 1)] →
          vec[j]? = some (if (j : Int) = 1 then 1 else 0)) :=
  have hr : GoMap.IndicesInRange [("the", 0), ("cat", 1)] := by
    intro w i hw
    have hlen : GoMap.len [("the", 0), ("cat", 1)] = 2 := by decide
    rw [hlen]
    simp only [GoMap.get] at hw
    split at hw
    · cases hw; decide
    · split at hw
      · cases hw; decide
      · cases hw
  ⟨hr, (oneHot_single_one [("the", 0), ("cat", 1)] "cat" hr).1 1 (by decide)⟩

/-! ## Theorems: document frequency -/

theorem documentFrequency_inner (vocab : GoMap) (h : vocab.IndicesInRange)
    (doc : List String) :
    ∀ (df seen : List Int), df.length = vocab.len → ∃ df' seen',
      doc.foldlM (TfIdf.documentFrequencyStep vocab) (df, seen) = Except.ok (df', seen') ∧
      df'.length = vocab.len ∧
      ∀ j : Nat, df'.getD j 0
        = df.getD j 0 + (if (j : Int) ∉ seen ∧ hasIndex vocab doc j = true then 1 else 0) := by
  induction doc with
  | nil =>
    intro df seen hdf
    exact ⟨df, seen, by simp [pure, Except.pure], hdf, by simp [hasIndex]⟩
  | cons w rest ih =>
    intro df seen hdf
    cases hw : vocab.get w with
    | none =>
      obtain ⟨df', seen', hf, hl, hg⟩ := ih df seen hdf
      refine ⟨df', seen', ?_, hl, ?_⟩
      · rw [List.foldlM_cons]
        simp only [TfIdf.documentFrequencyStep, hw]
        exact hf
      · intro j
        rw [hg j]
        simp [hasIndex, hw]
    | some i =>
      by_cases hseen : i ∈ seen
      · obtain ⟨df', seen', hf, hl, hg⟩ := ih df seen hdf
        refine ⟨df', seen', ?_, hl, ?_⟩
        · rw [List.foldlM_cons]
          simp only [TfIdf.documentFrequencyStep, hw, hseen, if_true]
          exact hf
        · intro j
          rw [hg j]
          by_cases hj : (j : Int) ∈ seen
          · simp [hj]
          · have hne : ¬ i = (j : Int) := fun e => hj (e ▸ hseen)
            simp [hasIndex, hw, hj, hne]
      · obtain ⟨h0, h1⟩ := h w i hw
        obtain ⟨k, rfl⟩ := Int.eq_ofNat_of_zero_le h0
        have hk : k < df.length := by
          rw [hdf]
          exact_mod_cast h1
        obtain ⟨df', seen', hf, hl, hg⟩ := ih (df.set k (df.getD k 0 + 1)) ((k : Int) :: seen)
          (by simpa using hdf)
        refine ⟨df', seen', ?_, hl, ?_⟩
        · rw [List.foldlM_cons]
          simp only [TfIdf.documentFrequencyStep, hw, hseen, if_false]
          rw [sliceAdd_natCast df k 1 hk]
          exact hf
        · intro j
          rw [hg j, getD_set_of_lt _ _ _ _ hk]
          by_cases hj : j = k
          · subst hj
            simp [hasIndex, hw, hseen]
          · have hne : ¬ (k : Int) = (j : Int) := by
              intro e
              exact hj (by exact_mod_cast e.symm)
            have hne' : ¬ (j : Int) = (k : Int) := fun e => hne e.symm
            simp [hasIndex, hw, hj, hne, hne']

theorem documentFrequency_outer (vocab : GoMap) (h : vocab.IndicesInRange)
    (tokens : List (List String)) :
    ∀ df : List Int, df.length = vocab.len → ∃ df',
      tokens.foldlM (fun df doc => do
        let st ← doc.foldlM (TfIdf.documentFrequencyStep vocab) (df, [])
        pure st.1) df = Except.ok df' ∧
      df'.length = vocab.len ∧
      ∀ j : Nat, df'.getD j 0
        = df.getD j 0 + (tokens.countP (fun doc => hasIndex vocab doc j) : Int) := by
  induction tokens with
  | nil =>
    intro df hdf
    exact ⟨df, by simp [pure, Except.pure], hdf, by simp⟩
  | cons doc rest ih =>
    intro df hdf
    obtain ⟨df₁, seen₁, hf₁, hl₁, hg₁⟩ := documentFrequency_inner vocab h doc df [] hdf
    obtain ⟨df', hf, hl, hg⟩ := ih df₁ hl₁
    refine ⟨df', ?_, hl, ?_⟩
    · rw [List.foldlM_cons, hf₁]
      exact hf
    · intro j
      rw [hg j, hg₁ j, List.countP_cons]
      by_cases hj : hasIndex vocab doc j = true
      · simp [hj]
        ring
      · simp [hj]

theorem hasIndex_iff_mem (vocab : GoMap)
    (hinj : ∀ w₁ w₂ k, vocab.get w₁ = some k → vocab.get w₂ = some k → w₁ = w₂)
    (w : String) (j : Nat) (hw : vocab.get w = some (j : Int)) (doc : List String) :
    hasIndex vocab doc j = true ↔ w ∈ doc := by
  simp only [hasIndex, List.any_eq_true, decide_eq_true_eq]
  constructor
  · rintro ⟨w', hmem, hget⟩
    exact (hinj w' w _ hget hw) ▸ hmem
  · intro hmem
    exact ⟨w, hmem, hw⟩

/-- Claim C4. For every corpus, with `vocab = buildVocab(corpus)`, the call
`documentFrequency(corpus, vocab)` returns without a panic a table of length
`len(vocab)` whose entry at the index of a token is the number of documents of the
corpus that contain the token (a document that repeats the token counts once). -/
theorem documentFrequency_counts_documents (tokens : List (List String)) :
    ∃ df, TfIdf.documentFrequency tokens (TfIdf.buildVocab tokens) = .ok df
      ∧ df.length = (TfIdf.buildVocab tokens).len
      ∧ ∀ (w : String) (i : Nat), (TfIdf.buildVocab tokens).get w = some (i : Int) →
          df[i]? = some (docsContaining tokens w : Int) := by
  rw [TfIdf.buildVocab_eq]
  have hr := buildVocab_indicesInRange tokens
  obtain ⟨idx, inv⟩ := buildVocab_inv tokens
  have hinj := inv.inj
  simp only at hinj
  generalize BagOfWords.buildVocab tokens = vocab at hr hinj ⊢
  obtain ⟨df, hf, hl, hg⟩ := documentFrequency_outer vocab hr tokens
    (List.replicate vocab.len 0) (by simp)
  refine ⟨df, ?_, hl, ?_⟩
  · unfold TfIdf.documentFrequency
    rw [makeInts_natCast]
    exact hf
  · intro w i hw
    have hi : i < df.length := by
      have := (hr w i hw).2
      rw [hl]
      exact_mod_cast this
    have := hg i
    rw [getD_replicate_zero, List.getD_eq_getElem?_getD, List.getElem?_eq_getElem hi,
      Option.getD_some, zero_add] at this
    rw [List.getElem?_eq_getElem hi, this, docsContaining]
    congr 2
    apply List.countP_congr
    intro doc _
    simp only [decide_eq_true_eq]
    exact hasIndex_iff_mem vocab hinj w i hw doc

/-! ## Theorems: float64 zeros -/

theorem F64.round_zero (neg : Bool) (q : Nat) : F64.round neg 0 q = F64.fin neg 0 := by
  have h53 : (0 : Nat) < 1 <<< 53 := by decide
  have hov : (0 : Nat) < F64.overflowMag := by decide
  simp [F64.round, F64.roundHalfEven, F64.ulpShift, h53, hov]

theorem F64.eq_zero_iff (x : F64) : F64.eq x F64.zero = true ↔ ∃ s, x = F64.fin s 0 := by
  have hov : (F64.overflowMag : Int) ≠ 0 := by decide
  cases x with
  | nan => simp [F64.eq, F64.isNaN]
  | inf s =>
    cases s <;> simp [F64.eq, F64.isNaN, F64.key, F64.zero, hov]
  | fin s m =>
    cases s <;> simp [F64.eq, F64.isNaN, F64.key, F64.zero]

theorem F64.mul_self_of_eq_zero (x : F64) (h : F64.eq x F64.zero = true) :
    F64.mul x x = F64.zero := by
  obtain ⟨s, rfl⟩ := (F64.eq_zero_iff x).mp h
  simp [F64.mul, F64.round_zero, F64.zero]

theorem F64.add_zero_zero : F64.add F64.zero F64.zero = F64.zero := by
  simp [F64.add, F64.zero, F64.round_zero]

theorem foldl_squares_of_zeros (a : List F64) (h : ∀ x ∈ a, F64.eq x F64.zero = true) :
    a.foldl (fun sum v => F64.add sum (F64.mul v v)) F64.zero = F64.zero := by
  induction a with
  | nil => rfl
  | cons x rest ih =>
    rw [List.foldl_cons, F64.mul_self_of_eq_zero x (h x (List.mem_cons_self _ _)),
      F64.add_zero_zero]
    exact ih (fun y hy => h y (List.mem_cons_of_mem _ hy))

/-! ## Theorems: loops over two slices -/

theorem cosineLoop_of_length_eq (a : List F64) :
    ∀ (b : List F64) (st : F64 × F64 × F64), a.length = b.length →
      cosineLoop st a b = .ok
        ((a.zip b).foldl (fun sum p => F64.add sum (F64.mul p.1 p.2)) st.1,
          a.foldl (fun sum v => F64.add sum (F64.mul v v)) st.2.1,
          b.foldl (fun sum v => F64.add sum (F64.mul v v)) st.2.2) := by
  induction a with
  | nil =>
    intro b st h
    cases b with
    | nil => rfl
    | cons y b => simp at h
  | cons x a ih =>
    intro b st h
    cases b with
    | nil => simp at h
    | cons y b =>
      rw [cosineLoop, ih b _ (by simpa using h)]
      rfl

theorem dotLoop_of_length_eq (a : List F64) :
    ∀ (b : List F64) (sum : F64), a.length = b.length →
      dotLoop sum a b
        = .ok ((a.zip b).foldl (fun sum p => F64.add sum (F64.mul p.1 p.2)) sum) := by
  induction a with
  | nil =>
    intro b sum h
    cases b with
    | nil => rfl
    | cons y b => simp at h
  | cons x a ih =>
    intro b sum h
    cases b with
    | nil => simp at h
    | cons y b =>
      rw [dotLoop, ih b _ (by simpa using h)]
      rfl

theorem pairwiseLoop_isOk_iff (op : F64 → F64 → F64) (a : List F64) :
    ∀ b : List F64, (∃ r, pairwiseLoop op a b = .ok r) ↔ a.length ≤ b.length := by
  induction a with
  | nil =>
    intro b
    simp [pairwiseLoop]
  | cons x a ih =>
    intro b
    cases b with
    | nil => simp [pairwiseLoop]
    | cons y b =>
      rw [pairwiseLoop]
      simp only [List.length_cons, Nat.add_le_add_iff_right, ← ih b]
      constructor
      · rintro ⟨r, hr⟩
        cases hrest : pairwiseLoop op a b with
        | error e => rw [hrest] at hr; cases hr
        | ok r' => exact ⟨r', rfl⟩
      · rintro ⟨r', hr'⟩
        exact ⟨op x y :: r', by rw [hr']; rfl⟩

theorem pairwiseLoop_of_length_le (op : F64 → F64 → F64) (a : List F64) :
    ∀ b : List F64, a.length ≤ b.length →
      pairwiseLoop op a b = .ok (List.zipWith op a b) := by
  induction a with
  | nil =>
    intro b _
    simp [pairwiseLoop]
  | cons x a ih =>
    intro b h
    cases b with
    | nil => simp at h
    | cons y b =>
      rw [pairwiseLoop, ih b (by simpa using h)]
      rfl

theorem Vectors.assert_of_length_eq (a b : List F64) (h : a.length = b.length) :
    Vectors.assertVectorsLengthEqual a b = .ok () := by
  simp [Vectors.assertVectorsLengthEqual, h]

theorem Vectors.assert_of_length_ne (a b : List F64) (h : a.length ≠ b.length) :
    Vectors.assertVectorsLengthEqual a b = .error "vectors must have the same length" := by
  simp [Vectors.assertVectorsLengthEqual, h]

theorem BagOfWords.cosineSimilarity_eq (a b : List F64) :
    BagOfWords.cosineSimilarity a b = Vectors.cosineSimilarity a b := rfl

/-! ## Theorems: cosine similarity of a zero vector -/

/-- Claim C5. For all vectors `a` and `b` of equal length, when every entry of `a` is
zero or every entry of `b` is zero, `cosineSimilarity(a, b)` of vectors/main.go and of
bag-of-words/main.go returns the value `+0`: no panic and no NaN. -/
theorem cosineSimilarity_zero_vector (a b : List F64) (hlen : a.length = b.length)
    (hz : (∀ x ∈ a, F64.eq x F64.zero = true) ∨ (∀ y ∈ b, F64.eq y F64.zero = true)) :
    Vectors.cosineSimilarity a b = .ok F64.zero
    ∧ BagOfWords.cosineSimilarity a b = .ok F64.zero := by
  have hmain : Vectors.cosineSimilarity a b = .ok F64.zero := by
    unfold Vectors.cosineSimilarity
    rw [Vectors.assert_of_length_eq a b hlen]
    show (do
      let st ← cosineLoop (F64.zero, F64.zero, F64.zero) a b
      if F64.eq st.2.1 F64.zero || F64.eq st.2.2 F64.zero then pure F64.zero
      else pure (F64.div st.1 (F64.mul (F64.sqrt st.2.1) (F64.sqrt st.2.2)))) = _
    rw [cosineLoop_of_length_eq a b _ hlen]
    have hzz : F64.eq F64.zero F64.zero = true := by decide
    rcases hz with ha | hb
    · have := foldl_squares_of_zeros a ha
      simp only [bind, Except.bind, this, hzz, Bool.true_or, if_true]
      rfl
    · have := foldl_squares_of_zeros b hb
      simp only [bind, Except.bind, this, hzz, Bool.or_true, if_true]
      rfl
  exact ⟨hmain, hmain⟩

/-- Witness for C5: the zero vector `[+0, -0]` against `[3, NaN]`. -/
theorem cosineSimilarity_zero_vector_witness :
    Vectors.cosineSimilarity [F64.zero, F64.fin true 0] [F64.ofInt 3, F64.nan] = .ok F64.zero
    ∧ BagOfWords.cosineSimilarity [F64.zero, F64.fin true 0] [F64.ofInt 3, F64.nan]
        = .ok F64.zero :=
  cosineSimilarity_zero_vector [F64.zero, F64.fin true 0] [F64.ofInt 3, F64.nan] rfl
    (Or.inl (by decide))

/-! ## Theorems: length checks of the pairwise operations -/

theorem guarded_pairwiseLoop (op : F64 → F64 → F64) (a b : List F64) :
    (do Vectors.assertVectorsLengthEqual a b; pairwiseLoop op a b)
      = if a.length = b.length then Except.ok (List.zipWith op a b)
        else Except.error "vectors must have the same length" := by
  by_cases h : a.length = b.length
  · rw [Vectors.assert_of_length_eq a b h, if_pos h]
    exact pairwiseLoop_of_length_le op a b h.le
  · rw [Vectors.assert_of_length_ne a b h, if_neg h]
    rfl

theorem Vectors.dotProduct_eq (a b : List F64) :
    Vectors.dotProduct a b
      = if a.length = b.length then
          Except.ok ((a.zip b).foldl (fun sum p => F64.add sum (F64.mul p.1 p.2)) F64.zero)
        else Except.error "vectors must have the same length" := by
  unfold Vectors.dotProduct
  by_cases h : a.length = b.length
  · rw [Vectors.assert_of_length_eq a b h, if_pos h]
    exact dotLoop_of_length_eq a b _ h
  · rw [Vectors.assert_of_length_ne a b h, if_neg h]
    rfl

theorem Vectors.cosineSimilarity_isOk_iff (a b : List F64) :
    (∃ c, Vectors.cosineSimilarity a b = .ok c) ↔ a.length = b.length := by
  unfold Vectors.cosineSimilarity
  by_cases h : a.length = b.length
  · rw [Vectors.assert_of_length_eq a b h]
    simp only [h, iff_true]
    show ∃ c, (do
      let st ← cosineLoop (F64.zero, F64.zero, F64.zero) a b
      if F64.eq st.2.1 F64.zero || F64.eq st.2.2 F64.zero then pure F64.zero
      else pure (F64.div st.1 (F64.mul (F64.sqrt st.2.1) (F64.sqrt st.2.2)))) = Except.ok c
    rw [cosineLoop_of_length_eq a b _ h]
    simp only [bind, Except.bind]
    split
    · exact ⟨_, rfl⟩
    · exact ⟨_, rfl⟩
  · rw [Vectors.assert_of_length_ne a b h]
    simp only [h, iff_false]
    rintro ⟨c, hc⟩
    cases hc

theorem except_error_iff_not_ok {α : Type} (x : Except String α) :
    (∃ e, x = .error e) ↔ ¬ ∃ r, x = .ok r := by
  cases x with
  | error e => simp
  | ok r => simp

/-- Claim C6. For all vectors `a` and `b`, each pairwise operation of vectors/main.go
(`add`, `subtract`, `multiply`, `divide`, `dotProduct`, `cosineSimilarity`) fails, by
the panic of `assertVectorsLengthEqual`, exactly when `len(a) != len(b)`; with equal
lengths it returns a value, and the element-wise operations return a vector of that
same length whose entry `i` is the operation applied to `a[i]` and `b[i]`. -/
theorem pairwise_ops_fail_iff_length_mismatch (a b : List F64) :
    ((∃ e, Vectors.add a b = .error e) ↔ a.length ≠ b.length)
    ∧ ((∃ e, Vectors.subtract a b = .error e) ↔ a.length ≠ b.length)
    ∧ ((∃ e, Vectors.multiply a b = .error e) ↔ a.length ≠ b.length)
    ∧ ((∃ e, Vectors.divide a b = .error e) ↔ a.length ≠ b.length)
    ∧ ((∃ e, Vectors.dotProduct a b = .error e) ↔ a.length ≠ b.length)
    ∧ ((∃ e, Vectors.cosineSimilarity a b = .error e) ↔ a.length ≠ b.length)
    ∧ (a.length = b.length →
        Vectors.add a b = .ok (List.zipWith F64.add a b)
        ∧ Vectors.subtract a b = .ok (List.zipWith F64.sub a b)
        ∧ Vectors.multiply a b = .ok (List.zipWith F64.mul a b)
        ∧ Vectors.divide a b = .ok (List.zipWith F64.div a b)
        ∧ (∀ op : F64 → F64 → F64, (List.zipWith op a b).length = a.length
            ∧ ∀ (i : Nat) (x y : F64), a[i]? = some x → b[i]? = some y →
                (List.zipWith op a b)[i]? = some (op x y))
        ∧ (∃ d, Vectors.dotProduct a b = .ok d)
        ∧ (∃ c, Vectors.cosineSimilarity a b = .ok c)) := by
  have hadd : Vectors.add a b = _ := guarded_pairwiseLoop F64.add a b
  have hsub : Vectors.subtract a b = _ := guarded_pairwiseLoop F64.sub a b
  have hmul : Vectors.multiply a b = _ := guarded_pairwiseLoop F64.mul a b
  have hdiv : Vectors.divide a b = _ := guarded_pairwiseLoop F64.div a b
  have hdot := Vectors.dotProduct_eq a b
  have hcos := Vectors.cosineSimilarity_isOk_iff a b
  by_cases h : a.length = b.length
  · simp only [if_pos h] at hadd hsub hmul hdiv hdot
    refine ⟨?_, ?_, ?_, ?_, ?_, ?_, ?_⟩
    · simp [hadd, h]
    · simp [hsub, h]
    · simp [hmul, h]
    · simp [hdiv, h]
    · simp [hdot, h]
    · rw [except_error_iff_not_ok, hcos]
    · intro _
      refine ⟨hadd, hsub, hmul, hdiv, ?_, ⟨_, hdot⟩, hcos.mpr h⟩
      intro op
      refine ⟨by simp [h], ?_⟩
      intro i x y hx hy
      simp [List.getElem?_zipWith, hx, hy]
  · simp only [if_neg h] at hadd hsub hmul hdiv hdot
    refine ⟨?_, ?_, ?_, ?_, ?_, ?_, fun h' => absurd h' h⟩
    · simp [hadd, h]
    · simp [hsub, h]
    · simp [hmul, h]
    · simp [hdiv, h]
    · simp [hdot, h]
    · rw [except_error_iff_not_ok, hcos]

/-! ## Theorems: inverse document frequency and tf-idf -/

set_option exponentiation.threshold 1100 in
/-- The conversion `float64(n)` of a positive integer is a positive number: a non-zero
finite magnitude or `+Inf`. -/
theorem F64.ofInt_pos (n : Int) (hn : 0 < n) :
    (∃ m, m ≠ 0 ∧ F64.ofInt n = F64.fin false m) ∨ F64.ofInt n = F64.inf false := by
  have hneg : decide (n < 0) = false := by
    rw [decide_eq_false_iff_not]
    omega
  have hp : 0 < n.natAbs <<< 1074 := by
    rw [Nat.shiftLeft_eq]
    exact Nat.mul_pos (by omega) (Nat.pow_pos (by decide))
  obtain ⟨k, sh, hround, hsh, _, _, hnear, _⟩ :=
    F64.round_spec false (n.natAbs <<< 1074) 1 (by decide)
  unfold F64.ofInt
  rw [hneg, hround]
  generalize n.natAbs <<< 1074 = p at hp hsh hnear
  have hk : k * 2 ^ sh ≠ 0 := by
    intro h0
    rw [h0] at hnear
    simp only [Nat.div_one, Nat.mul_one, Nat.zero_mul, Nat.mul_zero, Nat.zero_add] at hsh hnear
    rcases F64.ulpShift_spec p with ⟨_, hz⟩ | ⟨hlo, _⟩
    · rw [← hsh] at hz
      rw [hz] at hnear
      simp at hnear
      omega
    · rw [← hsh] at hlo
      have hpos : 0 < 2 ^ sh := Nat.pow_pos (by decide)
      rw [Nat.le_div_iff_mul_le hpos] at hlo
      have : 1 * 2 ^ sh ≤ 2 ^ 52 * 2 ^ sh := Nat.mul_le_mul_right _ (by decide)
      omega
  split
  · exact Or.inl ⟨_, hk, rfl⟩
  · exact Or.inr rfl

/-- Counterexample to C7: for the table `[0]` and three documents,
`inverseDocumentFrequency` returns the table `[+Inf]`, whatever `math.Log` computes on
finite positive arguments; no error is reported. -/
theorem inverseDocumentFrequency_zero_gives_inf :
    (fun ln => TfIdf.inverseDocumentFrequency ln [F64.zero] 3) = fun _ => [F64.inf false] := by
  funext ln
  have h : F64.div (F64.ofInt 3) F64.zero = F64.inf false := by decide!
  simp [TfIdf.inverseDocumentFrequency, h, F64.log]

/-- Claim C7, amended. `inverseDocumentFrequency` has no error result: for every table
`df` and every `numDocs` it returns a table of the length of `df` with
`idf[i] = math.Log(float64(numDocs) / df[i])`, and at every position where
`df[i] == 0` that entry is not finite (an infinity or a NaN); it is `+Inf` when
`df[i]` is `+0` and `numDocs > 0`. -/
theorem inverseDocumentFrequency_zero_not_finite (ln : F64 → F64) (df : List F64)
    (numDocs : Int) :
    (TfIdf.inverseDocumentFrequency ln df numDocs).length = df.length
    ∧ ∀ (i : Nat) (val : F64), df[i]? = some val →
        (TfIdf.inverseDocumentFrequency ln df numDocs)[i]?
          = some (F64.log ln (F64.div (F64.ofInt numDocs) val))
        ∧ (F64.eq val F64.zero = true →
            (F64.log ln (F64.div (F64.ofInt numDocs) val)).isFinite = false)
        ∧ (val = F64.zero → 0 < numDocs →
            F64.log ln (F64.div (F64.ofInt numDocs) val) = F64.inf false) := by
  refine ⟨by simp [TfIdf.inverseDocumentFrequency], ?_⟩
  intro i val hval
  refine ⟨by simp [TfIdf.inverseDocumentFrequency, List.getElem?_map, hval], ?_, ?_⟩
  rotate_left
  · intro hzero hpos
    rw [hzero]
    rcases F64.ofInt_pos numDocs hpos with ⟨m, hm, h⟩ | h
    · rw [h]
      simp [F64.div, F64.zero, hm, F64.log]
    · rw [h]
      simp [F64.div, F64.zero, F64.log]
  intro hz
  obtain ⟨s, rfl⟩ := (F64.eq_zero_iff val).mp hz
  cases F64.ofInt numDocs with
  | nan => rfl
  | inf t => cases hx : xor t s <;> simp [F64.div, F64.log, F64.isFinite, hx]
  | fin t m =>
    by_cases hm : m = 0
    · simp [F64.div, hm, F64.log, F64.isFinite]
    · cases hx : xor t s <;> simp [F64.div, hm, F64.log, F64.isFinite, hx]

/-- Witness for C7 (amended): the table `[2, 0]` with three documents has a second
entry that is not finite. -/
theorem inverseDocumentFrequency_zero_not_finite_witness :
    (TfIdf.inverseDocumentFrequency (fun x => x) [F64.ofInt 2, F64.zero] 3).length = 2
    ∧ (F64.log (fun x => x) (F64.div (F64.ofInt 3) F64.zero)).isFinite = false
    ∧ F64.log (fun x => x) (F64.div (F64.ofInt 3) F64.zero) = F64.inf false :=
  ⟨(inverseDocumentFrequency_zero_not_finite (fun x => x) [F64.ofInt 2, F64.zero] 3).1,
    ((inverseDocumentFrequency_zero_not_finite (fun x => x) [F64.ofInt 2, F64.zero] 3).2
      1 F64.zero rfl).2.1 (by decide),
    ((inverseDocumentFrequency_zero_not_finite (fun x => x) [F64.ofInt 2, F64.zero] 3).2
      1 F64.zero rfl).2.2 rfl (by decide)⟩

/-- Evaluation for C8: with `tf = [1]` and the longer `idf = [1, 2]`, `tfIDF` returns
`[1]`: the mismatch is not reported and the extra entry of `idf` is ignored. -/
theorem tfIDF_longer_idf_succeeds :
    TfIdf.tfIDF [F64.ofInt 1] [F64.ofInt 1, F64.ofInt 2] = .ok [F64.ofInt 1] := by
  decide!

/-- The behaviour of `tfIDF` for all inputs: it succeeds exactly when `idf` is at least
as long as `tf` (a shorter `idf` is an index-out-of-range panic), and the result then
has the length of `tf` with `result[i] = tf[i] * idf[i]`. -/
theorem tfIDF_succeeds_iff_idf_not_shorter (tf idf : List F64) :
    ((∃ r, TfIdf.tfIDF tf idf = .ok r) ↔ tf.length ≤ idf.length)
    ∧ (tf.length ≤ idf.length →
        TfIdf.tfIDF tf idf = .ok (List.zipWith F64.mul tf idf)
        ∧ (List.zipWith F64.mul tf idf).length = tf.length) := by
  refine ⟨pairwiseLoop_isOk_iff F64.mul tf idf, ?_⟩
  intro h
  exact ⟨pairwiseLoop_of_length_le F64.mul tf idf h, by simp [h]⟩

/-! ## Theorems: classification of a cosine -/

theorem F64.eq_iff (x y : F64) :
    F64.eq x y = true ↔ x.isNaN = false ∧ y.isNaN = false ∧ x.key = y.key := by
  cases hx : x.isNaN <;> cases hy : y.isNaN <;> simp [F64.eq, hx, hy]

theorem F64.le_iff (x y : F64) :
    F64.le x y = true ↔ x.isNaN = false ∧ y.isNaN = false ∧ x.key ≤ y.key := by
  cases hx : x.isNaN <;> cases hy : y.isNaN <;> simp [F64.le, hx, hy]

theorem F64.lt_iff (x y : F64) :
    F64.lt x y = true ↔ x.isNaN = false ∧ y.isNaN = false ∧ x.key < y.key := by
  cases hx : x.isNaN <;> cases hy : y.isNaN <;> simp [F64.lt, hx, hy]

theorem F64.key_constants :
    F64.zero.key = 0
    ∧ 0 < (F64.ofRatio false 4 5).key
    ∧ (F64.ofRatio false 4 5).key < F64.one.key
    ∧ (F64.ofRatio true 4 5).key < 0
    ∧ (F64.negate F64.one).key < (F64.ofRatio true 4 5).key
    ∧ F64.one.isNaN = false ∧ F64.zero.isNaN = false
    ∧ (F64.ofRatio false 4 5).isNaN = false ∧ (F64.ofRatio true 4 5).isNaN = false
    ∧ (F64.negate F64.one).isNaN = false := by
  decide!

theorem classifyCosine_cases (score : F64) :
    (Vectors.classifyCosine score = "Identical" ↔ F64.eq score F64.one = true)
    ∧ (Vectors.classifyCosine score = "Orthogonal" ↔
        F64.eq score F64.one = false ∧ F64.eq score F64.zero = true)
    ∧ (Vectors.classifyCosine score = "Similar" ↔
        F64.eq score F64.one = false ∧ F64.eq score F64.zero = false
        ∧ F64.ge score (F64.ofRatio false 4 5) = true)
    ∧ (Vectors.classifyCosine score = "Opposite" ↔
        F64.eq score F64.one = false ∧ F64.eq score F64.zero = false
        ∧ F64.ge score (F64.ofRatio false 4 5) = false
        ∧ F64.le score (F64.ofRatio true 4 5) = true)
    ∧ (Vectors.classifyCosine score = "Unrelated" ↔
        F64.eq score F64.one = false ∧ F64.eq score F64.zero = false
        ∧ F64.ge score (F64.ofRatio false 4 5) = false
        ∧ F64.le score (F64.ofRatio true 4 5) = false) := by
  unfold Vectors.classifyCosine
  cases F64.eq score F64.one <;> cases F64.eq score F64.zero
    <;> cases F64.ge score (F64.ofRatio false 4 5)
    <;> cases F64.le score (F64.ofRatio true 4 5) <;> decide


set_option exponentiation.threshold 1100 in
/-- The unit of the binade `[1/2, 1)`: a binary64 magnitude with 1074 binary digits is
a multiple of `2^1021`. -/
theorem F64.valid_binade_half (m : Nat) (hv : F64.valid (F64.fin false m) = true)
    (hlo : 1 <<< 1073 ≤ m) (hhi : m < 1 <<< 1074) :
    m = m / 1 <<< 1021 * 1 <<< 1021 := by
  have hm0 : m ≠ 0 := by
    intro h
    rw [h] at hlo
    exact absurd hlo (by decide)
  obtain ⟨b1, b2⟩ := F64.bitLen_spec m hm0
  rw [Nat.one_shiftLeft] at hlo hhi
  have hL : F64.bitLen m = 1074 := by
    by_contra hne
    rcases Nat.lt_or_gt_of_ne hne with h | h
    · have : 2 ^ F64.bitLen m ≤ 2 ^ 1073 := Nat.pow_le_pow_right (by decide) (by omega)
      omega
    · have : 2 ^ 1074 ≤ 2 ^ (F64.bitLen m - 1) := Nat.pow_le_pow_right (by decide) (by omega)
      omega
  have h53 : ¬ m < 1 <<< 53 := by
    rw [Nat.one_shiftLeft]
    have : 2 ^ 53 ≤ 2 ^ 1073 := Nat.pow_le_pow_right (by decide) (by decide)
    omega
  have hsh : F64.ulpShift m = 1021 := by
    simp only [F64.ulpShift, h53, if_false, hL]
  simp only [F64.valid, hsh, Bool.and_eq_true, decide_eq_true_eq] at hv
  rw [Nat.shiftRight_eq_div_pow, Nat.shiftLeft_eq] at hv
  rw [Nat.one_shiftLeft]
  exact hv.2.symm

/-- The comparison with the constant `0.8` decides the comparison with the exact
fraction 4/5: for a binary64 value `x`, `x >= 0.8` holds exactly when `x` is no NaN and
`4 * 2^1074 <= 5 * key x`, since no binary64 value lies between 4/5 and the constant. -/
theorem F64.ge_four_fifths_iff (x : F64) (hv : x.valid = true) :
    F64.ge x (F64.ofRatio false 4 5) = true
      ↔ x.isNaN = false ∧ 4 * ((1 <<< 1074 : Nat) : Int) ≤ 5 * x.key := by
  have hc : (F64.ofRatio false 4 5).key = ((7205759403792794 * 1 <<< 1021 : Nat) : Int)
      ∧ (F64.ofRatio false 4 5).isNaN = false := by decide!
  have hu : (1 <<< 1074 : Nat) = 9007199254740992 * 1 <<< 1021
      ∧ (1 <<< 1073 : Nat) = 4503599627370496 * 1 <<< 1021
      ∧ F64.overflowMag = (1 <<< 1024) * (9007199254740992 * 1 <<< 1021)
      ∧ 0 < (1 <<< 1021 : Nat) ∧ 0 < (1 <<< 1024 : Nat) := by decide!
  obtain ⟨hkey, hnan⟩ := hc
  obtain ⟨h74, h73, hov, hU, hV⟩ := hu
  rw [F64.ge, F64.le_iff, hkey, hnan]
  cases x with
  | nan => simp [F64.isNaN]
  | inf s =>
    cases s
    · simp only [F64.isNaN, F64.key, hov, h74, if_false, Bool.false_eq_true]
      generalize (1 <<< 1021 : Nat) = U at hU
      generalize (1 <<< 1024 : Nat) = V at hV
      have h1 : 9007199254740992 * U ≤ V * (9007199254740992 * U) :=
        Nat.le_mul_of_pos_left _ hV
      have h2 : 7205759403792794 * U ≤ 9007199254740992 * U :=
        Nat.mul_le_mul_right U (by decide)
      push_cast
      constructor
      · intro _
        refine ⟨trivial, ?_⟩
        have : ((9007199254740992 * U : Nat) : Int) ≤ ((V * (9007199254740992 * U) : Nat) : Int) := by
          exact_mod_cast h1
        push_cast at this
        omega
      · intro _
        refine ⟨trivial, trivial, ?_⟩
        have : ((7205759403792794 * U : Nat) : Int) ≤ ((V * (9007199254740992 * U) : Nat) : Int) := by
          exact_mod_cast le_trans h2 h1
        push_cast at this
        omega
    · simp only [F64.isNaN, F64.key, hov, h74, if_true]
      generalize (1 <<< 1021 : Nat) = U at hU
      generalize (1 <<< 1024 : Nat) = V at hV
      have hp : 0 < V * (9007199254740992 * U) := Nat.mul_pos hV (Nat.mul_pos (by decide) hU)
      have hp' : (0 : Int) < ((V * (9007199254740992 * U) : Nat) : Int) := by exact_mod_cast hp
      constructor
      · rintro ⟨-, -, h⟩
        omega
      · rintro ⟨-, h⟩
        omega
  | fin s m =>
    cases s
    · simp only [F64.isNaN, F64.key, if_false, Bool.false_eq_true]
      constructor
      · rintro ⟨-, -, h⟩
        refine ⟨trivial, ?_⟩
        rw [h74]
        generalize (1 <<< 1021 : Nat) = U at hU h
        push_cast at h ⊢
        have : (0 : Int) ≤ (U : Int) := Int.natCast_nonneg U
        nlinarith
      · rintro ⟨-, h⟩
        refine ⟨trivial, trivial, ?_⟩
        have h' : 4 * (1 <<< 1074 : Nat) ≤ 5 * m := by exact_mod_cast h
        have goal : 7205759403792794 * 1 <<< 1021 ≤ m := by
          by_cases hbig : 1 <<< 1074 ≤ m
          · rw [h74] at hbig
            exact le_trans (Nat.mul_le_mul_right _ (by decide)) hbig
          · have hlo : 1 <<< 1073 ≤ m := by
              rw [h74] at h'
              rw [h73]
              generalize (1 <<< 1021 : Nat) = U at hU h'
              omega
            have hm := F64.valid_binade_half m hv hlo (by omega)
            rw [h74] at h'
            generalize (1 <<< 1021 : Nat) = U at hU h' hm
            generalize m / U = j at hm
            rw [hm] at h' ⊢
            apply Nat.mul_le_mul_right
            have h2 : (4 * 9007199254740992) * U ≤ (5 * j) * U := by
              calc (4 * 9007199254740992) * U = 4 * (9007199254740992 * U) := by ring
                _ ≤ 5 * (j * U) := h'
                _ = (5 * j) * U := by ring
            have h3 := Nat.le_of_mul_le_mul_right h2 hU
            omega
        exact_mod_cast goal
    · simp only [F64.isNaN, F64.key, if_true]
      rw [h74]
      generalize (1 <<< 1021 : Nat) = U at hU
      have hp : (0 : Int) < (U : Int) := by exact_mod_cast hU
      push_cast
      constructor
      · rintro ⟨-, -, h⟩
        nlinarith [Int.natCast_nonneg m]
      · rintro ⟨-, h⟩
        nlinarith [Int.natCast_nonneg m]

theorem F64.negate_facts (x : F64) :
    (F64.negate x).key = -x.key ∧ (F64.negate x).isNaN = x.isNaN
    ∧ (F64.negate x).valid = x.valid := by
  cases x with
  | nan => exact ⟨rfl, rfl, rfl⟩
  | inf s => cases s <;> simp [F64.negate, F64.key, F64.isNaN, F64.valid]
  | fin s m => cases s <;> simp [F64.negate, F64.key, F64.isNaN, F64.valid]

/-- The comparison with the constant `-0.8` decides the comparison with the exact
fraction -4/5: for a binary64 value `x`, `x <= -0.8` holds exactly when `x` is no NaN
and `5 * key x <= -4 * 2^1074`. -/
theorem F64.le_neg_four_fifths_iff (x : F64) (hv : x.valid = true) :
    F64.le x (F64.ofRatio true 4 5) = true
      ↔ x.isNaN = false ∧ 5 * x.key ≤ -(4 * ((1 <<< 1074 : Nat) : Int)) := by
  obtain ⟨hk, hn, hval⟩ := F64.negate_facts x
  have hc : (F64.ofRatio true 4 5).key = -(F64.ofRatio false 4 5).key
      ∧ (F64.ofRatio true 4 5).isNaN = false ∧ (F64.ofRatio false 4 5).isNaN = false := by
    decide!
  have h := F64.ge_four_fifths_iff (F64.negate x) (by rw [hval]; exact hv)
  rw [hk, hn] at h
  rw [F64.ge, F64.le_iff, hk, hn] at h
  rw [F64.le_iff, hc.1, hc.2.1]
  constructor
  · rintro ⟨h1, -, h2⟩
    have := h.mp ⟨hc.2.2, h1, by omega⟩
    exact ⟨this.1, by omega⟩
  · rintro ⟨h1, h2⟩
    have := h.mpr ⟨h1, by omega⟩
    exact ⟨h1, rfl, by omega⟩

/-- Claim C9. For every score, `classifyCosine` returns the label fixed by the tests
in this order: "Identical" iff `score == 1`; otherwise "Orthogonal" iff `score == 0`;
otherwise "Similar" iff `score >= 0.8`; otherwise "Opposite" iff `score <= -0.8`;
otherwise "Unrelated".  A score equal to 1 or to 0 is never labelled Similar or
Opposite, and for a score in `[-1, 1]` the label is Similar iff `0.8 <= score < 1` and
Opposite iff `-1 <= score <= -0.8`.  The constants `0.8` and `-0.8` are the binary64
values nearest to 4/5 and -4/5; for a binary64 score the two threshold tests agree with
the tests against the exact fractions. -/
theorem classifyCosine_decision_order (score : F64) :
    (Vectors.classifyCosine score = "Identical" ↔ F64.eq score F64.one = true)
    ∧ (Vectors.classifyCosine score = "Orthogonal" ↔
        F64.eq score F64.one = false ∧ F64.eq score F64.zero = true)
    ∧ (Vectors.classifyCosine score = "Similar" ↔
        F64.eq score F64.one = false ∧ F64.eq score F64.zero = false
        ∧ F64.ge score (F64.ofRatio false 4 5) = true)
    ∧ (Vectors.classifyCosine score = "Opposite" ↔
        F64.eq score F64.one = false ∧ F64.eq score F64.zero = false
        ∧ F64.ge score (F64.ofRatio false 4 5) = false
        ∧ F64.le score (F64.ofRatio true 4 5) = true)
    ∧ (Vectors.classifyCosine score = "Unrelated" ↔
        F64.eq score F64.one = false ∧ F64.eq score F64.zero = false
        ∧ F64.ge score (F64.ofRatio false 4 5) = false
        ∧ F64.le score (F64.ofRatio true 4 5) = false)
    ∧ (F64.eq score F64.one = true ∨ F64.eq score F64.zero = true →
        Vectors.classifyCosine score ≠ "Similar"
        ∧ Vectors.classifyCosine score ≠ "Opposite")
    ∧ (F64.le (F64.negate F64.one) score = true ∧ F64.le score F64.one = true →
        (Vectors.classifyCosine score = "Similar" ↔
          F64.le (F64.ofRatio false 4 5) score = true ∧ F64.lt score F64.one = true)
        ∧ (Vectors.classifyCosine score = "Opposite" ↔
          F64.le (F64.negate F64.one) score = true
          ∧ F64.le score (F64.ofRatio true 4 5) = true))
    ∧ (score.valid = true →
        (F64.ge score (F64.ofRatio false 4 5) = true
          ↔ score.isNaN = false ∧ 4 * ((1 <<< 1074 : Nat) : Int) ≤ 5 * score.key)
        ∧ (F64.le score (F64.ofRatio true 4 5) = true
          ↔ score.isNaN = false ∧ 5 * score.key ≤ -(4 * ((1 <<< 1074 : Nat) : Int)))) := by
  obtain ⟨k0, k1, k2, k3, k4, n1, n0, n8, nm8, nm1⟩ := F64.key_constants
  obtain ⟨c1, c2, c3, c4, c5⟩ := classifyCosine_cases score
  refine ⟨c1, c2, c3, c4, c5, ?_, ?_,
    fun hv => ⟨F64.ge_four_fifths_iff score hv, F64.le_neg_four_fifths_iff score hv⟩⟩
  · intro h
    rw [Ne, Ne, c3, c4]
    rcases h with h | h
    · simp [h]
    · simp [h]
  · rintro ⟨hlo, hhi⟩
    obtain ⟨-, hn, hlo'⟩ := (F64.le_iff _ _).mp hlo
    obtain ⟨-, -, hhi'⟩ := (F64.le_iff _ _).mp hhi
    have e1 : F64.eq score F64.one = false ↔ score.key ≠ F64.one.key := by
      rw [← Bool.not_eq_true, F64.eq_iff]
      constructor
      · intro h hk; exact h ⟨hn, n1, hk⟩
      · intro h hk; exact h hk.2.2
    have e0 : F64.eq score F64.zero = false ↔ score.key ≠ 0 := by
      rw [← Bool.not_eq_true, F64.eq_iff, k0]
      constructor
      · intro h hk; exact h ⟨hn, n0, hk⟩
      · intro h hk; exact h hk.2.2
    have g8 : F64.ge score (F64.ofRatio false 4 5) = true ↔
        (F64.ofRatio false 4 5).key ≤ score.key := by
      rw [F64.ge, F64.le_iff]
      constructor
      · intro h; exact h.2.2
      · intro h; exact ⟨n8, hn, h⟩
    have g8' : F64.ge score (F64.ofRatio false 4 5) = false ↔
        ¬ (F64.ofRatio false 4 5).key ≤ score.key := by
      rw [← Bool.not_eq_true, g8]
    have l8 : F64.le score (F64.ofRatio true 4 5) = true ↔
        score.key ≤ (F64.ofRatio true 4 5).key := by
      rw [F64.le_iff]
      constructor
      · intro h; exact h.2.2
      · intro h; exact ⟨hn, nm8, h⟩
    have l1 : F64.lt score F64.one = true ↔ score.key < F64.one.key := by
      rw [F64.lt_iff]
      constructor
      · intro h; exact h.2.2
      · intro h; exact ⟨hn, n1, h⟩
    rw [c3, c4, e1, e0, g8, g8', l8, l1]
    have g8'' : F64.le (F64.ofRatio false 4 5) score = true ↔
        (F64.ofRatio false 4 5).key ≤ score.key := g8
    rw [g8'', hlo]
    constructor
    · constructor
      · rintro ⟨h1, h2, h3⟩
        exact ⟨h3, by omega⟩
      · rintro ⟨h1, h2⟩
        exact ⟨by omega, by omega, h1⟩
    · constructor
      · rintro ⟨h1, h2, h3, h4⟩
        exact ⟨rfl, h4⟩
      · rintro ⟨-, h2⟩
        exact ⟨by omega, by omega, by omega, h2⟩

/-! ## Theorems: the cosine over an arbitrary arithmetic -/

theorem cosineLoopIn_f64 (a : List F64) :
    ∀ (b : List F64) (st : F64 × F64 × F64),
      cosineLoopIn F64.arith st a b = cosineLoop st a b := by
  induction a with
  | nil => intro b st; rfl
  | cons x a ih =>
    intro b st
    cases b with
    | nil => rfl
    | cons y b =>
      rw [cosineLoopIn, cosineLoop, ih]
      rfl

theorem cosineSimilarityIn_f64 (a b : List F64) :
    cosineSimilarityIn F64.arith a b = Vectors.cosineSimilarity a b := by
  unfold cosineSimilarityIn Vectors.cosineSimilarity Vectors.assertVectorsLengthEqual
  rw [cosineLoopIn_f64]
  by_cases h : a.length = b.length
  · simp only [h, ne_eq, not_true_eq_false, if_false]
    rfl
  · simp only [h, ne_eq, not_false_eq_true, if_true]
    rfl

theorem cauchy_schwarz_step {K : Type} [LinearOrderedField K] (x y P A B : K)
    (h : P * P ≤ A * B) (hA : 0 ≤ A) (hB : 0 ≤ B) :
    (x * y + P) * (x * y + P) ≤ (x * x + A) * (y * y + B) := by
  have key : 2 * x * y * P ≤ x * x * B + y * y * A := by
    rcases hB.eq_or_lt with hB0 | hBpos
    · have hP : P = 0 := by
        have : P * P ≤ 0 := by rw [← hB0, mul_zero] at h; exact h
        have h2 : P * P = 0 := le_antisymm this (mul_self_nonneg P)
        exact mul_self_eq_zero.mp h2
      rw [hP, ← hB0]
      have := mul_nonneg (mul_self_nonneg y) hA
      linarith
    · have h1 : 0 ≤ (x * B - y * P) * (x * B - y * P) := mul_self_nonneg _
      have h2 : 0 ≤ y * y * (A * B - P * P) :=
        mul_nonneg (mul_self_nonneg y) (sub_nonneg.mpr h)
      have h3 : 0 ≤ B * (x * x * B + y * y * A - 2 * x * y * P) := by
        have : B * (x * x * B + y * y * A - 2 * x * y * P)
            = (x * B - y * P) * (x * B - y * P) + y * y * (A * B - P * P) := by ring
        rw [this]
        exact add_nonneg h1 h2
      have h4 : 0 ≤ x * x * B + y * y * A - 2 * x * y * P := by
        by_contra hneg
        have hneg' : x * x * B + y * y * A - 2 * x * y * P < 0 := lt_of_not_ge hneg
        have := mul_neg_of_pos_of_neg hBpos hneg'
        linarith
      linarith
  have : (x * x + A) * (y * y + B) - (x * y + P) * (x * y + P)
      = (x * x * B + y * y * A - 2 * x * y * P) + (A * B - P * P) := by ring
  linarith

/-! ## Theorems: extending the corpus -/

theorem distinctBefore_ge_of_not_mem (p q : List String) (w : String) (h : w ∉ p) :
    distinctCount p ≤ distinctBefore (p ++ q) w := by
  unfold distinctBefore distinctCount
  rw [List.indexOf_append_of_not_mem h, List.take_append]
  apply Finset.card_le_card
  intro x hx
  rw [List.mem_toFinset] at hx ⊢
  exact List.mem_append_left _ hx

/-- Claim C17. For every corpus `c` and every sequence of further documents `e`,
`buildVocab(c ++ e)` gives every token of `c` the index `buildVocab(c)` gives it, and
gives every token that occurs only in `e` an index that is at least
`len(buildVocab(c))`: extending the corpus only appends to the vocabulary. -/
theorem buildVocab_append_only (c e : List (List String)) :
    (∀ w k, (BagOfWords.buildVocab c).get w = some k →
      (BagOfWords.buildVocab (c ++ e)).get w = some k)
    ∧ (∀ w, w ∈ e.flatten → w ∉ c.flatten →
      ∃ k, (BagOfWords.buildVocab (c ++ e)).get w = some k
        ∧ ((BagOfWords.buildVocab c).len : Int) ≤ k)
    ∧ (∀ w k, (BagOfWords.buildVocab (c ++ e)).get w = some k → w ∉ c.flatten →
      ((BagOfWords.buildVocab c).len : Int) ≤ k) := by
  obtain ⟨idx, inv⟩ := buildVocab_inv c
  obtain ⟨idx', inv'⟩ := buildVocab_inv (c ++ e)
  have hget : ∀ w k, (BagOfWords.buildVocab c).get w = some k ↔
      w ∈ c.flatten ∧ k = (distinctBefore c.flatten w : Int) := inv.get_iff
  have hget' : ∀ w k, (BagOfWords.buildVocab (c ++ e)).get w = some k ↔
      w ∈ (c ++ e).flatten ∧ k = (distinctBefore (c ++ e).flatten w : Int) := inv'.get_iff
  have hlen : (BagOfWords.buildVocab c).len = distinctCount c.flatten := by
    rw [GoMap.len_of_nodup _ inv.keys_nodup]
    exact inv.size
  have hflat : (c ++ e).flatten = c.flatten ++ e.flatten := List.flatten_append c e
  rw [hflat] at hget'
  have hlate : ∀ w k, (BagOfWords.buildVocab (c ++ e)).get w = some k → w ∉ c.flatten →
      ((BagOfWords.buildVocab c).len : Int) ≤ k := by
    intro w k hk hw
    obtain ⟨-, rfl⟩ := (hget' w k).mp hk
    rw [hlen]
    exact_mod_cast distinctBefore_ge_of_not_mem c.flatten e.flatten w hw
  refine ⟨?_, ?_, hlate⟩
  · intro w k hk
    obtain ⟨hmem, rfl⟩ := (hget w k).mp hk
    rw [hget']
    exact ⟨List.mem_append_left _ hmem,
      by rw [distinctBefore_append_of_mem c.flatten e.flatten w hmem]⟩
  · intro w hwe hwc
    have hk := (hget' w _).mpr ⟨List.mem_append_right _ hwe, rfl⟩
    exact ⟨_, hk, hlate w _ hk hwc⟩

/-! ## Theorems: bounds of the document frequency -/

theorem documentFrequency_char (tokens : List (List String)) :
    ∃ df, TfIdf.documentFrequency tokens (BagOfWords.buildVocab tokens) = .ok df
      ∧ df.length = (BagOfWords.buildVocab tokens).len
      ∧ ∀ (w : String) (i : Nat), (BagOfWords.buildVocab tokens).get w = some (i : Int) →
          df[i]? = some (docsContaining tokens w : Int) := by
  have hr := buildVocab_indicesInRange tokens
  obtain ⟨idx, inv⟩ := buildVocab_inv tokens
  have hinj := inv.inj
  simp only at hinj
  generalize BagOfWords.buildVocab tokens = vocab at hr hinj ⊢
  obtain ⟨df, hf, hl, hg⟩ := documentFrequency_outer vocab hr tokens
    (List.replicate vocab.len 0) (by simp)
  refine ⟨df, ?_, hl, ?_⟩
  · unfold TfIdf.documentFrequency
    rw [makeInts_natCast]
    exact hf
  · intro w i hw
    have hi : i < df.length := by
      have := (hr w i hw).2
      rw [hl]
      exact_mod_cast this
    have := hg i
    rw [getD_replicate_zero, List.getD_eq_getElem?_getD, List.getElem?_eq_getElem hi,
      Option.getD_some, zero_add] at this
    rw [List.getElem?_eq_getElem hi, this, docsContaining]
    congr 2
    apply List.countP_congr
    intro doc _
    simp only [decide_eq_true_eq]
    exact hasIndex_iff_mem vocab hinj w i hw doc

theorem docsContaining_bounds (tokens : List (List String)) (w : String)
    (hw : w ∈ tokens.flatten) :
    1 ≤ docsContaining tokens w ∧ docsContaining tokens w ≤ tokens.length := by
  unfold docsContaining
  refine ⟨?_, List.countP_le_length _⟩
  obtain ⟨doc, hdoc, hmem⟩ := List.mem_flatten.mp hw
  exact List.countP_pos_iff.mpr ⟨doc, hdoc, by simpa using hmem⟩

theorem F64.ofInt_ne_zero (n : Int) (hn : 0 < n) : F64.eq (F64.ofInt n) F64.zero = false := by
  have hov : (F64.overflowMag : Int) ≠ 0 := by decide
  rcases F64.ofInt_pos n hn with ⟨m, hm, h⟩ | h
  · rw [h]
    simp [F64.eq, F64.isNaN, F64.key, F64.zero, hm]
  · rw [h]
    simp [F64.eq, F64.isNaN, F64.key, F64.zero, hov]

/-- Claim C20. For every corpus of token sequences, with `vocab = buildVocab(corpus)`,
`documentFrequency(corpus, vocab)` returns a table every entry of which satisfies
`1 <= df[i] <= len(corpus)`; converted by `sliceIntToFloat`, no entry is `== 0`, the
value at which `inverseDocumentFrequency` is undefined. -/
theorem documentFrequency_entries_bounded (tokens : List (List String)) :
    ∃ df, TfIdf.documentFrequency tokens (TfIdf.buildVocab tokens) = .ok df
      ∧ df.length = (TfIdf.buildVocab tokens).len
      ∧ (∀ (i : Nat) (d : Int), df[i]? = some d → 1 ≤ d ∧ d ≤ (tokens.length : Int))
      ∧ (∀ x ∈ TfIdf.sliceIntToFloat df, F64.eq x F64.zero = false) := by
  rw [TfIdf.buildVocab_eq]
  obtain ⟨df, hdf, hlen, hchar⟩ := documentFrequency_char tokens
  obtain ⟨idx, inv⟩ := buildVocab_inv tokens
  have hbound : ∀ (i : Nat) (d : Int), df[i]? = some d → 1 ≤ d ∧ d ≤ (tokens.length : Int) := by
    intro i d hd
    have hi : i < df.length := by
      by_contra hge
      rw [List.getElem?_eq_none (by omega)] at hd
      cases hd
    have hi' : (i : Int) < idx := by
      have h1 : idx = (distinctCount tokens.flatten : Int) := inv.next
      have h2 : (BagOfWords.buildVocab tokens).length = distinctCount tokens.flatten := inv.size
      have h3 : (BagOfWords.buildVocab tokens).len = (BagOfWords.buildVocab tokens).length :=
        GoMap.len_of_nodup _ inv.keys_nodup
      omega
    obtain ⟨w, hw⟩ := inv.onto (i : Int) (by omega) hi'
    have hmem : w ∈ tokens.flatten := ((inv.get_iff w _).mp hw).1
    have := hchar w i hw
    rw [hd] at this
    rw [Option.some.inj this]
    have hb := docsContaining_bounds tokens w hmem
    omega
  refine ⟨df, hdf, hlen, hbound, ?_⟩
  intro x hx
  simp only [TfIdf.sliceIntToFloat, List.mem_map] at hx
  obtain ⟨d, hd, rfl⟩ := hx
  obtain ⟨i, hi, hget⟩ := List.getElem_of_mem hd
  have := hbound i d (by rw [List.getElem?_eq_getElem hi, hget])
  exact F64.ofInt_ne_zero d (by omega)

/-! ## Theorems: term frequency and its documentation -/

/-- Counterexample to C19: for the document `the cat the` (three words) and its own
vocabulary, `termFrequency` returns `[2, 1]`: the entry of `the` is its count 2, not the
count divided by the word count, `2/3`. -/
theorem termFrequency_returns_raw_counts :
    TfIdf.termFrequency ["the", "cat", "the"] (TfIdf.buildVocab [["the", "cat", "the"]])
      = .ok [2, 1]
    ∧ (TfIdf.buildVocab [["the", "cat", "the"]]).get "the" = some 0
    ∧ (["the", "cat", "the"] : List String).count "the" = 2
    ∧ (["the", "cat", "the"] : List String).length = 3
    ∧ ((2 : Int) : ℚ) ≠ 2 / 3 := by
  refine ⟨by decide, by decide, by decide, by decide, by norm_num⟩

/-- Claim C19, amended. For every document `doc` and every vocabulary whose indices lie
in `[0, len(vocab))`, `termFrequency(doc, vocab)` returns a table of length
`len(vocab)` whose entry `i` is the number of tokens of `doc` with index `i`: for a word
that alone has index `i`, the count of the word in the document, not divided by the
word count. -/
theorem termFrequency_counts (vocab : GoMap) (doc : List String)
    (h : vocab.IndicesInRange) :
    ∃ tf, TfIdf.termFrequency doc vocab = .ok tf
      ∧ tf.length = vocab.len
      ∧ (∀ i : Nat, i < vocab.len →
          tf[i]? = some (doc.countP (fun w => decide (vocab.get w = some (i : Int))) : Int))
      ∧ (∀ (w : String) (i : Nat), vocab.get w = some (i : Int) →
          (∀ w', vocab.get w' = some (i : Int) → w' = w) →
          tf[i]? = some (doc.count w : Int)) := by
  obtain ⟨tf, htf, hlen, hget⟩ := termFrequency_fold vocab h doc
    (List.replicate vocab.len 0) (by simp)
  have hentry : ∀ i : Nat, i < vocab.len →
      tf[i]? = some (doc.countP (fun w => decide (vocab.get w = some (i : Int))) : Int) := by
    intro i hi
    have hi' : i < tf.length := by omega
    have := hget i
    rw [getD_replicate_zero, List.getD_eq_getElem?_getD, List.getElem?_eq_getElem hi',
      Option.getD_some, zero_add] at this
    rw [List.getElem?_eq_getElem hi', this]
  refine ⟨tf, ?_, hlen, hentry, ?_⟩
  · unfold TfIdf.termFrequency
    rw [makeInts_natCast]
    exact htf
  · intro w i hw huniq
    have hi : i < vocab.len := by
      have := (h w i hw).2
      exact_mod_cast this
    rw [hentry i hi, List.count, List.countP_eq_length_filter, List.countP_eq_length_filter]
    congr 3
    apply List.filter_congr
    intro w' _
    by_cases hw' : vocab.get w' = some (i : Int)
    · simp [hw', huniq w' hw', hw]
    · have : ¬ w' = w := fun e => hw' (e ▸ hw)
      simp [hw', this]

/-- Witness for C19 (amended): the vocabulary `{the: 0, cat: 1}` has its indices in
range, and the term frequency of `the cat the` is `[2, 1]`. -/
theorem termFrequency_counts_witness :
    GoMap.IndicesInRange [("the", 0), ("cat", 1)]
    ∧ ∃ tf, TfIdf.termFrequency ["the", "cat", "the"] [("the", 0), ("cat", 1)] = .ok tf
      ∧ tf.length = GoMap.len [("the", 0), ("cat", 1)]
      ∧ (∀ i : Nat, i < GoMap.len [("the", 0), ("cat", 1)] →
          tf[i]? = some ((["the", "cat", "the"] : List String).countP
            (fun w => decide (GoMap.get [("the", 0), ("cat", 1)] w = some (i : Int))) : Int))
      ∧ (∀ (w : String) (i : Nat), GoMap.get [("the", 0), ("cat", 1)] w = some (i : Int) →
          (∀ w', GoMap.get [("the", 0), ("cat", 1)] w' = some (i : Int) → w' = w) →
          tf[i]? = some ((["the", "cat", "the"] : List String).count w : Int)) :=
  have hr : GoMap.IndicesInRange [("the", 0), ("cat", 1)] := by
    intro w i hw
    have hlen : GoMap.len [("the", 0), ("cat", 1)] = 2 := by decide
    rw [hlen]
    simp only [GoMap.get] at hw
    split at hw
    · cases hw; decide
    · split at hw
      · cases hw; decide
      · cases hw
  ⟨hr, termFrequency_counts [("the", 0), ("cat", 1)] ["the", "cat", "the"] hr⟩

/-! ## Theorems: symmetry of the cosine -/

theorem F64.mul_comm (x y : F64) : F64.mul x y = F64.mul y x := by
  cases x with
  | nan => cases y <;> rfl
  | inf s =>
    cases y with
    | nan => rfl
    | inf t => simp [F64.mul, Bool.xor_comm]
    | fin t n => simp [F64.mul, Bool.xor_comm]
  | fin s m =>
    cases y with
    | nan => rfl
    | inf t => simp [F64.mul, Bool.xor_comm]
    | fin t n => simp [F64.mul, Bool.xor_comm s t, Nat.mul_comm m n]

theorem foldl_dot_comm (a : List F64) :
    ∀ (b : List F64) (sum : F64),
      (a.zip b).foldl (fun sum p => F64.add sum (F64.mul p.1 p.2)) sum
        = (b.zip a).foldl (fun sum p => F64.add sum (F64.mul p.1 p.2)) sum := by
  induction a with
  | nil => intro b sum; simp
  | cons x a ih =>
    intro b sum
    cases b with
    | nil => simp
    | cons y b =>
      simp only [List.zip_cons_cons, List.foldl_cons]
      rw [F64.mul_comm x y]
      exact ih b _

/-- Counterexample to C12: for the finite vectors `a = [2^600]` and `b = [3 * 2^600]`
the products overflow, both `cosineSimilarity(a, b)` and `cosineSimilarity(b, a)` are
`Inf / (Inf * Inf) = NaN`, and the comparison `NaN == NaN` is false. -/
theorem cosineSimilarity_nan_not_equal_to_itself :
    Vectors.cosineSimilarity [F64.fin false (1 <<< 1674)] [F64.fin false (3 <<< 1674)]
      = .ok F64.nan
    ∧ Vectors.cosineSimilarity [F64.fin false (3 <<< 1674)] [F64.fin false (1 <<< 1674)]
      = .ok F64.nan
    ∧ BagOfWords.cosineSimilarity [F64.fin false (1 <<< 1674)] [F64.fin false (3 <<< 1674)]
      = .ok F64.nan
    ∧ BagOfWords.cosineSimilarity [F64.fin false (3 <<< 1674)] [F64.fin false (1 <<< 1674)]
      = .ok F64.nan
    ∧ F64.eq F64.nan F64.nan = false
    ∧ F64.valid (F64.fin false (1 <<< 1674)) = true
    ∧ F64.valid (F64.fin false (3 <<< 1674)) = true := by
  decide!

/-- Claim C12, amended. For all vectors `a` and `b`, `cosineSimilarity(a, b)` and
`cosineSimilarity(b, a)` return the same result, in vectors/main.go and in
bag-of-words/main.go: the same panic for different lengths, and for equal lengths the
same float64 value; the comparison `cosineSimilarity(a, b) == cosineSimilarity(b, a)` is
true exactly when that value is not a NaN. -/
theorem cosineSimilarity_symmetric (a b : List F64) :
    Vectors.cosineSimilarity a b = Vectors.cosineSimilarity b a
    ∧ BagOfWords.cosineSimilarity a b = BagOfWords.cosineSimilarity b a
    ∧ (a.length = b.length → ∃ x, Vectors.cosineSimilarity a b = .ok x)
    ∧ (∀ x y, Vectors.cosineSimilarity a b = .ok x → Vectors.cosineSimilarity b a = .ok y →
        x = y ∧ (F64.eq x y = true ↔ x.isNaN = false)) := by
  have hmain : Vectors.cosineSimilarity a b = Vectors.cosineSimilarity b a := by
    unfold Vectors.cosineSimilarity
    by_cases h : a.length = b.length
    · rw [Vectors.assert_of_length_eq a b h, Vectors.assert_of_length_eq b a h.symm]
      show (do
          let st ← cosineLoop (F64.zero, F64.zero, F64.zero) a b
          if F64.eq st.2.1 F64.zero || F64.eq st.2.2 F64.zero then pure F64.zero
          else pure (F64.div st.1 (F64.mul (F64.sqrt st.2.1) (F64.sqrt st.2.2))))
        = (do
          let st ← cosineLoop (F64.zero, F64.zero, F64.zero) b a
          if F64.eq st.2.1 F64.zero || F64.eq st.2.2 F64.zero then pure F64.zero
          else pure (F64.div st.1 (F64.mul (F64.sqrt st.2.1) (F64.sqrt st.2.2))))
      rw [cosineLoop_of_length_eq a b _ h, cosineLoop_of_length_eq b a _ h.symm]
      simp only [bind, Except.bind]
      rw [foldl_dot_comm a b, Bool.or_comm,
        F64.mul_comm (F64.sqrt (a.foldl (fun sum v => F64.add sum (F64.mul v v)) F64.zero))]
    · have h' : b.length ≠ a.length := fun e => h e.symm
      rw [Vectors.assert_of_length_ne a b h, Vectors.assert_of_length_ne b a h']
      rfl
  refine ⟨hmain, hmain, fun hlen => (Vectors.cosineSimilarity_isOk_iff a b).mpr hlen, ?_⟩
  intro x y hx hy
  rw [← hmain, hx] at hy
  have hxy : x = y := Except.ok.inj hy
  subst hxy
  refine ⟨rfl, ?_⟩
  rw [F64.eq_iff]
  exact ⟨fun h => h.1, fun h => ⟨h, h, rfl⟩⟩

/-! ## Theorems: the tokenizer -/

theorem splitSpaces_ne_nil (cs : List Char) : splitSpaces cs ≠ [] := by
  cases cs with
  | nil => simp [splitSpaces]
  | cons c cs =>
    rw [splitSpaces]
    split
    · simp
    · split <;> simp

theorem splitSpaces_cons_of_ne (c : Char) (cs : List Char) (hc : c ≠ ' ') :
    ∃ t ts, splitSpaces cs = t :: ts ∧ splitSpaces (c :: cs) = (c :: t) :: ts := by
  cases h : splitSpaces cs with
  | nil => exact absurd h (splitSpaces_ne_nil cs)
  | cons t ts => exact ⟨t, ts, rfl, by simp [splitSpaces, hc, h]⟩

theorem splitSpaces_no_space (cs : List Char) : ∀ t ∈ splitSpaces cs, ' ' ∉ t := by
  induction cs with
  | nil => simp [splitSpaces]
  | cons c cs ih =>
    by_cases hc : c = ' '
    · intro t ht
      simp only [splitSpaces, hc, if_true, List.mem_cons] at ht
      rcases ht with rfl | ht
      · simp
      · exact ih t ht
    · obtain ⟨t₀, ts, h₁, h₂⟩ := splitSpaces_cons_of_ne c cs hc
      rw [h₂]
      rw [h₁] at ih
      intro t ht
      rcases List.mem_cons.mp ht with rfl | ht
      · intro hmem
        rcases List.mem_cons.mp hmem with e | hmem
        · exact hc e.symm
        · exact ih t₀ (List.mem_cons_self _ _) hmem
      · exact ih t (List.mem_cons_of_mem _ ht)

theorem splitSpaces_length (cs : List Char) :
    (splitSpaces cs).length = cs.count ' ' + 1 := by
  induction cs with
  | nil => simp [splitSpaces]
  | cons c cs ih =>
    by_cases hc : c = ' '
    · simp [splitSpaces, hc, ih]
    · obtain ⟨t₀, ts, h₁, h₂⟩ := splitSpaces_cons_of_ne c cs hc
      have hc' : ' ' ≠ c := fun e => hc e.symm
      rw [h₂, List.count_cons_of_ne hc', ← ih, h₁]
      simp

theorem intercalate_splitSpaces (cs : List Char) :
    [' '].intercalate (splitSpaces cs) = cs := by
  induction cs with
  | nil => simp [splitSpaces, List.intercalate]
  | cons c cs ih =>
    by_cases hc : c = ' '
    · have hne := splitSpaces_ne_nil cs
      cases h : splitSpaces cs with
      | nil => exact absurd h hne
      | cons t ts =>
        rw [h] at ih
        simp only [splitSpaces, hc, if_true, h]
        simp only [List.intercalate, List.intersperse_cons_cons, List.flatten_cons,
          List.nil_append] at ih ⊢
        rw [ih]
        rfl
    · obtain ⟨t₀, ts, h₁, h₂⟩ := splitSpaces_cons_of_ne c cs hc
      rw [h₂]
      rw [h₁] at ih
      cases ts with
      | nil =>
        simp only [List.intercalate, List.intersperse_singleton, List.flatten_cons,
          List.flatten_nil, List.append_nil] at ih ⊢
        rw [ih]
      | cons t' ts' =>
        simp only [List.intercalate, List.intersperse_cons_cons, List.flatten_cons,
          List.cons_append] at ih ⊢
        rw [ih]

theorem splitSpaces_of_no_space (cs : List Char) (h : ' ' ∉ cs) : splitSpaces cs = [cs] := by
  induction cs with
  | nil => rfl
  | cons c cs ih =>
    have hc : c ≠ ' ' := fun e => h (e ▸ List.mem_cons_self _ _)
    have hcs : ' ' ∉ cs := fun hm => h (List.mem_cons_of_mem _ hm)
    simp [splitSpaces, hc, ih hcs]

theorem splitSpaces_replicate (n : Nat) :
    splitSpaces (List.replicate n ' ') = List.replicate (n + 1) [] := by
  induction n with
  | zero => rfl
  | succ n ih =>
    rw [List.replicate_succ, splitSpaces, if_pos rfl, ih]
    rfl

theorem String.intercalate_go_data (sep : String) (l : List String) :
    ∀ acc : String, (String.intercalate.go acc sep l).data
      = acc.data ++ (l.map (fun a => sep.data ++ a.data)).flatten := by
  induction l with
  | nil => intro acc; simp [String.intercalate.go]
  | cons a as ih =>
    intro acc
    rw [String.intercalate.go, ih]
    simp [String.data_append, List.append_assoc]

theorem String.intercalate_space_mk (l : List (List Char)) :
    String.intercalate " " (l.map String.mk) = String.mk ([' '].intercalate l) := by
  apply String.ext
  cases l with
  | nil => rfl
  | cons t ts =>
    simp only [List.map_cons, String.intercalate, String.intercalate_go_data]
    induction ts generalizing t with
    | nil => simp [List.intercalate]
    | cons t' ts' ih =>
      have := ih t'
      simp only [List.map_cons, List.flatten_cons, List.intercalate,
        List.intersperse_cons_cons, List.map_map] at this ⊢
      rw [List.append_assoc, this]

theorem tokenize_fold (corpus : List String) :
    ∀ acc : List (List String),
      corpus.foldl (fun tokens doc => tokens ++ [stringsSplit doc]) acc
        = acc ++ corpus.map stringsSplit := by
  induction corpus with
  | nil => intro acc; simp
  | cons d ds ih => intro acc; simp [ih]

theorem BagOfWords.tokenize_eq_map (corpus : List String) :
    BagOfWords.tokenize corpus = corpus.map stringsSplit := by
  simpa [BagOfWords.tokenize] using tokenize_fold corpus []

theorem TfIdf.tokenize_eq (corpus : List String) :
    TfIdf.tokenize corpus = BagOfWords.tokenize corpus := rfl

/-- Claim C18. For every corpus, `tokenize` (the same function in bag-of-words and in
tf-idf) splits each document on its own, in order, and for every document `d` the
tokens are the maximal space-free pieces of `d` in their order: no token contains a
space, there are (number of spaces of `d`) + 1 tokens, and joining the tokens with
single spaces gives `d` back.  A document without a space yields the single token `d`,
and a document of `n` spaces yields `n + 1` empty tokens. -/
theorem tokenize_splits_on_spaces (corpus : List String) :
    TfIdf.tokenize corpus = BagOfWords.tokenize corpus
    ∧ BagOfWords.tokenize corpus = corpus.map stringsSplit
    ∧ (∀ d : String,
        (∀ t ∈ stringsSplit d, ' ' ∉ t.toList)
        ∧ (stringsSplit d).length = d.toList.count ' ' + 1
        ∧ String.intercalate " " (stringsSplit d) = d
        ∧ (' ' ∉ d.toList → stringsSplit d = [d])
        ∧ (∀ n : Nat, d = String.mk (List.replicate n ' ') →
            stringsSplit d = List.replicate (n + 1) "")) := by
  refine ⟨rfl, BagOfWords.tokenize_eq_map corpus, ?_⟩
  intro d
  refine ⟨?_, ?_, ?_, ?_, ?_⟩
  · intro t ht
    simp only [stringsSplit, List.mem_map] at ht
    obtain ⟨cs, hcs, rfl⟩ := ht
    exact splitSpaces_no_space d.toList cs hcs
  · simp [stringsSplit, splitSpaces_length]
  · rw [stringsSplit, String.intercalate_space_mk, intercalate_splitSpaces]
    rfl
  · intro h
    rw [stringsSplit, splitSpaces_of_no_space d.toList h]
    rfl
  · intro n hn
    subst hn
    simp only [stringsSplit, String.toList, splitSpaces_replicate, List.map_replicate]

/-! ## Theorems: the scenario of the three short documents -/

/-- Claim C14. For the corpus `["the cat sat", "the dog sat", "the cat ran"]`, with
`tokens = tokenize(corpus)`: `buildVocab(tokens)` is `{the:0, cat:1, sat:2, dog:3,
ran:4}`, `documentFrequency(tokens, vocab)` is `[3, 2, 2, 1, 1]`, and
`termFrequency(tokens[0], vocab)` is `[1, 1, 1, 0, 0]`. -/
theorem three_documents_scenario :
    TfIdf.tokenize ["the cat sat", "the dog sat", "the cat ran"]
      = [["the", "cat", "sat"], ["the", "dog", "sat"], ["the", "cat", "ran"]]
    ∧ TfIdf.buildVocab (TfIdf.tokenize ["the cat sat", "the dog sat", "the cat ran"])
      = [("the", 0), ("cat", 1), ("sat", 2), ("dog", 3), ("ran", 4)]
    ∧ GoMap.len (TfIdf.buildVocab (TfIdf.tokenize ["the cat sat", "the dog sat", "the cat ran"]))
      = 5
    ∧ TfIdf.documentFrequency (TfIdf.tokenize ["the cat sat", "the dog sat", "the cat ran"])
        (TfIdf.buildVocab (TfIdf.tokenize ["the cat sat", "the dog sat", "the cat ran"]))
      = .ok [3, 2, 2, 1, 1]
    ∧ TfIdf.termFrequency ["the", "cat", "sat"]
        (TfIdf.buildVocab (TfIdf.tokenize ["the cat sat", "the dog sat", "the cat ran"]))
      = .ok [1, 1, 1, 0, 0] := by
  decide

/-! ## Theorems: the cosine in exact arithmetic -/

theorem cosineLoopIn_exact_sums {K : Type} [LinearOrderedField K] (sqrt : K → K)
    (a : List K) :
    ∀ (b : List K) (st : K × K × K), a.length = b.length →
      cosineLoopIn (exactArith K sqrt) st a b
        = .ok (st.1 + (List.zipWith (fun x y => x * y) a b).sum,
            st.2.1 + (a.map (fun x => x * x)).sum,
            st.2.2 + (b.map (fun y => y * y)).sum) := by
  induction a with
  | nil =>
    intro b st h
    cases b with
    | nil => simp [cosineLoopIn]
    | cons y b => simp at h
  | cons x a ih =>
    intro b st h
    cases b with
    | nil => simp at h
    | cons y b =>
      rw [cosineLoopIn, ih b _ (by simpa using h)]
      simp only [exactArith, List.zipWith_cons_cons, List.sum_cons, List.map_cons, add_assoc]

theorem cosineSimilarityIn_exact_eq {K : Type} [LinearOrderedField K] (sqrt : K → K)
    (a b : List K) (hlen : a.length = b.length) :
    cosineSimilarityIn (exactArith K sqrt) a b
      = .ok (if (a.map (fun x => x * x)).sum = 0 ∨ (b.map (fun y => y * y)).sum = 0 then 0
          else (List.zipWith (fun x y => x * y) a b).sum
            / (sqrt (a.map (fun x => x * x)).sum * sqrt (b.map (fun y => y * y)).sum)) := by
  unfold cosineSimilarityIn
  simp only [hlen, ne_eq, not_true_eq_false, if_false]
  show (do
      let st ← cosineLoopIn (exactArith K sqrt) (0, 0, 0) a b
      if (exactArith K sqrt).eqZero st.2.1 || (exactArith K sqrt).eqZero st.2.2 then pure 0
      else pure ((exactArith K sqrt).div st.1
        ((exactArith K sqrt).mul ((exactArith K sqrt).sqrt st.2.1)
          ((exactArith K sqrt).sqrt st.2.2)))) = _
  rw [cosineLoopIn_exact_sums sqrt a b _ hlen]
  simp only [bind, Except.bind, exactArith, zero_add, Bool.or_eq_true, decide_eq_true_eq]
  split <;> rfl

/-- Claim C11, the divergence. For the non-zero vector `v = [1, 1, 1]`,
`cosineSimilarity(v, v)` returns `1 + 2^-52` (printed `1.0000000000000002`), which is
not `== 1`, and `classifyCosine` labels it "Similar", where it labels the score 1
"Identical"; for the non-zero vector `v = [2^-600]` the square underflows to 0, the
zero guard fires, and the result is 0, labelled "Orthogonal". -/
theorem cosineSimilarity_self_not_one :
    Vectors.cosineSimilarity [F64.ofInt 1, F64.ofInt 1, F64.ofInt 1]
        [F64.ofInt 1, F64.ofInt 1, F64.ofInt 1]
      = .ok (F64.fin false (1 <<< 1074 + 1 <<< 1022))
    ∧ F64.eq (F64.fin false (1 <<< 1074 + 1 <<< 1022)) F64.one = false
    ∧ Vectors.classifyCosine (F64.fin false (1 <<< 1074 + 1 <<< 1022)) = "Similar"
    ∧ Vectors.classifyCosine F64.one = "Identical"
    ∧ Vectors.cosineSimilarity [F64.fin false (1 <<< 474)] [F64.fin false (1 <<< 474)]
      = .ok F64.zero
    ∧ F64.eq (F64.fin false (1 <<< 474)) F64.zero = false
    ∧ F64.valid (F64.fin false (1 <<< 474)) = true
    ∧ Vectors.classifyCosine F64.zero = "Orthogonal" := by
  decide!

/-! ## Theorems: the cosine of the first two documents of the scenario -/

/-- Counterexample to C15: the binary64 result for the two term-frequency vectors is
`6004799503160662 * 2^-53` (printed `0.6666666666666667`), one unit in the last place
above the float64 nearest to 2/3 (`6004799503160661 * 2^-53`); it is not `==` to it, and
three times the result is not 2. -/
theorem scenario_cosine_not_two_thirds :
    BagOfWords.cosineSimilarity (BagOfWords.sliceIntToFloat [1, 1, 1, 0, 0])
        (BagOfWords.sliceIntToFloat [1, 0, 1, 1, 0])
      = .ok (F64.fin false (6004799503160662 <<< 1021))
    ∧ F64.ofRatio false 2 3 = F64.fin false (6004799503160661 <<< 1021)
    ∧ F64.eq (F64.fin false (6004799503160662 <<< 1021)) (F64.ofRatio false 2 3) = false
    ∧ 3 * (F64.fin false (6004799503160662 <<< 1021)).key ≠ 2 * F64.one.key := by
  decide!

/-- Claim C15, amended. With the vocabulary of the corpus `["the cat sat", "the dog
sat", "the cat ran"]`, the term-frequency vectors of the first two documents are
`[1, 1, 1, 0, 0]` and `[1, 0, 1, 1, 0]`; in exact arithmetic (an ordered field with
exact square roots) their cosine is exactly 2/3; the binary64 function returns
`6004799503160662 * 2^-53`, within one unit in the last place of 2/3, and
`classifyCosine` of that score is "Unrelated". -/
theorem scenario_cosine_two_thirds (K : Type) [LinearOrderedField K] (sqrt : K → K)
    (hsqrt : ∀ x : K, 0 ≤ x → 0 ≤ sqrt x ∧ sqrt x * sqrt x = x) :
    TfIdf.termFrequency ["the", "cat", "sat"]
        (TfIdf.buildVocab (TfIdf.tokenize ["the cat sat", "the dog sat", "the cat ran"]))
      = .ok [1, 1, 1, 0, 0]
    ∧ TfIdf.termFrequency ["the", "dog", "sat"]
        (TfIdf.buildVocab (TfIdf.tokenize ["the cat sat", "the dog sat", "the cat ran"]))
      = .ok [1, 0, 1, 1, 0]
    ∧ cosineSimilarityIn (exactArith K sqrt) [1, 1, 1, 0, 0] [1, 0, 1, 1, 0] = .ok (2 / 3)
    ∧ BagOfWords.cosineSimilarity (BagOfWords.sliceIntToFloat [1, 1, 1, 0, 0])
        (BagOfWords.sliceIntToFloat [1, 0, 1, 1, 0])
      = .ok (F64.fin false (6004799503160662 <<< 1021))
    ∧ (F64.fin false (6004799503160662 <<< 1021)).key - (F64.ofRatio false 2 3).key
      = ((1 <<< 1021 : Nat) : Int)
    ∧ Vectors.classifyCosine (F64.fin false (6004799503160662 <<< 1021)) = "Unrelated" := by
  refine ⟨by decide, by decide, ?_, by decide!, by decide!, by decide!⟩
  rw [cosineSimilarityIn_exact_eq sqrt [1, 1, 1, 0, 0] [1, 0, 1, 1, 0] rfl]
  have h3 : (0 : K) ≤ 3 := by norm_num
  have hs := (hsqrt 3 h3).2
  norm_num [hs]

/-- Witness for C15 (amended): over the reals, with the real square root. -/
theorem scenario_cosine_two_thirds_witness :
    (∀ x : ℝ, 0 ≤ x → 0 ≤ Real.sqrt x ∧ Real.sqrt x * Real.sqrt x = x)
    ∧ cosineSimilarityIn (exactArith ℝ Real.sqrt) [1, 1, 1, 0, 0] [1, 0, 1, 1, 0]
      = .ok (2 / 3) :=
  ⟨fun x hx => ⟨Real.sqrt_nonneg x, Real.mul_self_sqrt hx⟩,
    (scenario_cosine_two_thirds ℝ Real.sqrt
      (fun x hx => ⟨Real.sqrt_nonneg x, Real.mul_self_sqrt hx⟩)).2.2.1⟩

/-! ## Theorems: the ranking of simple-embedding -/

namespace SimpleEmbedding

theorem insertBack_perm (less : Match → Match → Bool) (x : Match) (acc : List Match) :
    (insertBack less x acc).Perm (x :: acc) := by
  induction acc with
  | nil => exact List.Perm.refl _
  | cons y ys ih =>
    rw [insertBack]
    split
    · exact (List.Perm.cons y ih).trans (List.Perm.swap x y ys)
    · exact List.Perm.refl _

theorem foldl_insertBack_perm (less : Match → Match → Bool) (l : List Match) :
    ∀ acc : List Match,
      (l.foldl (fun acc x => insertBack less x acc) acc).Perm (l.reverse ++ acc) := by
  induction l with
  | nil => intro acc; simp
  | cons x l ih =>
    intro acc
    rw [List.foldl_cons, List.reverse_cons, List.append_assoc]
    exact (ih _).trans (List.Perm.append_left _ (by simpa using insertBack_perm less x acc))

theorem insertionSort_perm (less : Match → Match → Bool) (data : List Match) :
    (insertionSort less data).Perm data := by
  unfold insertionSort
  refine (List.reverse_perm _).trans ?_
  have := foldl_insertBack_perm less data []
  rw [List.append_nil] at this
  exact this.trans (List.reverse_perm _)

theorem insertBack_sorted (less : Match → Match → Bool) (D : List Match)
    (hord : TransitiveOrdering less D) (x : Match) (hx : x ∈ D) (acc : List Match) :
    (∀ z ∈ acc, z ∈ D) → acc.Pairwise (fun later earlier => less later earlier = false) →
      (insertBack less x acc).Pairwise (fun later earlier => less later earlier = false) := by
  obtain ⟨hirr, htr, hneg⟩ := hord
  induction acc with
  | nil => intro _ _; simp [insertBack]
  | cons y ys ih =>
    intro hD hp
    have hy : y ∈ D := hD y (List.mem_cons_self _ _)
    have hys : ∀ z ∈ ys, z ∈ D := fun z hz => hD z (List.mem_cons_of_mem _ hz)
    rw [List.pairwise_cons] at hp
    rw [insertBack]
    split
    · next hlt =>
      rw [List.pairwise_cons]
      refine ⟨?_, ih hys hp.2⟩
      intro z hz
      rcases List.mem_cons.mp ((insertBack_perm less x ys).subset hz) with rfl | hz
      · cases hyx : less y z with
        | false => rfl
        | true =>
          have := htr z hx y hy z hx hlt hyx
          rw [hirr z hx] at this
          cases this
      · exact hp.1 z hz
    · next hge =>
      have hge' : less x y = false := by simpa using hge
      rw [List.pairwise_cons]
      refine ⟨?_, List.pairwise_cons.mpr hp⟩
      intro z hz
      rcases List.mem_cons.mp hz with rfl | hz
      · exact hge'
      · exact hneg x hx y hy z (hys z hz) hge' (hp.1 z hz)

theorem foldl_insertBack_sorted (less : Match → Match → Bool) (D : List Match)
    (hord : TransitiveOrdering less D) (l : List Match) :
    ∀ acc : List Match, (∀ z ∈ l, z ∈ D) → (∀ z ∈ acc, z ∈ D) →
      acc.Pairwise (fun later earlier => less later earlier = false) →
      (l.foldl (fun acc x => insertBack less x acc) acc).Pairwise
        (fun later earlier => less later earlier = false) := by
  induction l with
  | nil => intro acc _ _ hp; exact hp
  | cons x l ih =>
    intro acc hl hacc hp
    rw [List.foldl_cons]
    apply ih
    · exact fun z hz => hl z (List.mem_cons_of_mem _ hz)
    · intro z hz
      rcases List.mem_cons.mp ((insertBack_perm less x acc).subset hz) with rfl | hz
      · exact hl z (List.mem_cons_self _ _)
      · exact hacc z hz
    · exact insertBack_sorted less D hord x (hl x (List.mem_cons_self _ _)) acc hacc hp

theorem insertionSort_sorted (less : Match → Match → Bool) (data : List Match)
    (hord : TransitiveOrdering less data) :
    (insertionSort less data).Pairwise (fun x y => less y x = false) := by
  unfold insertionSort
  rw [List.pairwise_reverse]
  exact foldl_insertBack_sorted less data hord data [] (fun z hz => hz)
    (by simp) List.Pairwise.nil

/-- The insertion sort satisfies the documented contract of the sort. -/
theorem insertionSort_contract : SortContract insertionSort :=
  fun less data => ⟨insertionSort_perm less data, insertionSort_sorted less data⟩

theorem buildMatches_fold (similarities : List F64) :
    ∀ (acc : List Match) (i : Nat),
      (similarities.foldl (fun (st : List Match × Int) score =>
        (st.1 ++ [{ Index := st.2, Score := score }], st.2 + 1)) (acc, (i : Int))).1
        = acc ++ (similarities.enumFrom i).map
            (fun p => { Index := (p.1 : Int), Score := p.2 }) := by
  induction similarities with
  | nil => intro acc i; simp
  | cons s rest ih =>
    intro acc i
    rw [List.foldl_cons]
    have := ih (acc ++ [{ Index := (i : Int), Score := s }]) (i + 1)
    simp only [Nat.cast_add, Nat.cast_one] at this
    rw [this]
    simp [List.enumFrom_cons]

theorem buildMatches_eq (similarities : List F64) :
    buildMatches similarities = candidates similarities := by
  have := buildMatches_fold similarities [] 0
  simpa [buildMatches, candidates, List.enum] using this

theorem candidates_scores (similarities : List F64) :
    ∀ m ∈ candidates similarities, m.Score ∈ similarities := by
  intro m hm
  obtain ⟨p, hp, rfl⟩ := List.mem_map.mp hm
  exact List.snd_mem_of_mem_enum hp

theorem gt_transitiveOrdering (data : List Match) (hnan : ∀ m ∈ data, m.Score.isNaN = false) :
    TransitiveOrdering (fun mi mj => F64.gt mi.Score mj.Score) data := by
  have hlt : ∀ x ∈ data, ∀ y ∈ data,
      (F64.gt x.Score y.Score = true ↔ y.Score.key < x.Score.key) := by
    intro x hx y hy
    rw [F64.gt, F64.lt_iff]
    exact ⟨fun h => h.2.2, fun h => ⟨hnan y hy, hnan x hx, h⟩⟩
  have hnlt : ∀ x ∈ data, ∀ y ∈ data,
      (F64.gt x.Score y.Score = false ↔ x.Score.key ≤ y.Score.key) := by
    intro x hx y hy
    rw [← Bool.not_eq_true, hlt x hx y hy]
    omega
  refine ⟨?_, ?_, ?_⟩
  · intro x hx
    rw [hnlt x hx x hx]
  · intro x hx y hy z hz
    rw [hlt x hx y hy, hlt y hy z hz, hlt x hx z hz]
    omega
  · intro x hx y hy z hz
    rw [hnlt x hx y hy, hnlt y hy z hz, hnlt x hx z hz]
    omega

/-- The insertion sort from the end satisfies the documented contract of the sort. -/
theorem insertionSortFromEnd_contract : SortContract insertionSortFromEnd := by
  intro less data
  refine ⟨(insertionSort_perm less data.reverse).trans (List.reverse_perm data), ?_⟩
  intro hord
  apply insertionSort_sorted
  obtain ⟨h1, h2, h3⟩ := hord
  exact ⟨fun x hx => h1 x (List.mem_reverse.mp hx),
    fun x hx y hy z hz => h2 x (List.mem_reverse.mp hx) y (List.mem_reverse.mp hy) z
      (List.mem_reverse.mp hz),
    fun x hx y hy z hz => h3 x (List.mem_reverse.mp hx) y (List.mem_reverse.mp hy) z
      (List.mem_reverse.mp hz)⟩

end SimpleEmbedding

/-- Counterexample to C16, in two parts.  With a NaN among the scores the ranking need
not be descending: for the scores `[1, NaN, 2]` no comparison with the NaN is true, and
the insertion sort (a sort that meets the contract of `sort.Slice`) leaves the order
`[1, NaN, 2]`, the score 1 ahead of the score 2.  And the contract of `sort.Slice` does
not fix the order of identical scores: the insertion sort from the end meets it too and
ranks the scores `[1, 1]` as candidate 1, then candidate 0. -/
theorem ranking_not_descending_nor_index_ordered :
    SimpleEmbedding.SortContract SimpleEmbedding.insertionSort
    ∧ SimpleEmbedding.rankMatches SimpleEmbedding.insertionSort
        [F64.ofInt 1, F64.nan, F64.ofInt 2]
      = [{ Index := 0, Score := F64.ofInt 1 }, { Index := 1, Score := F64.nan },
          { Index := 2, Score := F64.ofInt 2 }]
    ∧ F64.ge (F64.ofInt 1) (F64.ofInt 2) = false
    ∧ SimpleEmbedding.SortContract SimpleEmbedding.insertionSortFromEnd
    ∧ SimpleEmbedding.rankMatches SimpleEmbedding.insertionSortFromEnd
        [F64.ofInt 1, F64.ofInt 1]
      = [{ Index := 1, Score := F64.ofInt 1 }, { Index := 0, Score := F64.ofInt 1 }] :=
  ⟨SimpleEmbedding.insertionSort_contract, by decide!, by decide!,
    SimpleEmbedding.insertionSortFromEnd_contract, by decide!⟩

/-- Claim C16, amended. For every list of similarity scores none of which is a NaN, and
a `sort.Slice` that meets its documented contract, the ranking of `main` is a
permutation of the candidates (candidate `i` with score `similarities[i]`) in
descending order of `Score`.  The order of candidates with identical scores is not
fixed: the comparison looks at `Score` only and the sort is not stable. -/
theorem ranking_descending
    (sortSlice : (SimpleEmbedding.Match → SimpleEmbedding.Match → Bool) →
      List SimpleEmbedding.Match → List SimpleEmbedding.Match)
    (similarities : List F64) (hsort : SimpleEmbedding.SortContract sortSlice)
    (hnan : ∀ s ∈ similarities, s.isNaN = false) :
    (SimpleEmbedding.rankMatches sortSlice similarities).Perm
        (SimpleEmbedding.candidates similarities)
    ∧ (SimpleEmbedding.rankMatches sortSlice similarities).Pairwise
        (fun x y => F64.ge x.Score y.Score = true) := by
  have hcn : ∀ m ∈ SimpleEmbedding.candidates similarities, m.Score.isNaN = false :=
    fun m hm => hnan _ (SimpleEmbedding.candidates_scores similarities m hm)
  have hord := SimpleEmbedding.gt_transitiveOrdering _ hcn
  unfold SimpleEmbedding.rankMatches
  rw [SimpleEmbedding.buildMatches_eq]
  obtain ⟨hperm, hsorted⟩ := hsort (fun mi mj => F64.gt mi.Score mj.Score)
    (SimpleEmbedding.candidates similarities)
  refine ⟨hperm, ?_⟩
  have hmem : ∀ m ∈ sortSlice (fun mi mj => F64.gt mi.Score mj.Score)
      (SimpleEmbedding.candidates similarities), m.Score.isNaN = false :=
    fun m hm => hcn m (hperm.subset hm)
  refine List.Pairwise.imp_of_mem ?_ (hsorted hord)
  intro x y hx hy hxy
  rw [F64.ge, F64.le_iff]
  refine ⟨hmem y hy, hmem x hx, ?_⟩
  have : ¬ F64.lt x.Score y.Score = true := by
    simpa [F64.gt] using hxy
  rw [F64.lt_iff] at this
  by_contra hlt
  exact this ⟨hmem x hx, hmem y hy, by omega⟩

/-- Witness for C16 (amended): the insertion sort meets the contract of the library
sort, the scores `[1, 3, 2, 3]` hold no NaN, and their ranking under it is the
candidates 1, 3, 2, 0. -/
theorem ranking_descending_witness :
    SimpleEmbedding.SortContract SimpleEmbedding.insertionSort
    ∧ (∀ s ∈ [F64.ofInt 1, F64.ofInt 3, F64.ofInt 2, F64.ofInt 3], s.isNaN = false)
    ∧ SimpleEmbedding.rankMatches SimpleEmbedding.insertionSort
        [F64.ofInt 1, F64.ofInt 3, F64.ofInt 2, F64.ofInt 3]
      = [{ Index := 1, Score := F64.ofInt 3 }, { Index := 3, Score := F64.ofInt 3 },
          { Index := 2, Score := F64.ofInt 2 }, { Index := 0, Score := F64.ofInt 1 }]
    ∧ (SimpleEmbedding.rankMatches SimpleEmbedding.insertionSort
        [F64.ofInt 1, F64.ofInt 3, F64.ofInt 2, F64.ofInt 3]).Pairwise
        (fun x y => F64.ge x.Score y.Score = true) :=
  ⟨SimpleEmbedding.insertionSort_contract, by decide!, by decide!,
    (ranking_descending SimpleEmbedding.insertionSort
      [F64.ofInt 1, F64.ofInt 3, F64.ofInt 2, F64.ofInt 3]
      SimpleEmbedding.insertionSort_contract (by decide!)).2⟩

/-! ## Theorems: monotonicity of the rounding -/

theorem F64.roundHalfEven_mono (p q p' q' : Nat) (hq : 0 < q) (hq' : 0 < q')
    (h : p * q' ≤ p' * q) : F64.roundHalfEven p q ≤ F64.roundHalfEven p' q' := by
  obtain ⟨a1, _, c1⟩ := F64.roundHalfEven_nearest p q hq
  obtain ⟨_, b2, c2⟩ := F64.roundHalfEven_nearest p' q' hq'
  generalize F64.roundHalfEven p q = k at a1 c1 ⊢
  generalize F64.roundHalfEven p' q' = k' at b2 c2 ⊢
  by_contra hlt
  have hk : k' + 1 ≤ k := by omega
  have hW : 0 < q * q' := Nat.mul_pos hq hq'
  have e1 : 2 * (k * q * q') ≤ 2 * (p * q') + q * q' := by
    have := Nat.mul_le_mul_right q' a1
    calc 2 * (k * q * q') = 2 * (k * q) * q' := by ring
      _ ≤ (2 * p + q) * q' := this
      _ = 2 * (p * q') + q * q' := by ring
  have e2 : 2 * (p' * q) ≤ 2 * (k' * q * q') + q * q' := by
    have := Nat.mul_le_mul_right q b2
    calc 2 * (p' * q) = 2 * p' * q := by ring
      _ ≤ (2 * (k' * q') + q') * q := this
      _ = 2 * (k' * q * q') + q * q' := by ring
  have e3 : k' * q * q' + q * q' ≤ k * q * q' := by
    have := Nat.mul_le_mul_right (q * q') hk
    calc k' * q * q' + q * q' = (k' + 1) * (q * q') := by ring
      _ ≤ k * (q * q') := this
      _ = k * q * q' := by ring
  have t1 : 2 * (k * q * q') = 2 * (p * q') + q * q' := by omega
  have t2 : 2 * (p' * q) = 2 * (k' * q * q') + q * q' := by omega
  have t3 : k * q * q' = k' * q * q' + q * q' := by omega
  have tie1 : 2 * (k * q) = 2 * p + q := by
    apply Nat.eq_of_mul_eq_mul_right hq'
    calc 2 * (k * q) * q' = 2 * (k * q * q') := by ring
      _ = 2 * (p * q') + q * q' := t1
      _ = (2 * p + q) * q' := by ring
  have tie2 : 2 * p' = 2 * (k' * q') + q' := by
    apply Nat.eq_of_mul_eq_mul_right hq
    calc 2 * p' * q = 2 * (p' * q) := by ring
      _ = 2 * (k' * q * q') + q * q' := t2
      _ = (2 * (k' * q') + q') * q := by ring
  have hkk : k = k' + 1 := by
    apply Nat.eq_of_mul_eq_mul_right hW
    calc k * (q * q') = k * q * q' := by ring
      _ = k' * q * q' + q * q' := t3
      _ = (k' + 1) * (q * q') := by ring
  have ev1 := c1 (Or.inl tie1)
  have ev2 := c2 (Or.inr tie2)
  omega

theorem F64.bitLen_mono (t t' : Nat) (h : t ≤ t') : F64.bitLen t ≤ F64.bitLen t' := by
  by_cases ht : t = 0
  · subst ht
    simp [F64.bitLen]
  · have ht' : t' ≠ 0 := by omega
    obtain ⟨lo, _⟩ := F64.bitLen_spec t ht
    obtain ⟨_, hi'⟩ := F64.bitLen_spec t' ht'
    by_contra hlt
    have : 2 ^ F64.bitLen t' ≤ 2 ^ (F64.bitLen t - 1) :=
      Nat.pow_le_pow_right (by decide) (by omega)
    omega

theorem F64.ulpShift_mono (t t' : Nat) (h : t ≤ t') : F64.ulpShift t ≤ F64.ulpShift t' := by
  unfold F64.ulpShift
  have := F64.bitLen_mono t t' h
  split <;> split <;> omega

theorem F64.floor_le_roundHalfEven (p q : Nat) : p / q ≤ F64.roundHalfEven p q := by
  unfold F64.roundHalfEven
  split <;> omega

/-- The magnitude that `round` computes grows with the exact value: if
`p / q <= p' / q'` then the rounded magnitude of `p / q` is at most that of `p' / q'`. -/
theorem F64.roundMag_mono (p q p' q' : Nat) (hq : 0 < q) (hq' : 0 < q')
    (h : p * q' ≤ p' * q) :
    F64.roundHalfEven p (q <<< F64.ulpShift (p / q)) <<< F64.ulpShift (p / q)
      ≤ F64.roundHalfEven p' (q' <<< F64.ulpShift (p' / q')) <<< F64.ulpShift (p' / q') := by
  have hfloor : p / q ≤ p' / q' := by
    rw [Nat.le_div_iff_mul_le hq']
    have h1 : p / q * q ≤ p := Nat.div_mul_le_self p q
    have h2 : p / q * q' * q ≤ p' * q := by
      calc p / q * q' * q = p / q * q * q' := by ring
        _ ≤ p * q' := Nat.mul_le_mul_right q' h1
        _ ≤ p' * q := h
    exact Nat.le_of_mul_le_mul_right h2 hq
  have hs := F64.ulpShift_mono _ _ hfloor
  simp only [Nat.shiftLeft_eq]
  generalize hsd : F64.ulpShift (p / q) = s at hs
  generalize hsd' : F64.ulpShift (p' / q') = s' at hs
  have hps : 0 < 2 ^ s := Nat.pow_pos (by decide)
  have hps' : 0 < 2 ^ s' := Nat.pow_pos (by decide)
  rcases Nat.eq_or_lt_of_le hs with heq | hlt
  · subst heq
    apply Nat.mul_le_mul_right
    apply F64.roundHalfEven_mono _ _ _ _ (Nat.mul_pos hq hps) (Nat.mul_pos hq' hps)
    calc p * (q' * 2 ^ s) = p * q' * 2 ^ s := by ring
      _ ≤ p' * q * 2 ^ s := Nat.mul_le_mul_right _ h
      _ = p' * (q * 2 ^ s) := by ring
  · -- different binades: the smaller value rounds to at most `2^53 * 2^s`, the larger
    -- one to at least `2^52 * 2^s'`
    have hk : F64.roundHalfEven p (q * 2 ^ s) ≤ 2 ^ 53 := by
      obtain ⟨k, sh, hround, hsh, hk53, -⟩ := F64.round_spec false p q hq
      have hkle : F64.roundHalfEven p (q * 2 ^ s) ≤ p / (q * 2 ^ s) + 1 := by
        unfold F64.roundHalfEven
        split <;> omega
      have hdd : p / (q * 2 ^ s) = p / q / 2 ^ s := (Nat.div_div_eq_div_mul p q _).symm
      rcases F64.ulpShift_spec (p / q) with ⟨hlt53, hz⟩ | ⟨_, hhi⟩
      · rw [hsd] at hz
        subst hz
        simp only [pow_zero, Nat.mul_one, Nat.div_one] at hkle hdd ⊢
        omega
      · rw [hsd] at hhi
        omega
    have hk' : 2 ^ 52 ≤ F64.roundHalfEven p' (q' * 2 ^ s') := by
      have hfl := F64.floor_le_roundHalfEven p' (q' * 2 ^ s')
      have hdd : p' / (q' * 2 ^ s') = p' / q' / 2 ^ s' := (Nat.div_div_eq_div_mul p' q' _).symm
      rcases F64.ulpShift_spec (p' / q') with ⟨_, hz⟩ | ⟨hlo, _⟩
      · rw [hsd'] at hz
        omega
      · rw [hsd'] at hlo
        omega
    have hpow : 2 ^ 53 * 2 ^ s ≤ 2 ^ 52 * 2 ^ s' := by
      have : 2 ^ (s + 1) ≤ 2 ^ s' := Nat.pow_le_pow_right (by decide) hlt
      calc 2 ^ 53 * 2 ^ s = 2 ^ 52 * 2 ^ (s + 1) := by ring
        _ ≤ 2 ^ 52 * 2 ^ s' := Nat.mul_le_mul_left _ this
    calc F64.roundHalfEven p (q * 2 ^ s) * 2 ^ s ≤ 2 ^ 53 * 2 ^ s := Nat.mul_le_mul_right _ hk
      _ ≤ 2 ^ 52 * 2 ^ s' := hpow
      _ ≤ F64.roundHalfEven p' (q' * 2 ^ s') * 2 ^ s' := Nat.mul_le_mul_right _ hk'

/-- The result of a rounding with the sign `+`: `+Inf`, or a finite magnitude below
`2^1024`. -/
theorem F64.round_key (p q : Nat) :
    (F64.round false p q = F64.inf false
      ∧ F64.overflowMag
        ≤ F64.roundHalfEven p (q <<< F64.ulpShift (p / q)) <<< F64.ulpShift (p / q))
    ∨ (F64.round false p q
        = F64.fin false
          (F64.roundHalfEven p (q <<< F64.ulpShift (p / q)) <<< F64.ulpShift (p / q))
      ∧ F64.roundHalfEven p (q <<< F64.ulpShift (p / q)) <<< F64.ulpShift (p / q)
        < F64.overflowMag) := by
  unfold F64.round
  split
  · next h => exact Or.inr ⟨rfl, h⟩
  · next h => exact Or.inl ⟨rfl, by omega⟩

/-- Rounding is monotone: if `p / q <= p' / q'` then `round p q <= round p' q'`. -/
theorem F64.round_mono (p q p' q' : Nat) (hq : 0 < q) (hq' : 0 < q')
    (h : p * q' ≤ p' * q) :
    (F64.round false p q).key ≤ (F64.round false p' q').key := by
  have hm := F64.roundMag_mono p q p' q' hq hq' h
  rcases F64.round_key p q with ⟨e, ho⟩ | ⟨e, ho⟩ <;>
    rcases F64.round_key p' q' with ⟨e', ho'⟩ | ⟨e', ho'⟩ <;>
    rw [e, e'] <;> simp only [F64.key, if_false, Bool.false_eq_true] <;> omega

/-! ## Theorems: inverse document frequency decreases with document frequency -/

set_option exponentiation.threshold 2200 in
theorem F64.overflowMag_pos : 0 < F64.overflowMag := by
  unfold F64.overflowMag
  rw [Nat.shiftLeft_eq, Nat.one_mul]
  exact Nat.pow_pos (Nat.succ_pos 1)

theorem F64.key_inf (s : Bool) :
    (F64.inf s).key = if s then -(F64.overflowMag : Int) else (F64.overflowMag : Int) := rfl

theorem F64.key_fin (s : Bool) (m : Nat) :
    (F64.fin s m).key = if s then -(m : Int) else (m : Int) := rfl

set_option exponentiation.threshold 2200 in
/-- The conversion `float64(n)` of a positive 64-bit integer is a positive finite
number. -/
theorem F64.ofInt_finite (n : Int) (hn : 0 < n) (hmax : n < 9223372036854775808) :
    ∃ m, m ≠ 0 ∧ m < F64.overflowMag ∧ F64.ofInt n = F64.fin false m := by
  have hneg : decide (n < 0) = false := by
    rw [decide_eq_false_iff_not]
    omega
  have hp : 0 < n.natAbs * 2 ^ 1074 := Nat.mul_pos (by omega) (Nat.pow_pos (Nat.succ_pos 1))
  have hpmax : n.natAbs * 2 ^ 1074 < 9223372036854775808 * 2 ^ 1074 :=
    Nat.mul_lt_mul_of_pos_right (by omega) (Nat.pow_pos (Nat.succ_pos 1))
  obtain ⟨k, sh, hround, hsh, _, hnear, _, _⟩ :=
    F64.round_spec false (n.natAbs <<< 1074) 1 (Nat.succ_pos 0)
  have hlt : k * 2 ^ sh < F64.overflowMag := by
    rw [Nat.shiftLeft_eq] at hsh hnear
    generalize n.natAbs * 2 ^ 1074 = p at hp hpmax hsh hnear
    have hle : 2 ^ sh ≤ p := by
      rcases F64.ulpShift_spec (p / 1) with ⟨_, hz⟩ | ⟨hlo, _⟩
      · rw [← hsh] at hz
        rw [hz]
        simpa using hp
      · rw [← hsh, Nat.div_one] at hlo
        have hpos : 0 < 2 ^ sh := Nat.pow_pos (Nat.succ_pos 1)
        rw [Nat.le_div_iff_mul_le hpos] at hlo
        have : 1 * 2 ^ sh ≤ 2 ^ 52 * 2 ^ sh := Nat.mul_le_mul_right _ (by decide)
        omega
    have hov : 2 * (9223372036854775808 * 2 ^ 1074) ≤ F64.overflowMag := by
      unfold F64.overflowMag
      rw [Nat.shiftLeft_eq]
      norm_num
    simp only [Nat.mul_one] at hnear
    generalize 9223372036854775808 * 2 ^ 1074 = B at hpmax hov
    generalize F64.overflowMag = O at hov ⊢
    generalize k * 2 ^ sh = K at hnear ⊢
    generalize 2 ^ sh = S at hnear hle
    omega
  have he : F64.ofInt n = F64.fin false (k * 2 ^ sh) := by
    unfold F64.ofInt
    rw [hneg, hround, if_pos hlt]
  rcases F64.ofInt_pos n hn with ⟨m, hm, e⟩ | e
  · rw [he] at e
    have e2 := (F64.fin.inj e).2
    exact ⟨k * 2 ^ sh, by rw [e2]; exact hm, hlt, he⟩
  · rw [he] at e
    cases e

theorem F64.le_of_lt (x y : F64) (h : F64.lt x y = true) : F64.le x y = true := by
  rw [F64.lt_iff] at h
  rw [F64.le_iff]
  exact ⟨h.1, h.2.1, by omega⟩

/-- The function `math.Log` is monotone on the results of a rounding with sign `+`,
as soon as its values on finite positive arguments are finite and monotone. -/
theorem F64.log_mono (ln : F64 → F64) (hln : LogMonotone ln) (u v : F64)
    (hu : u = F64.inf false ∨ ∃ M, M < F64.overflowMag ∧ u = F64.fin false M)
    (hv : v = F64.inf false ∨ ∃ M, M < F64.overflowMag ∧ v = F64.fin false M)
    (h : u.key ≤ v.key) :
    F64.le (F64.log ln u) (F64.log ln v) = true := by
  have hov := F64.overflowMag_pos
  have hfin : ∀ m, m ≠ 0 → m < F64.overflowMag →
      (ln (F64.fin false m)).isNaN = false
      ∧ -(F64.overflowMag : Int) < (ln (F64.fin false m)).key
      ∧ (ln (F64.fin false m)).key < (F64.overflowMag : Int) := by
    intro m hm hmo
    obtain ⟨s, r, hr, e⟩ := hln.1 m hm hmo
    rw [e]
    cases s <;> simp [F64.isNaN, F64.key] <;> omega
  rcases hu with rfl | ⟨M, hM, rfl⟩ <;> rcases hv with rfl | ⟨M', hM', rfl⟩
  · simp [F64.log, F64.le, F64.isNaN]
  · simp only [F64.key, if_false, Bool.false_eq_true] at h
    omega
  · by_cases h0 : M = 0
    · subst h0
      rw [F64.le_iff]
      simp [F64.log, F64.isNaN, F64.key]
    · obtain ⟨a, b, c⟩ := hfin M h0 hM
      rw [F64.le_iff]
      simp only [F64.log, h0, if_false, Bool.false_eq_true]
      exact ⟨a, by simp [F64.isNaN], by
        have : (F64.inf false).key = (F64.overflowMag : Int) := rfl
        rw [this]
        omega⟩
  · simp only [F64.key, if_false, Bool.false_eq_true] at h
    have hle : M ≤ M' := by omega
    by_cases h0 : M = 0
    · subst h0
      by_cases h0' : M' = 0
      · subst h0'
        simp [F64.log, F64.le, F64.isNaN]
      · obtain ⟨a, b, c⟩ := hfin M' h0' hM'
        rw [F64.le_iff]
        simp only [F64.log, h0', if_false, Bool.false_eq_true, if_true]
        exact ⟨by simp [F64.isNaN], a, by
          have : (F64.inf true).key = -(F64.overflowMag : Int) := rfl
          rw [this]
          omega⟩
    · have h0' : M' ≠ 0 := by omega
      simp only [F64.log, h0, h0', if_false, Bool.false_eq_true]
      exact hln.2 M M' h0 hle hM'

/-- The result of a rounding with the sign `+` is `+Inf` or a finite magnitude below
`2^1024`. -/
theorem F64.round_range (p q : Nat) :
    F64.round false p q = F64.inf false
    ∨ ∃ M, M < F64.overflowMag ∧ F64.round false p q = F64.fin false M := by
  rcases F64.round_key p q with ⟨e, _⟩ | ⟨e, h⟩
  · exact Or.inl e
  · exact Or.inr ⟨_, h, e⟩

/-- The shape of two binary64 values `0 < x < y`: `x` is a finite positive magnitude and
`y` is a larger finite magnitude or `+Inf`. -/
theorem F64.pos_lt_shape (x y : F64) (hvx : x.valid = true) (hvy : y.valid = true)
    (hpos : F64.lt F64.zero x = true) (hlt : F64.lt x y = true) :
    ∃ n1, 0 < n1 ∧ x = F64.fin false n1
      ∧ (y = F64.inf false ∨ ∃ n2, n1 < n2 ∧ y = F64.fin false n2) := by
  have hov := F64.overflowMag_pos
  rw [F64.lt_iff] at hpos hlt
  obtain ⟨_, hxn, hxk⟩ := hpos
  obtain ⟨_, hyn, hyk⟩ := hlt
  have hz : F64.zero.key = 0 := rfl
  rw [hz] at hxk
  have hyv : y.key ≤ (F64.overflowMag : Int) := by
    cases y with
    | nan =>
      show (0 : Int) ≤ _
      omega
    | inf s => cases s <;> simp only [F64.key_inf, if_true, if_false, Bool.false_eq_true] <;> omega
    | fin s m =>
      simp only [F64.valid, Bool.and_eq_true, decide_eq_true_eq] at hvy
      cases s <;> simp only [F64.key_fin, if_true, if_false, Bool.false_eq_true] <;> omega
  cases x with
  | nan => simp [F64.isNaN] at hxn
  | inf s =>
    cases s
    · simp only [F64.key_inf, if_false, Bool.false_eq_true] at hyk
      omega
    · simp only [F64.key_inf, if_true] at hxk
      omega
  | fin s n1 =>
    cases s
    · simp only [F64.key_fin, if_false, Bool.false_eq_true] at hxk hyk
      refine ⟨n1, by omega, rfl, ?_⟩
      cases y with
      | nan => simp [F64.isNaN] at hyn
      | inf t =>
        cases t
        · exact Or.inl rfl
        · simp only [F64.key_inf, if_true] at hyk
          omega
      | fin t n2 =>
        cases t
        · simp only [F64.key_fin, if_false, Bool.false_eq_true] at hyk
          exact Or.inr ⟨n2, by omega, rfl⟩
        · simp only [F64.key_fin, if_true] at hyk
          omega
    · simp only [F64.key_fin, if_true] at hxk
      omega

/-- Division of a finite positive number by `0 < x < y`: the quotient by the larger
divisor is at most the quotient by the smaller one, and both quotients are `+Inf` or a
finite non-negative magnitude. -/
theorem F64.div_antitone (m : Nat) (x y : F64) (hvx : x.valid = true) (hvy : y.valid = true)
    (hpos : F64.lt F64.zero x = true) (hlt : F64.lt x y = true) :
    (F64.div (F64.fin false m) y).key ≤ (F64.div (F64.fin false m) x).key
    ∧ (F64.div (F64.fin false m) x = F64.inf false
        ∨ ∃ M, M < F64.overflowMag ∧ F64.div (F64.fin false m) x = F64.fin false M)
    ∧ (F64.div (F64.fin false m) y = F64.inf false
        ∨ ∃ M, M < F64.overflowMag ∧ F64.div (F64.fin false m) y = F64.fin false M) := by
  obtain ⟨n1, hn1, rfl, hy⟩ := F64.pos_lt_shape x y hvx hvy hpos hlt
  have hx : F64.div (F64.fin false m) (F64.fin false n1) = F64.round false (m <<< 1074) n1 := by
    have : n1 ≠ 0 := by omega
    simp [F64.div, this]
  have hxkey : 0 ≤ (F64.round false (m <<< 1074) n1).key := by
    rcases F64.round_range (m <<< 1074) n1 with e | ⟨M, _, e⟩ <;> rw [e] <;>
      simp [F64.key]
  rw [hx]
  rcases hy with rfl | ⟨n2, hn2, rfl⟩
  · have hy' : F64.div (F64.fin false m) (F64.inf false) = F64.fin false 0 := by
      simp [F64.div]
    rw [hy']
    refine ⟨by simpa [F64.key] using hxkey, F64.round_range _ _,
      Or.inr ⟨0, F64.overflowMag_pos, rfl⟩⟩
  · have hy' : F64.div (F64.fin false m) (F64.fin false n2)
        = F64.round false (m <<< 1074) n2 := by
      have : n2 ≠ 0 := by omega
      simp [F64.div, this]
    rw [hy']
    exact ⟨F64.round_mono _ _ _ _ (by omega) hn1 (Nat.mul_le_mul_left _ (by omega)),
      F64.round_range _ _, F64.round_range _ _⟩

/-- Counterexample to C13: with `2^60` documents and the table
`df = [2^54 - 4, 2^54 - 2]`, both entries are positive binary64 values and
`df[0] < df[1]`, yet both quotients `float64(numDocs) / df[i]` round to the same
binary64 value `64 + 2^-46`, so `idf[0]` and `idf[1]` are the same number whatever
`math.Log` computes, and `idf[0] > idf[1]` is false. -/
theorem inverseDocumentFrequency_equal_on_rounded_quotients :
    F64.lt F64.zero (F64.ofInt 18014398509481980) = true
    ∧ F64.lt (F64.ofInt 18014398509481980) (F64.ofInt 18014398509481982) = true
    ∧ (F64.ofInt 18014398509481980).valid = true
    ∧ (F64.ofInt 18014398509481982).valid = true
    ∧ (fun ln => TfIdf.inverseDocumentFrequency ln
          [F64.ofInt 18014398509481980, F64.ofInt 18014398509481982] 1152921504606846976)
        = (fun ln => [ln (F64.fin false (4503599627370497 <<< 1028)),
            ln (F64.fin false (4503599627370497 <<< 1028))])
    ∧ (fun z => F64.gt z z) = (fun _ => false) := by
  refine ⟨by decide!, by decide!, by decide!, by decide!, ?_, ?_⟩
  · funext ln
    have h0 : F64.div (F64.ofInt 1152921504606846976) (F64.ofInt 18014398509481980)
        = F64.fin false (4503599627370497 <<< 1028) := by decide!
    have h1 : F64.div (F64.ofInt 1152921504606846976) (F64.ofInt 18014398509481982)
        = F64.fin false (4503599627370497 <<< 1028) := by decide!
    have hm : (4503599627370497 <<< 1028 = 0) = False := by
      rw [eq_iff_iff, iff_false]
      decide!
    simp only [TfIdf.inverseDocumentFrequency, List.map_cons, List.map_nil, h0, h1, F64.log,
      hm, if_false, Bool.false_eq_true]
  · funext z
    cases h : F64.gt z z with
    | false => rfl
    | true =>
      rw [F64.gt, F64.lt_iff] at h
      omega

/-- Claim C13, amended. For every document count `1 <= numDocs < 2^63`, every table
`df` and any two positions `i` and `j` whose entries are binary64 values with
`0 < df[i] < df[j]`, the result `idf = inverseDocumentFrequency(df, numDocs)` satisfies
`idf[i] >= idf[j]`: the inverse document frequency never increases with the document
frequency.  `math.Log` is assumed finite and monotone on finite positive arguments. -/
theorem inverseDocumentFrequency_nonincreasing (ln : F64 → F64) (df : List F64)
    (numDocs : Int) (i j : Nat) (x y : F64) (hln : LogMonotone ln)
    (hnum : 1 ≤ numDocs) (hmax : numDocs < 9223372036854775808)
    (hx : df[i]? = some x) (hy : df[j]? = some y)
    (hvx : x.valid = true) (hvy : y.valid = true)
    (hpos : F64.lt F64.zero x = true) (hlt : F64.lt x y = true) :
    ∃ u v, (TfIdf.inverseDocumentFrequency ln df numDocs)[i]? = some u
      ∧ (TfIdf.inverseDocumentFrequency ln df numDocs)[j]? = some v
      ∧ F64.ge u v = true := by
  obtain ⟨m, _, _, hN⟩ := F64.ofInt_finite numDocs (by omega) hmax
  obtain ⟨hkey, hrx, hry⟩ := F64.div_antitone m x y hvx hvy hpos hlt
  have hle := F64.log_mono ln hln _ _ hry hrx hkey
  refine ⟨F64.log ln (F64.div (F64.ofInt numDocs) x),
    F64.log ln (F64.div (F64.ofInt numDocs) y), ?_, ?_, ?_⟩
  · simp [TfIdf.inverseDocumentFrequency, List.getElem?_map, hx]
  · simp [TfIdf.inverseDocumentFrequency, List.getElem?_map, hy]
  · rw [hN]
    exact hle

theorem lnMinusOne_monotone : LogMonotone lnMinusOne := by
  refine ⟨fun m _ hm => ⟨false, m - 1 <<< 1074, by omega, rfl⟩, ?_⟩
  intro m m' _ hle _
  rw [F64.le_iff]
  refine ⟨rfl, rfl, ?_⟩
  show (F64.fin false (m - 1 <<< 1074)).key ≤ (F64.fin false (m' - 1 <<< 1074)).key
  simp only [F64.key_fin, if_false, Bool.false_eq_true]
  omega

/-- Witness for C13 (amended): with `x - 1` in the place of `math.Log` (finite and
monotone), three documents and the table `[1, 2]`, the entries are
`idf[0] = 2 >= idf[1] = 0.5`; and at the input of the counterexample, `2^60` documents
and the table `[2^54 - 4, 2^54 - 2]`, the two entries satisfy `idf[0] >= idf[1]`. -/
theorem inverseDocumentFrequency_nonincreasing_witness :
    LogMonotone lnMinusOne
    ∧ F64.lt F64.zero (F64.ofInt 18014398509481980) = true
    ∧ F64.lt (F64.ofInt 18014398509481980) (F64.ofInt 18014398509481982) = true
    ∧ TfIdf.inverseDocumentFrequency lnMinusOne [F64.ofInt 1, F64.ofInt 2] 3
      = [F64.ofInt 2, F64.fin false (1 <<< 1073)]
    ∧ F64.ge (F64.ofInt 2) (F64.fin false (1 <<< 1073)) = true
    ∧ ∃ u v, (TfIdf.inverseDocumentFrequency lnMinusOne
          [F64.ofInt 18014398509481980, F64.ofInt 18014398509481982]
          1152921504606846976)[0]? = some u
      ∧ (TfIdf.inverseDocumentFrequency lnMinusOne
          [F64.ofInt 18014398509481980, F64.ofInt 18014398509481982]
          1152921504606846976)[1]? = some v
      ∧ F64.ge u v = true :=
  ⟨lnMinusOne_monotone, by decide!, by decide!, by decide!, by decide!,
    inverseDocumentFrequency_nonincreasing lnMinusOne
      [F64.ofInt 18014398509481980, F64.ofInt 18014398509481982] 1152921504606846976 0 1
      (F64.ofInt 18014398509481980) (F64.ofInt 18014398509481982) lnMinusOne_monotone
      (by decide) (by decide) rfl rfl (by decide!) (by decide!) (by decide!) (by decide!)⟩

/-! ## Theorems: the sign of tf-idf scores -/

/-- Rounding depends on the exact value only: two fractions of the same value round to
the same binary64 value. -/
theorem F64.round_congr_ratio (p q p' q' : Nat) (hq : 0 < q) (hq' : 0 < q')
    (h : p * q' = p' * q) : F64.round false p q = F64.round false p' q' := by
  have h1 := F64.round_mono p q p' q' hq hq' (le_of_eq h)
  have h2 := F64.round_mono p' q' p q hq' hq (le_of_eq h.symm)
  rcases F64.round_range p q with e | ⟨M, hM, e⟩ <;>
    rcases F64.round_range p' q' with e' | ⟨M', hM', e'⟩ <;>
    rw [e, e'] at h1 h2 ⊢ <;>
    simp only [F64.key_inf, F64.key_fin, if_false, Bool.false_eq_true] at h1 h2
  · omega
  · omega
  · congr 1
    omega

theorem F64.one_eq_round : F64.one = F64.round false (1 <<< 1074) 1 := rfl

theorem F64.one_eq : F64.one = F64.fin false (1 <<< 1074) := by decide!

theorem F64.one_key_pos : 0 < F64.one.key := F64.key_constants.2.1.trans F64.key_constants.2.2.1

/-- The quotient `x / x` of a finite non-zero number is 1. -/
theorem F64.div_self_eq_one (m : Nat) (hm : m ≠ 0) :
    F64.div (F64.fin false m) (F64.fin false m) = F64.one := by
  have hx : F64.div (F64.fin false m) (F64.fin false m) = F64.round false (m <<< 1074) m := by
    simp [F64.div, hm]
  rw [hx, F64.one_eq_round]
  apply F64.round_congr_ratio _ _ _ _ (by omega) (by decide)
  simp only [Nat.shiftLeft_eq]
  ring

/-- The conversion `float64(n)` of an integer `0 <= n < 2^63` is finite and not
negative, and zero only for `n = 0`. -/
theorem F64.ofInt_nonneg (n : Int) (h0 : 0 ≤ n) (hmax : n < 9223372036854775808) :
    ∃ c, c < F64.overflowMag ∧ F64.ofInt n = F64.fin false c ∧ (0 < n → c ≠ 0) := by
  rcases eq_or_lt_of_le h0 with h | h
  · subst h
    exact ⟨0, F64.overflowMag_pos, by simp [F64.ofInt, F64.round_zero], fun h => absurd h (by decide)⟩
  · obtain ⟨m, hm, hlt, e⟩ := F64.ofInt_finite n h hmax
    exact ⟨m, hlt, e, fun _ => hm⟩

/-- The conversion `float64(n)` is monotone on the integers that are not negative. -/
theorem F64.ofInt_mono (a b : Int) (ha : 0 ≤ a) (hab : a ≤ b) :
    (F64.ofInt a).key ≤ (F64.ofInt b).key := by
  have hna : decide (a < 0) = false := by
    rw [decide_eq_false_iff_not]
    omega
  have hnb : decide (b < 0) = false := by
    rw [decide_eq_false_iff_not]
    omega
  unfold F64.ofInt
  rw [hna, hnb]
  apply F64.round_mono _ _ _ _ (by decide) (by decide)
  simp only [Nat.shiftLeft_eq, Nat.mul_one]
  exact Nat.mul_le_mul_right _ (by omega)

set_option exponentiation.threshold 2200 in
/-- The quotient `float64(numDocs) / float64(d)` for `1 <= d <= numDocs < 2^63` is a
finite number that is at least 1. -/
theorem F64.div_ofInt_ge_one (n d : Int) (hd : 1 ≤ d) (hdn : d ≤ n)
    (hmax : n < 9223372036854775808) :
    ∃ M : Nat, F64.one.key ≤ (M : Int) ∧ M < F64.overflowMag
      ∧ F64.div (F64.ofInt n) (F64.ofInt d) = F64.fin false M := by
  obtain ⟨mn, _, en, _⟩ := F64.ofInt_nonneg n (by omega) hmax
  obtain ⟨md, _, ed, hmd⟩ := F64.ofInt_nonneg d (by omega) (by omega)
  have hmd0 : md ≠ 0 := hmd (by omega)
  have h1 : F64.one.key ≤ (md : Int) := by
    have := F64.ofInt_mono 1 d (by decide) hd
    rw [ed] at this
    exact this
  have h2 : md ≤ mn := by
    have := F64.ofInt_mono d n (by omega) hdn
    rw [ed, en] at this
    simp only [F64.key_fin, if_false, Bool.false_eq_true] at this
    omega
  have h3 : mn ≤ 9223372036854775808 * 2 ^ 1074 := by
    have := F64.ofInt_mono n 9223372036854775808 (by omega) (by omega)
    have e63 : F64.ofInt 9223372036854775808
        = F64.fin false (9223372036854775808 <<< 1074) := by decide!
    rw [en, e63] at this
    simp only [F64.key_fin, if_false, Bool.false_eq_true, Nat.shiftLeft_eq] at this
    exact_mod_cast this
  have hO : (2 ^ 1074 : Nat) ≤ md := by
    rw [F64.one_eq] at h1
    simp only [F64.key_fin, if_false, Bool.false_eq_true, Nat.shiftLeft_eq, Nat.one_mul] at h1
    exact_mod_cast h1
  have hx : F64.div (F64.ofInt n) (F64.ofInt d) = F64.round false (mn <<< 1074) md := by
    rw [en, ed]
    simp [F64.div, hmd0]
  have hlow : F64.one.key ≤ (F64.round false (mn <<< 1074) md).key := by
    rw [F64.one_eq_round]
    apply F64.round_mono _ _ _ _ (by decide) (by omega)
    simp only [Nat.shiftLeft_eq, Nat.one_mul, Nat.mul_one]
    calc 2 ^ 1074 * md ≤ 2 ^ 1074 * mn := Nat.mul_le_mul_left _ h2
      _ = mn * 2 ^ 1074 := Nat.mul_comm _ _
  have hbig : F64.round false ((9223372036854775808 <<< 1074) <<< 1074) (1 <<< 1074)
      = F64.fin false (9223372036854775808 <<< 1074) := by decide!
  have hhigh : (F64.round false (mn <<< 1074) md).key
      ≤ ((9223372036854775808 * 2 ^ 1074 : Nat) : Int) := by
    have := F64.round_mono (mn <<< 1074) md ((9223372036854775808 <<< 1074) <<< 1074)
      (1 <<< 1074) (by omega) (by decide) (by
        simp only [Nat.shiftLeft_eq, Nat.one_mul]
        calc mn * 2 ^ 1074 * 2 ^ 1074
            ≤ 9223372036854775808 * 2 ^ 1074 * 2 ^ 1074 * md := by
              calc mn * 2 ^ 1074 * 2 ^ 1074
                  ≤ 9223372036854775808 * 2 ^ 1074 * 2 ^ 1074 * 2 ^ 1074 :=
                    Nat.mul_le_mul_right _ (Nat.mul_le_mul_right _ h3)
                _ ≤ 9223372036854775808 * 2 ^ 1074 * 2 ^ 1074 * md :=
                    Nat.mul_le_mul_left _ hO)
    rw [hbig] at this
    simpa only [F64.key_fin, if_false, Bool.false_eq_true, Nat.shiftLeft_eq] using this
  have hlimit : 9223372036854775808 * 2 ^ 1074 < F64.overflowMag := by
    unfold F64.overflowMag
    rw [Nat.shiftLeft_eq]
    norm_num
  rw [hx]
  rcases F64.round_range (mn <<< 1074) md with e | ⟨M, hM, e⟩
  · rw [e] at hhigh
    simp only [F64.key_inf, if_false, Bool.false_eq_true] at hhigh
    omega
  · rw [e] at hlow
    simp only [F64.key_fin, if_false, Bool.false_eq_true] at hlow
    exact ⟨M, hlow, hM, e⟩

/-- The product of a finite number that is not negative and of a finite number that is
`>= 0` is `>= 0`. -/
theorem F64.mul_nonneg (c : Nat) (y : F64) (hf : y.isFinite = true)
    (hy : F64.ge y F64.zero = true) : F64.ge (F64.mul (F64.fin false c) y) F64.zero = true := by
  rw [F64.ge, F64.le_iff] at hy ⊢
  obtain ⟨_, _, hk⟩ := hy
  have hz : F64.zero.key = 0 := rfl
  rw [hz] at hk ⊢
  cases y with
  | nan => cases hf
  | inf t => cases hf
  | fin t r =>
    cases t
    · have e : F64.mul (F64.fin false c) (F64.fin false r)
          = F64.round false (c * r) (1 <<< 1074) := by simp [F64.mul]
      rw [e]
      rcases F64.round_range (c * r) (1 <<< 1074) with e' | ⟨M, _, e'⟩
      · rw [e']
        refine ⟨rfl, rfl, ?_⟩
        simp only [F64.key_inf, if_false, Bool.false_eq_true]
        omega
      · rw [e']
        refine ⟨rfl, rfl, ?_⟩
        simp only [F64.key_fin, if_false, Bool.false_eq_true]
        omega
    · simp only [F64.key_fin, if_true] at hk
      have hr : r = 0 := by omega
      subst hr
      have e : F64.mul (F64.fin false c) (F64.fin true 0) = F64.fin true 0 := by
        simp [F64.mul, F64.round_zero]
      rw [e]
      exact ⟨rfl, rfl, by simp [F64.key_fin]⟩

/-- The product of a finite number and a zero is zero. -/
theorem F64.mul_eq_zero_of_zero (c : Nat) (y : F64) (hy : F64.eq y F64.zero = true) :
    F64.eq (F64.mul (F64.fin false c) y) F64.zero = true := by
  obtain ⟨s, rfl⟩ := (F64.eq_zero_iff y).mp hy
  rw [F64.eq_zero_iff]
  exact ⟨s, by simp [F64.mul, F64.round_zero]⟩

/-- The entries of the document frequency of a corpus under its own vocabulary lie in
`1 .. len(corpus)`, and the entry of a token that occurs in every document is
`len(corpus)`. -/
theorem documentFrequency_range (tokens : List (List String)) :
    ∃ df, TfIdf.documentFrequency tokens (BagOfWords.buildVocab tokens) = .ok df
      ∧ df.length = (BagOfWords.buildVocab tokens).len
      ∧ (∀ (i : Nat) (d : Int), df[i]? = some d → 1 ≤ d ∧ d ≤ (tokens.length : Int))
      ∧ (∀ w, tokens ≠ [] → (∀ doc ∈ tokens, w ∈ doc) →
          ∃ i : Nat, (BagOfWords.buildVocab tokens).get w = some (i : Int)
            ∧ df[i]? = some (tokens.length : Int)) := by
  obtain ⟨df, hdf, hlen, hchar⟩ := documentFrequency_char tokens
  obtain ⟨idx, inv⟩ := buildVocab_inv tokens
  refine ⟨df, hdf, hlen, ?_, ?_⟩
  · intro i d hd
    have hi : i < df.length := by
      by_contra hge
      rw [List.getElem?_eq_none (by omega)] at hd
      cases hd
    have hi' : (i : Int) < idx := by
      have h1 : idx = (distinctCount tokens.flatten : Int) := inv.next
      have h2 : (BagOfWords.buildVocab tokens).length = distinctCount tokens.flatten := inv.size
      have h3 : (BagOfWords.buildVocab tokens).len = (BagOfWords.buildVocab tokens).length :=
        GoMap.len_of_nodup _ inv.keys_nodup
      omega
    obtain ⟨w, hw⟩ := inv.onto (i : Int) (by omega) hi'
    have hmem : w ∈ tokens.flatten := ((inv.get_iff w _).mp hw).1
    have := hchar w i hw
    rw [hd] at this
    rw [Option.some.inj this]
    have hb := docsContaining_bounds tokens w hmem
    omega
  · intro w hne hall
    have hmem : w ∈ tokens.flatten := by
      cases tokens with
      | nil => exact absurd rfl hne
      | cons doc rest =>
        exact List.mem_flatten.mpr ⟨doc, List.mem_cons_self _ _, hall doc (List.mem_cons_self _ _)⟩
    have hget : (BagOfWords.buildVocab tokens).get w
        = some (distinctBefore tokens.flatten w : Int) := (inv.get_iff w _).mpr ⟨hmem, rfl⟩
    refine ⟨distinctBefore tokens.flatten w, hget, ?_⟩
    rw [hchar w _ hget]
    have : docsContaining tokens w = tokens.length := by
      unfold docsContaining
      rw [List.countP_eq_length]
      intro doc hdoc
      simpa using hall doc hdoc
    rw [this]

/-- The entries of a term frequency lie in `0 .. len(doc)`. -/
theorem termFrequency_range (vocab : GoMap) (doc : List String) (h : vocab.IndicesInRange) :
    ∃ tf, TfIdf.termFrequency doc vocab = .ok tf
      ∧ tf.length = vocab.len
      ∧ ∀ (i : Nat) (t : Int), tf[i]? = some t → 0 ≤ t ∧ t ≤ (doc.length : Int) := by
  obtain ⟨tf, htf, hlen, hget⟩ := termFrequency_fold vocab h doc
    (List.replicate vocab.len 0) (by simp)
  refine ⟨tf, ?_, hlen, ?_⟩
  · unfold TfIdf.termFrequency
    rw [makeInts_natCast]
    exact htf
  · intro i t ht
    have hi : i < tf.length := by
      by_contra hge
      rw [List.getElem?_eq_none (by omega)] at ht
      cases ht
    have := hget i
    rw [getD_replicate_zero, List.getD_eq_getElem?_getD, ht, Option.getD_some, zero_add] at this
    rw [this]
    have hle := List.countP_le_length (fun w => decide (vocab.get w = some (i : Int))) (l := doc)
    omega

/-- Claim C21. For every non-empty corpus of token sequences and every document (their
lengths being values of the type `int`), with `vocab = buildVocab(corpus)`,
`df = documentFrequency(corpus, vocab)` and
`idf = inverseDocumentFrequency(sliceIntToFloat(df), len(corpus))`, none of the calls
panics, `tfIDF(sliceIntToFloat(termFrequency(doc, vocab)), idf)` has one entry per
vocabulary token, every entry is `>= 0`, and the entry of a token that occurs in every
document of the corpus is `== 0`; `math.Log` is assumed to return a zero at 1 and a
finite value that is not negative at every finite argument above 1. -/
theorem tfIDF_entries_nonneg (ln : F64 → F64) (tokens : List (List String))
    (doc : List String) (hln : LogNonnegFromOne ln) (hne : tokens ≠ [])
    (hcorpus : (tokens.length : Int) < 9223372036854775808)
    (hdoc : (doc.length : Int) < 9223372036854775808) :
    ∃ df tf scores,
      TfIdf.documentFrequency tokens (TfIdf.buildVocab tokens) = .ok df
      ∧ TfIdf.termFrequency doc (TfIdf.buildVocab tokens) = .ok tf
      ∧ TfIdf.tfIDF (TfIdf.sliceIntToFloat tf)
          (TfIdf.inverseDocumentFrequency ln (TfIdf.sliceIntToFloat df) (tokens.length : Int))
        = .ok scores
      ∧ scores.length = (TfIdf.buildVocab tokens).len
      ∧ (∀ x ∈ scores, F64.ge x F64.zero = true)
      ∧ (∀ w, (∀ d ∈ tokens, w ∈ d) →
          ∃ (i : Nat) (x : F64), (TfIdf.buildVocab tokens).get w = some (i : Int)
            ∧ scores[i]? = some x ∧ F64.eq x F64.zero = true) := by
  rw [TfIdf.buildVocab_eq]
  obtain ⟨df, hdf, hdflen, hdfr, hdfall⟩ := documentFrequency_range tokens
  obtain ⟨tf, htf, htflen, htfr⟩ :=
    termFrequency_range (BagOfWords.buildVocab tokens) doc (buildVocab_indicesInRange tokens)
  have hscores : TfIdf.tfIDF (TfIdf.sliceIntToFloat tf)
      (TfIdf.inverseDocumentFrequency ln (TfIdf.sliceIntToFloat df) (tokens.length : Int))
      = .ok (List.zipWith F64.mul (TfIdf.sliceIntToFloat tf)
          (TfIdf.inverseDocumentFrequency ln (TfIdf.sliceIntToFloat df) (tokens.length : Int))) :=
    pairwiseLoop_of_length_le F64.mul _ _ (by
      simp [TfIdf.sliceIntToFloat, TfIdf.inverseDocumentFrequency, htflen, hdflen])
  have hentry : ∀ (i : Nat) (x : F64),
      (List.zipWith F64.mul (TfIdf.sliceIntToFloat tf)
        (TfIdf.inverseDocumentFrequency ln (TfIdf.sliceIntToFloat df)
          (tokens.length : Int)))[i]? = some x →
      ∃ t d, tf[i]? = some t ∧ df[i]? = some d
        ∧ x = F64.mul (F64.ofInt t)
            (F64.log ln (F64.div (F64.ofInt (tokens.length : Int)) (F64.ofInt d))) := by
    intro i x hx
    simp only [TfIdf.sliceIntToFloat, TfIdf.inverseDocumentFrequency, List.getElem?_zipWith,
      List.getElem?_map] at hx
    cases ht : tf[i]? with
    | none => simp [ht] at hx
    | some t =>
      cases hd : df[i]? with
      | none => simp [ht, hd] at hx
      | some d =>
        simp only [ht, hd, Option.map_some'] at hx
        exact ⟨t, d, rfl, rfl, (Option.some.inj hx).symm⟩
  refine ⟨df, tf, _, hdf, htf, hscores, ?_, ?_, ?_⟩
  · simp [TfIdf.sliceIntToFloat, TfIdf.inverseDocumentFrequency, htflen, hdflen]
  · intro x hx
    obtain ⟨i, hi⟩ := List.getElem?_of_mem hx
    obtain ⟨t, d, ht, hd, rfl⟩ := hentry i x hi
    obtain ⟨ht0, htmax⟩ := htfr i t ht
    obtain ⟨hd1, hdmax⟩ := hdfr i d hd
    obtain ⟨c, _, ec, _⟩ := F64.ofInt_nonneg t ht0 (by omega)
    obtain ⟨M, hM1, hMov, eq⟩ := F64.div_ofInt_ge_one (tokens.length : Int) d hd1 hdmax hcorpus
    have hM0 : M ≠ 0 := by
      have := F64.one_key_pos
      omega
    obtain ⟨hfin, hge⟩ := hln.2 M hM1 hMov
    rw [ec, eq]
    simp only [F64.log, hM0, if_false, Bool.false_eq_true]
    exact F64.mul_nonneg c _ hfin hge
  · intro w hall
    obtain ⟨i, hget, hdi⟩ := hdfall w hne hall
    have hi : i < tf.length := by
      have := (buildVocab_indicesInRange tokens w i hget).2
      rw [htflen]
      exact_mod_cast this
    have hti : tf[i]? = some tf[i] := List.getElem?_eq_getElem hi
    obtain ⟨ht0, htmax⟩ := htfr i _ hti
    obtain ⟨c, _, ec, _⟩ := F64.ofInt_nonneg tf[i] ht0 (by omega)
    have hn0 : (0 : Int) < (tokens.length : Int) := by
      cases tokens with
      | nil => exact absurd rfl hne
      | cons _ _ => simp
    obtain ⟨m, hm, _, en⟩ := F64.ofInt_finite (tokens.length : Int) hn0 hcorpus
    refine ⟨i, F64.mul (F64.ofInt tf[i]) (F64.log ln
      (F64.div (F64.ofInt (tokens.length : Int)) (F64.ofInt (tokens.length : Int)))), hget, ?_, ?_⟩
    · simp [TfIdf.sliceIntToFloat, TfIdf.inverseDocumentFrequency, List.getElem?_zipWith,
        List.getElem?_map, hti, hdi]
    · rw [ec, en, F64.div_self_eq_one m hm]
      have hlog : F64.log ln F64.one = ln F64.one := by
        rw [F64.one_eq]
        have : (1 <<< 1074 = 0) = False := by
          rw [eq_iff_iff, iff_false]
          decide!
        simp only [F64.log, this, if_false, Bool.false_eq_true]
      rw [hlog]
      exact F64.mul_eq_zero_of_zero c _ hln.1

theorem lnMinusOne_nonnegFromOne : LogNonnegFromOne lnMinusOne := by
  refine ⟨by decide!, ?_⟩
  intro m _ _
  refine ⟨rfl, ?_⟩
  rw [F64.ge, F64.le_iff]
  refine ⟨rfl, rfl, ?_⟩
  have hz : F64.zero.key = 0 := rfl
  rw [hz]
  show (0 : Int) ≤ (F64.fin false (m - 1 <<< 1074)).key
  simp only [F64.key_fin, if_false, Bool.false_eq_true]
  omega

/-- Witness for C21: with `x - 1` in the place of `math.Log`, the corpus of `the cat
sat`, `the dog sat`, `the cat ran` and the document `the cat sat`, the tf-idf scores are
`[0, 0.5, 0.5, 0, 0]`: none is negative, and the score of `the`, which occurs in every
document, is 0. -/
theorem tfIDF_entries_nonneg_witness :
    LogNonnegFromOne lnMinusOne
    ∧ TfIdf.tfIDF (TfIdf.sliceIntToFloat [1, 1, 1, 0, 0])
        (TfIdf.inverseDocumentFrequency lnMinusOne (TfIdf.sliceIntToFloat [3, 2, 2, 1, 1]) 3)
      = .ok [F64.zero, F64.fin false (1 <<< 1073), F64.fin false (1 <<< 1073), F64.zero,
          F64.zero]
    ∧ ∃ df tf scores,
      TfIdf.documentFrequency [["the", "cat", "sat"], ["the", "dog", "sat"], ["the", "cat", "ran"]]
          (TfIdf.buildVocab
            [["the", "cat", "sat"], ["the", "dog", "sat"], ["the", "cat", "ran"]]) = .ok df
      ∧ TfIdf.termFrequency ["the", "cat", "sat"]
          (TfIdf.buildVocab
            [["the", "cat", "sat"], ["the", "dog", "sat"], ["the", "cat", "ran"]]) = .ok tf
      ∧ TfIdf.tfIDF (TfIdf.sliceIntToFloat tf)
          (TfIdf.inverseDocumentFrequency lnMinusOne (TfIdf.sliceIntToFloat df)
            (([["the", "cat", "sat"], ["the", "dog", "sat"], ["the", "cat", "ran"]] :
              List (List String)).length : Int))
        = .ok scores
      ∧ scores.length = (TfIdf.buildVocab
          [["the", "cat", "sat"], ["the", "dog", "sat"], ["the", "cat", "ran"]]).len
      ∧ (∀ x ∈ scores, F64.ge x F64.zero = true)
      ∧ (∀ w, (∀ d ∈ ([["the", "cat", "sat"], ["the", "dog", "sat"], ["the", "cat", "ran"]] :
            List (List String)), w ∈ d) →
          ∃ (i : Nat) (x : F64), (TfIdf.buildVocab
              [["the", "cat", "sat"], ["the", "dog", "sat"], ["the", "cat", "ran"]]).get w
              = some (i : Int)
            ∧ scores[i]? = some x ∧ F64.eq x F64.zero = true) :=
  ⟨lnMinusOne_nonnegFromOne, by decide!,
    tfIDF_entries_nonneg lnMinusOne
      [["the", "cat", "sat"], ["the", "dog", "sat"], ["the", "cat", "ran"]]
      ["the", "cat", "sat"] lnMinusOne_nonnegFromOne (by decide) (by decide) (by decide)⟩

/-! ## Theorems: the similarities of simple-embedding -/

theorem SimpleEmbedding.widenFloats_eq (fs : List F64) : SimpleEmbedding.widenFloats fs = fs := by
  unfold SimpleEmbedding.widenFloats
  have : ∀ (l acc : List F64), l.foldl (fun result f => result ++ [f]) acc = acc ++ l := by
    intro l
    induction l with
    | nil => intro acc; simp
    | cons x l ih => intro acc; simp [ih]
  simpa using this fs []

theorem SimpleEmbedding.cosineSimilarity_of_length_eq (a b : List F64)
    (h : a.length = b.length) :
    SimpleEmbedding.cosineSimilarity a b = .ok
      (F64.div ((a.zip b).foldl (fun sum p => F64.add sum (F64.mul p.1 p.2)) F64.zero)
        (F64.mul (F64.sqrt (a.foldl (fun sum v => F64.add sum (F64.mul v v)) F64.zero))
          (F64.sqrt (b.foldl (fun sum v => F64.add sum (F64.mul v v)) F64.zero)))) := by
  unfold SimpleEmbedding.cosineSimilarity
  rw [if_neg (by simpa using h), cosineLoop_of_length_eq a b _ h]
  rfl

theorem SimpleEmbedding.querySimilarities_fold (query : List F64) (docs : List (List F64))
    (hlen : ∀ d ∈ docs, d.length = query.length) :
    ∀ acc : List F64, ∃ scores,
      docs.foldlM (fun results doc => do
        let score ← SimpleEmbedding.cosineSimilarity (SimpleEmbedding.widenFloats doc)
          (SimpleEmbedding.widenFloats query)
        pure (results ++ [score])) acc = Except.ok (acc ++ scores)
      ∧ List.Forall₂ (fun d s => SimpleEmbedding.cosineSimilarity d query = .ok s)
          docs scores := by
  simp only [SimpleEmbedding.widenFloats_eq]
  induction docs with
  | nil => intro acc; exact ⟨[], by simp [pure, Except.pure], List.Forall₂.nil⟩
  | cons d docs ih =>
    intro acc
    have hd : d.length = query.length := hlen d (List.mem_cons_self _ _)
    have hcos := SimpleEmbedding.cosineSimilarity_of_length_eq d query hd
    obtain ⟨rest, hrest, hall⟩ := ih (fun e he => hlen e (List.mem_cons_of_mem _ he))
      (acc ++ [F64.div ((d.zip query).foldl (fun sum p => F64.add sum (F64.mul p.1 p.2)) F64.zero)
        (F64.mul (F64.sqrt (d.foldl (fun sum v => F64.add sum (F64.mul v v)) F64.zero))
          (F64.sqrt (query.foldl (fun sum v => F64.add sum (F64.mul v v)) F64.zero)))])
    refine ⟨_ :: rest, ?_, List.Forall₂.cons hcos hall⟩
    rw [List.foldlM_cons, hcos]
    simp only [bind, Except.bind, pure, Except.pure]
    simp only [bind, Except.bind, pure, Except.pure] at hrest
    rw [hrest, List.append_assoc]
    rfl

/-- The first part of C22: for a query and documents of the query's length,
`querySimilarities` returns one score per document, the value of `cosineSimilarity`
of simple-embedding on the document and the query. -/
theorem SimpleEmbedding.querySimilarities_one_per_document (query : List F64)
    (docs : List (List F64)) (hlen : ∀ d ∈ docs, d.length = query.length) :
    ∃ scores, SimpleEmbedding.querySimilarities query docs = .ok scores
      ∧ scores.length = docs.length
      ∧ List.Forall₂ (fun d s => SimpleEmbedding.cosineSimilarity d query = .ok s)
          docs scores := by
  obtain ⟨scores, h, hall⟩ := SimpleEmbedding.querySimilarities_fold query docs hlen []
  exact ⟨scores, by simpa [SimpleEmbedding.querySimilarities] using h,
    hall.length_eq.symm, hall⟩

theorem F64.mul_zero_left (s : Bool) (y : F64) :
    F64.mul (F64.fin s 0) y = F64.nan ∨ ∃ t, F64.mul (F64.fin s 0) y = F64.fin t 0 := by
  cases y with
  | nan => exact Or.inl rfl
  | inf t => exact Or.inl (by simp [F64.mul])
  | fin t n => exact Or.inr ⟨xor s t, by simp [F64.mul, F64.round_zero]⟩

theorem F64.mul_zero_right (x : F64) (t : Bool) :
    F64.mul x (F64.fin t 0) = F64.nan ∨ ∃ s, F64.mul x (F64.fin t 0) = F64.fin s 0 := by
  rw [F64.mul_comm]
  exact F64.mul_zero_left t x

theorem F64.add_zero_or_nan (x y : F64)
    (hx : x = F64.nan ∨ ∃ s, x = F64.fin s 0) (hy : y = F64.nan ∨ ∃ s, y = F64.fin s 0) :
    F64.add x y = F64.nan ∨ ∃ s, F64.add x y = F64.fin s 0 := by
  rcases hx with rfl | ⟨s, rfl⟩
  · exact Or.inl (by cases y <;> rfl)
  · rcases hy with rfl | ⟨t, rfl⟩
    · exact Or.inl rfl
    · right
      by_cases h : s = t
      · exact ⟨s, by simp [F64.add, h, F64.round_zero]⟩
      · exact ⟨false, by simp [F64.add, h]⟩

theorem foldl_dot_zero_or_nan (l : List (F64 × F64))
    (h : ∀ p ∈ l, (∃ s, p.1 = F64.fin s 0) ∨ (∃ s, p.2 = F64.fin s 0)) :
    ∀ acc : F64, (acc = F64.nan ∨ ∃ s, acc = F64.fin s 0) →
      (l.foldl (fun sum p => F64.add sum (F64.mul p.1 p.2)) acc = F64.nan
        ∨ ∃ s, l.foldl (fun sum p => F64.add sum (F64.mul p.1 p.2)) acc = F64.fin s 0) := by
  induction l with
  | nil => intro acc hacc; exact hacc
  | cons p l ih =>
    intro acc hacc
    rw [List.foldl_cons]
    apply ih (fun q hq => h q (List.mem_cons_of_mem _ hq))
    apply F64.add_zero_or_nan _ _ hacc
    rcases h p (List.mem_cons_self _ _) with ⟨s, hs⟩ | ⟨s, hs⟩
    · rw [hs]
      exact F64.mul_zero_left s _
    · rw [hs]
      exact F64.mul_zero_right _ s

theorem F64.div_zero_or_nan (x y : F64)
    (hx : x = F64.nan ∨ ∃ s, x = F64.fin s 0) (hy : y = F64.nan ∨ ∃ s, y = F64.fin s 0) :
    F64.div x y = F64.nan := by
  rcases hx with rfl | ⟨s, rfl⟩
  · cases y <;> rfl
  · rcases hy with rfl | ⟨t, rfl⟩
    · rfl
    · simp [F64.div]

/-- The score of simple-embedding for a zero vector: when every entry of `a` is zero or
every entry of `b` is zero, `cosineSimilarity(a, b)` of simple-embedding is a NaN (the
quotient `0 / 0`, or a NaN met on the way), never 0. -/
theorem SimpleEmbedding.cosineSimilarity_zero_vector_nan (a b : List F64)
    (hlen : a.length = b.length)
    (hz : (∀ x ∈ a, F64.eq x F64.zero = true) ∨ (∀ y ∈ b, F64.eq y F64.zero = true)) :
    SimpleEmbedding.cosineSimilarity a b = .ok F64.nan := by
  rw [SimpleEmbedding.cosineSimilarity_of_length_eq a b hlen]
  congr 1
  apply F64.div_zero_or_nan
  · apply foldl_dot_zero_or_nan _ _ _ (Or.inr ⟨false, rfl⟩)
    intro p hp
    rcases hz with hz | hz
    · exact Or.inl ((F64.eq_zero_iff _).mp (hz _ (List.of_mem_zip hp).1))
    · exact Or.inr ((F64.eq_zero_iff _).mp (hz _ (List.of_mem_zip hp).2))
  · have hs : F64.sqrt F64.zero = F64.fin false 0 := by simp [F64.sqrt, F64.zero]
    rcases hz with hz | hz
    · rw [foldl_squares_of_zeros a hz, hs]
      exact F64.mul_zero_left false _
    · rw [foldl_squares_of_zeros b hz, hs]
      exact F64.mul_zero_right _ false

/-- Claim C22, the divergence. For the query `[1, 0]` and the document embeddings
`[[0, 0], [1, 0]]`, all of the query's length, `querySimilarities` returns the two
scores `[NaN, 1]`: the score of the zero embedding is a NaN, not 0; for the zero query
`[0]` and the document `[1]` the score is a NaN as well.  The function
`cosineSimilarity` of vectors/main.go returns 0 on the same vectors. -/
theorem querySimilarities_zero_vector_scores_nan :
    SimpleEmbedding.querySimilarities [F64.ofInt 1, F64.zero]
        [[F64.zero, F64.zero], [F64.ofInt 1, F64.zero]]
      = .ok [F64.nan, F64.ofInt 1]
    ∧ SimpleEmbedding.querySimilarities [F64.zero] [[F64.ofInt 1]] = .ok [F64.nan]
    ∧ F64.eq F64.nan F64.zero = false
    ∧ Vectors.cosineSimilarity [F64.zero, F64.zero] [F64.ofInt 1, F64.zero] = .ok F64.zero
    ∧ Vectors.cosineSimilarity [F64.ofInt 1] [F64.zero] = .ok F64.zero := by
  refine ⟨by decide!, by decide!, by decide!, by decide!, by decide!⟩

/-! ## Theorems: the relative error of the rounding -/

theorem F64.round_sign (neg : Bool) (p q : Nat) (r : Bool) (R : Nat)
    (h : F64.round neg p q = F64.fin r R) :
    r = neg ∧ F64.round false p q = F64.fin false R := by
  unfold F64.round at h ⊢
  split at h
  · next hlt =>
    rw [if_pos hlt]
    injection h with h1 h2
    exact ⟨h1.symm, by rw [h2]⟩
  · cases h

/-- The rounding of a value in the normal range (at least `2^52` units of `2^-1074`)
moves it by at most `2^-53` of the result, and the result is at least `2^52` units. -/
theorem F64.round_rel (p q M : Nat) (hq : 0 < q) (hnorm : 2 ^ 52 * q ≤ p)
    (h : F64.round false p q = F64.fin false M) :
    9007199254740992 * (M * q) ≤ 9007199254740992 * p + M * q
    ∧ 9007199254740992 * p ≤ 9007199254740992 * (M * q) + M * q
    ∧ 2 ^ 52 ≤ M := by
  rcases F64.round_key p q with ⟨e, _⟩ | ⟨e, _⟩
  · rw [e] at h
    cases h
  rw [e] at h
  have hM := (F64.fin.inj h).2
  simp only [Nat.shiftLeft_eq] at hM
  generalize hs : F64.ulpShift (p / q) = s at hM
  have hps : 0 < 2 ^ s := Nat.pow_pos (Nat.succ_pos 1)
  have hW : 0 < q * 2 ^ s := Nat.mul_pos hq hps
  obtain ⟨n1, n2, _⟩ := F64.roundHalfEven_nearest p (q * 2 ^ s) hW
  have hfloor : 2 ^ 52 ≤ p / q := (Nat.le_div_iff_mul_le hq).mpr hnorm
  have hk : 2 ^ 52 ≤ F64.roundHalfEven p (q * 2 ^ s) := by
    have hfl := F64.floor_le_roundHalfEven p (q * 2 ^ s)
    have hdd : p / (q * 2 ^ s) = p / q / 2 ^ s := (Nat.div_div_eq_div_mul p q _).symm
    rcases F64.ulpShift_spec (p / q) with ⟨_, hz⟩ | ⟨hlo, _⟩
    · rw [hs] at hz
      subst hz
      simp only [pow_zero, Nat.mul_one, Nat.div_one] at hfl hdd ⊢
      omega
    · rw [hs] at hlo
      omega
  generalize F64.roundHalfEven p (q * 2 ^ s) = k at hM n1 n2 hk
  subst hM
  have e1 : k * 2 ^ s * q = k * (q * 2 ^ s) := by ring
  have h3 : 2 ^ 52 * (q * 2 ^ s) ≤ k * (q * 2 ^ s) := Nat.mul_le_mul_right _ hk
  have h4 : 2 ^ 52 * 1 ≤ k * 2 ^ s := Nat.mul_le_mul hk hps
  rw [e1]
  generalize k * (q * 2 ^ s) = A at n1 n2 h3
  generalize q * 2 ^ s = W at n1 n2 h3
  refine ⟨by omega, by omega, by omega⟩

set_option exponentiation.threshold 2200 in
theorem F64.round_int_exact (p : Nat) (hp : p < 2 ^ 53) :
    F64.round false p 1 = F64.fin false p := by
  have hs : F64.ulpShift (p / 1) = 0 := by
    rcases F64.ulpShift_spec (p / 1) with ⟨_, hz⟩ | ⟨hlo, _⟩
    · exact hz
    · rw [Nat.div_one] at hlo
      have hpos : 0 < 2 ^ F64.ulpShift p := Nat.pow_pos (Nat.succ_pos 1)
      have := (Nat.le_div_iff_mul_le hpos).mp hlo
      have h1 : 2 ^ 52 * 1 ≤ 2 ^ 52 * 2 ^ F64.ulpShift p := Nat.mul_le_mul_left _ hpos
      by_contra hne
      have h2 : 2 ^ 1 ≤ 2 ^ F64.ulpShift p := Nat.pow_le_pow_right (by decide) (by
        rw [Nat.div_one] at hne
        omega)
      have h3 : 2 ^ 52 * 2 ^ 1 ≤ 2 ^ 52 * 2 ^ F64.ulpShift p := Nat.mul_le_mul_left _ h2
      omega
  have hr : F64.roundHalfEven p 1 = p := by
    unfold F64.roundHalfEven
    simp [Nat.mod_one]
  have hov : p < F64.overflowMag := by
    have : (2 : Nat) ^ 53 ≤ F64.overflowMag := by
      unfold F64.overflowMag
      rw [Nat.shiftLeft_eq, Nat.one_mul]
      exact Nat.pow_le_pow_right (by decide) (by decide)
    omega
  unfold F64.round
  rw [hs]
  simp only [Nat.shiftLeft_eq, pow_zero, Nat.mul_one, hr, if_pos hov]

/-- The rounding of an integer number of units: exact below `2^53`, and within `2^-53`
of the result above. -/
theorem F64.round_int_rel (p M : Nat) (h : F64.round false p 1 = F64.fin false M) :
    9007199254740992 * M ≤ 9007199254740992 * p + M
    ∧ 9007199254740992 * p ≤ 9007199254740992 * M + M := by
  by_cases hp : p < 2 ^ 53
  · rw [F64.round_int_exact p hp] at h
    have := (F64.fin.inj h).2
    omega
  · obtain ⟨h1, h2, _⟩ := F64.round_rel p 1 M (by decide) (by omega) h
    simp only [Nat.mul_one] at h1 h2
    exact ⟨h1, h2⟩

/-- A lower bound kept by the rounding: a value of at least `2^54` units rounds to at
least `2^54` units. -/
theorem F64.round_ge (p q M : Nat) (hq : 0 < q) (hp : 2 ^ 54 * q ≤ p)
    (h : F64.round false p q = F64.fin false M) : 2 ^ 54 ≤ M := by
  have hc : F64.round false 18014398509481984 1 = F64.fin false 18014398509481984 := by
    decide!
  have := F64.round_mono 18014398509481984 1 p q (by decide) hq (by omega)
  rw [hc, h] at this
  simp only [F64.key_fin, if_false, Bool.false_eq_true] at this
  omega

/-- An upper bound kept by the rounding: a value below `2^52` units rounds to at most
`2^52` units. -/
theorem F64.round_le_small (p q M : Nat) (hq : 0 < q) (hp : p ≤ 2 ^ 52 * q)
    (h : F64.round false p q = F64.fin false M) : M ≤ 2 ^ 52 := by
  have hc : F64.round false 4503599627370496 1 = F64.fin false 4503599627370496 :=
    F64.round_int_exact _ (by decide)
  have := F64.round_mono p q 4503599627370496 1 hq (by decide) (by omega)
  rw [hc, h] at this
  simp only [F64.key_fin, if_false, Bool.false_eq_true] at this
  omega

/-! ## Theorems: the relative error of the operations -/

/-- A finite sum has finite terms. -/
theorem F64.add_finite (x y : F64) (r : Bool) (R : Nat) (h : F64.add x y = F64.fin r R) :
    ∃ s m t n, x = F64.fin s m ∧ y = F64.fin t n := by
  cases x with
  | nan => cases y <;> cases h
  | inf s =>
    cases y with
    | nan => cases h
    | inf t =>
      simp only [F64.add] at h
      split at h <;> cases h
    | fin t n => cases h
  | fin s m =>
    cases y with
    | nan => cases h
    | inf t => cases h
    | fin t n => exact ⟨s, m, t, n, rfl, rfl⟩

/-- The sum of two finite numbers: the magnitude `R` of the result is at most the sum of
the magnitudes, up to the relative error `2^-53`. -/
theorem F64.add_rel (s t r : Bool) (m n R : Nat)
    (h : F64.add (F64.fin s m) (F64.fin t n) = F64.fin r R) :
    9007199254740991 * R ≤ 9007199254740992 * (m + n) := by
  simp only [F64.add] at h
  split at h
  · obtain ⟨_, h'⟩ := F64.round_sign _ _ _ _ _ h
    have := (F64.round_int_rel _ _ h').1
    omega
  · split at h
    · have := (F64.fin.inj h).2
      omega
    · split at h
      · obtain ⟨_, h'⟩ := F64.round_sign _ _ _ _ _ h
        have := (F64.round_int_rel _ _ h').1
        omega
      · obtain ⟨_, h'⟩ := F64.round_sign _ _ _ _ _ h
        have := (F64.round_int_rel _ _ h').1
        omega

/-- The sum of two finite numbers that are not negative is not negative, at least the
exact sum up to the relative error `2^-53`, zero only when the exact sum is zero, and
at least `2^54` units when the exact sum is. -/
theorem F64.add_nonneg_rel (r : Bool) (m n R : Nat)
    (h : F64.add (F64.fin false m) (F64.fin false n) = F64.fin r R) :
    r = false
    ∧ 9007199254740992 * (m + n) ≤ 9007199254740993 * R
    ∧ (2 ^ 54 ≤ m + n → 2 ^ 54 ≤ R)
    ∧ (m + n = 0 → R = 0) := by
  simp only [F64.add, if_true] at h
  obtain ⟨hr, h'⟩ := F64.round_sign _ _ _ _ _ h
  refine ⟨hr, ?_, ?_, ?_⟩
  · have := (F64.round_int_rel _ _ h').2
    omega
  · intro hge
    exact F64.round_ge _ 1 _ (by decide) (by omega) h'
  · intro h0
    rw [h0, F64.round_zero] at h'
    exact ((F64.fin.inj h').2).symm

/-- A finite product has finite factors. -/
theorem F64.mul_finite (x y : F64) (r : Bool) (R : Nat) (h : F64.mul x y = F64.fin r R) :
    ∃ s m t n, x = F64.fin s m ∧ y = F64.fin t n := by
  cases x with
  | nan => cases y <;> cases h
  | inf s =>
    cases y with
    | nan => cases h
    | inf t => cases h
    | fin t n =>
      simp only [F64.mul] at h
      split at h <;> cases h
  | fin s m =>
    cases y with
    | nan => cases h
    | inf t =>
      simp only [F64.mul] at h
      split at h <;> cases h
    | fin t n => exact ⟨s, m, t, n, rfl, rfl⟩

set_option exponentiation.threshold 2200 in
/-- The product of two finite numbers whose exact product is in the normal range: the
relative error is at most `2^-53`. -/
theorem F64.mul_rel (s t r : Bool) (m n R : Nat) (hnorm : 2 ^ 52 * 2 ^ 1074 ≤ m * n)
    (h : F64.mul (F64.fin s m) (F64.fin t n) = F64.fin r R) :
    r = xor s t
    ∧ 9007199254740992 * (R * 2 ^ 1074) ≤ 9007199254740992 * (m * n) + R * 2 ^ 1074
    ∧ 9007199254740992 * (m * n) ≤ 9007199254740992 * (R * 2 ^ 1074) + R * 2 ^ 1074 := by
  simp only [F64.mul, Nat.shiftLeft_eq, Nat.one_mul] at h
  have hU : 0 < 2 ^ 1074 := Nat.two_pow_pos 1074
  generalize 2 ^ 1074 = U at h hnorm hU ⊢
  obtain ⟨hr, h'⟩ := F64.round_sign _ _ _ _ _ h
  obtain ⟨h1, h2, _⟩ := F64.round_rel _ _ _ hU hnorm h'
  exact ⟨hr, h1, h2⟩

/-- The product of a zero and a finite number is a zero. -/
theorem F64.mul_zero_mag (s t r : Bool) (m n R : Nat) (h0 : m = 0 ∨ n = 0)
    (h : F64.mul (F64.fin s m) (F64.fin t n) = F64.fin r R) : R = 0 := by
  have : m * n = 0 := by
    rcases h0 with h0 | h0 <;> simp [h0]
  simp only [F64.mul, this, F64.round_zero] at h
  exact ((F64.fin.inj h).2).symm

set_option exponentiation.threshold 2200 in
/-- The square of a number of magnitude at least `2^-510` is at least `2^-1020`. -/
theorem F64.mul_self_ge (s r : Bool) (m R : Nat) (hm : 2 ^ 564 ≤ m)
    (h : F64.mul (F64.fin s m) (F64.fin s m) = F64.fin r R) : 2 ^ 54 ≤ R := by
  simp only [F64.mul, Nat.shiftLeft_eq, Nat.one_mul] at h
  have hU : 0 < 2 ^ 1074 := Nat.two_pow_pos 1074
  have hmm : 2 ^ 54 * 2 ^ 1074 ≤ m * m := by
    calc 2 ^ 54 * 2 ^ 1074 = 2 ^ 564 * 2 ^ 564 := by
          rw [← Nat.pow_add, ← Nat.pow_add]
      _ ≤ m * m := Nat.mul_le_mul hm hm
  generalize 2 ^ 1074 = U at h hmm hU
  obtain ⟨_, h'⟩ := F64.round_sign _ _ _ _ _ h
  exact F64.round_ge _ _ _ hU hmm h'

/-- A finite quotient has a finite dividend, and its divisor is an infinity (the
quotient is then zero) or a finite number other than zero. -/
theorem F64.div_finite (x y : F64) (r : Bool) (R : Nat) (h : F64.div x y = F64.fin r R) :
    ∃ s d, x = F64.fin s d
      ∧ ((∃ t, y = F64.inf t ∧ R = 0) ∨ ∃ t p, y = F64.fin t p ∧ p ≠ 0) := by
  cases x with
  | nan => cases y <;> cases h
  | inf s =>
    cases y with
    | nan => cases h
    | inf t => cases h
    | fin t n => cases h
  | fin s m =>
    cases y with
    | nan => cases h
    | inf t =>
      simp only [F64.div] at h
      exact ⟨s, m, rfl, Or.inl ⟨t, rfl, ((F64.fin.inj h).2).symm⟩⟩
    | fin t n =>
      refine ⟨s, m, rfl, Or.inr ⟨t, n, rfl, ?_⟩⟩
      intro hn
      simp only [F64.div, hn, if_true] at h
      split at h <;> cases h

set_option exponentiation.threshold 2200 in
/-- The quotient of two finite numbers: its magnitude `R` is at most the exact quotient
up to the relative error `2^-53`, or it is at most `2^52` units (`2^-1022`). -/
theorem F64.div_rel (s t r : Bool) (d p R : Nat) (hp : p ≠ 0)
    (h : F64.div (F64.fin s d) (F64.fin t p) = F64.fin r R) :
    9007199254740991 * (R * p) ≤ 9007199254740992 * (d * 2 ^ 1074) ∨ R ≤ 2 ^ 52 := by
  simp only [F64.div, hp, if_false, Nat.shiftLeft_eq] at h
  generalize d * 2 ^ 1074 = P at h ⊢
  obtain ⟨_, h'⟩ := F64.round_sign _ _ _ _ _ h
  by_cases hnorm : 2 ^ 52 * p ≤ P
  · left
    obtain ⟨h1, _, _⟩ := F64.round_rel P p R (by omega) hnorm h'
    omega
  · right
    exact F64.round_le_small P p R (by omega) (by omega) h'

/-- A finite square root has a finite argument that is not negative, or a zero. -/
theorem F64.sqrt_finite (x : F64) (r : Bool) (K : Nat) (h : F64.sqrt x = F64.fin r K) :
    ∃ s m, x = F64.fin s m ∧ (m = 0 ∨ s = false) := by
  cases x with
  | nan => cases h
  | inf s =>
    simp only [F64.sqrt] at h
    split at h <;> cases h
  | fin s m =>
    refine ⟨s, m, rfl, ?_⟩
    by_cases hm : m = 0
    · exact Or.inl hm
    · right
      cases s with
      | false => rfl
      | true =>
        simp only [F64.sqrt, hm, if_false, if_true] at h
        cases h

set_option exponentiation.threshold 2200 in
/-- The square root of a finite positive number `m * 2^-1074`: the result `K * 2^-1074`
is not negative, its square is at least the argument up to the relative error
`(1 + 2^-53)^2`, and it is at least `2^-511` when the argument is at least `2^-1020`. -/
theorem F64.sqrt_rel (m : Nat) (hm : m ≠ 0) (r : Bool) (K : Nat)
    (h : F64.sqrt (F64.fin false m) = F64.fin r K) :
    r = false
    ∧ 9007199254740992 * 9007199254740992 * (m * 2 ^ 1074)
        ≤ 9007199254740993 * 9007199254740993 * (K * K)
    ∧ (2 ^ 54 ≤ m → 2 ^ 563 ≤ K) := by
  obtain ⟨k, sh, hs, hsh, _, _, hup⟩ := F64.sqrt_spec m hm
  rw [hs] at h
  obtain ⟨hr, hK⟩ := F64.fin.inj h
  subst hK
  rw [Nat.shiftLeft_eq] at hsh hup
  have hU : 2 ^ 537 * 2 ^ 537 = 2 ^ 1074 := by rw [← Nat.pow_add]
  have h53 : 2 ^ 53 ≤ 2 ^ 537 := Nat.pow_le_pow_right (by decide) (by decide)
  have hbig : 9007199254740992 * 9007199254740992 * (2 ^ 54 * 2 ^ 1074)
      = (18014398509481984 * 2 ^ 563) * (18014398509481984 * 2 ^ 563) := by norm_num
  generalize 2 ^ 1074 = U at hsh hup hU hbig ⊢
  generalize 2 ^ 537 = V at hU h53
  generalize 2 ^ 563 = Z at hbig ⊢
  have hn : U ≤ m * U := Nat.le_mul_of_pos_left U (by omega)
  have hT : V ≤ Nat.sqrt (m * U) := Nat.le_sqrt.mpr (by omega)
  have hTT := Nat.sqrt_le (m * U)
  have hmono : 2 ^ 54 ≤ m → 2 ^ 54 * U ≤ m * U := fun h => Nat.mul_le_mul_right U h
  generalize m * U = n at hsh hup hn hT hTT hmono ⊢
  generalize Nat.sqrt n = T at hsh hT hTT
  have hps : 0 < 2 ^ sh := Nat.two_pow_pos sh
  have hlo : 2 ^ 52 * 2 ^ sh ≤ T := by
    rcases F64.ulpShift_spec T with ⟨hlt, _⟩ | ⟨hlo, _⟩
    · omega
    · rw [← hsh] at hlo
      exact (Nat.le_div_iff_mul_le hps).mp hlo
  generalize 2 ^ sh = S at hup hps hlo ⊢
  -- the significand has 53 bits
  have hk : 2 ^ 52 ≤ k := by
    have h1 : (2 ^ 52 * S) * (2 ^ 52 * S) ≤ n := le_trans (Nat.mul_le_mul hlo hlo) hTT
    have h2 : (2 * (2 ^ 52 * S)) * (2 * (2 ^ 52 * S)) ≤ ((2 * k + 1) * S) * ((2 * k + 1) * S) := by
      calc (2 * (2 ^ 52 * S)) * (2 * (2 ^ 52 * S)) = 4 * ((2 ^ 52 * S) * (2 ^ 52 * S)) := by ring
        _ ≤ 4 * n := Nat.mul_le_mul_left _ h1
        _ ≤ (2 * k + 1) * (2 * k + 1) * (S * S) := hup
        _ = ((2 * k + 1) * S) * ((2 * k + 1) * S) := by ring
    have h3 : 2 * (2 ^ 52 * S) ≤ (2 * k + 1) * S := Nat.mul_self_le_mul_self_iff.mp h2
    have h4 : (2 * 2 ^ 52) * S ≤ (2 * k + 1) * S := by
      calc (2 * 2 ^ 52) * S = 2 * (2 ^ 52 * S) := by ring
        _ ≤ (2 * k + 1) * S := h3
    have := Nat.le_of_mul_le_mul_right h4 hps
    omega
  have hKS : 2 ^ 52 * S ≤ k * S := Nat.mul_le_mul_right _ hk
  have hmain : 9007199254740992 * 9007199254740992 * n
      ≤ 9007199254740993 * 9007199254740993 * (k * S * (k * S)) := by
    have hX : 9007199254740992 * ((2 * k + 1) * S) ≤ 2 * 9007199254740993 * (k * S) := by
      have e : 9007199254740992 * ((2 * k + 1) * S)
          = 2 * 9007199254740992 * (k * S) + 9007199254740992 * S := by ring
      rw [e]
      omega
    have hXX := Nat.mul_le_mul hX hX
    have h4n : 9007199254740992 * 9007199254740992 * (4 * n)
        ≤ 9007199254740992 * 9007199254740992 * ((2 * k + 1) * (2 * k + 1) * (S * S)) :=
      Nat.mul_le_mul_left _ hup
    have e1 : 9007199254740992 * 9007199254740992 * ((2 * k + 1) * (2 * k + 1) * (S * S))
        = 9007199254740992 * ((2 * k + 1) * S) * (9007199254740992 * ((2 * k + 1) * S)) := by
      ring
    have e2 : 2 * 9007199254740993 * (k * S) * (2 * 9007199254740993 * (k * S))
        = 4 * (9007199254740993 * 9007199254740993 * (k * S * (k * S))) := by ring
    have e3 : 9007199254740992 * 9007199254740992 * (4 * n)
        = 4 * (9007199254740992 * 9007199254740992 * n) := by ring
    rw [e1] at h4n
    rw [e2] at hXX
    rw [e3] at h4n
    omega
  refine ⟨hr.symm, hmain, ?_⟩
  intro hm54
  by_contra hlt
  have hlt' : k * S < Z := by omega
  have h1 : 9007199254740993 * (k * S) < 18014398509481984 * Z := by
    calc 9007199254740993 * (k * S) ≤ 18014398509481984 * (k * S) :=
          Nat.mul_le_mul_right _ (by decide)
      _ < 18014398509481984 * Z := Nat.mul_lt_mul_of_pos_left hlt' (by decide)
  have h2 := Nat.mul_self_lt_mul_self h1
  have h3 : 9007199254740992 * 9007199254740992 * (2 ^ 54 * U)
      ≤ 9007199254740992 * 9007199254740992 * n := Nat.mul_le_mul_left _ (hmono hm54)
  have e4 : 9007199254740993 * (k * S) * (9007199254740993 * (k * S))
      = 9007199254740993 * 9007199254740993 * (k * S * (k * S)) := by ring
  rw [e4] at h2
  omega

/-! ## Theorems: the operations on rational values -/

theorem F64.toRat_nonneg (m : Nat) : (F64.fin false m).toRat = (m : ℚ) / 2 ^ 1074 := rfl

theorem F64.toRat_nonneg_nonneg (m : Nat) : 0 ≤ (F64.fin false m).toRat := by
  rw [F64.toRat_nonneg]
  positivity

theorem F64.abs_toRat (s : Bool) (m : Nat) :
    |(F64.fin s m).toRat| = (F64.fin false m).toRat := by
  have h : 0 ≤ (m : ℚ) / 2 ^ 1074 := by positivity
  cases s
  · exact abs_of_nonneg h
  · show |-((m : ℚ) / 2 ^ 1074)| = (m : ℚ) / 2 ^ 1074
    rw [abs_neg, abs_of_nonneg h]

theorem F64.toRat_mul_self (s : Bool) (m : Nat) :
    (F64.fin s m).toRat * (F64.fin s m).toRat
      = (F64.fin false m).toRat * (F64.fin false m).toRat := by
  rw [← F64.abs_toRat s m, abs_mul_abs_self]

/-- From units to values, for a product: an inequality `a * (m * n) <= b * (R * 2^1074)`
between magnitudes gives `a * (value m * value n) <= b * value R`. -/
theorem F64.toRat_mul_le (a b : ℚ) (m n R : Nat)
    (h : a * ((m : ℚ) * n) ≤ b * ((R : ℚ) * 2 ^ 1074)) :
    a * ((F64.fin false m).toRat * (F64.fin false n).toRat) ≤ b * (F64.fin false R).toRat := by
  simp only [F64.toRat_nonneg]
  have hU : (0 : ℚ) < 2 ^ 1074 := by positivity
  generalize (2 : ℚ) ^ 1074 = U at h hU ⊢
  have e1 : a * ((m : ℚ) / U * ((n : ℚ) / U)) = a * ((m : ℚ) * n) / (U * U) := by
    field_simp
  have e2 : b * ((R : ℚ) / U) = b * ((R : ℚ) * U) / (U * U) := by
    field_simp
    ring
  rw [e1, e2]
  exact div_le_div_of_nonneg_right h (mul_pos hU hU).le

/-- The converse direction of `F64.toRat_mul_le`. -/
theorem F64.toRat_le_mul (a b : ℚ) (m n R : Nat)
    (h : b * ((R : ℚ) * 2 ^ 1074) ≤ a * ((m : ℚ) * n)) :
    b * (F64.fin false R).toRat ≤ a * ((F64.fin false m).toRat * (F64.fin false n).toRat) := by
  simp only [F64.toRat_nonneg]
  have hU : (0 : ℚ) < 2 ^ 1074 := by positivity
  generalize (2 : ℚ) ^ 1074 = U at h hU ⊢
  have e1 : a * ((m : ℚ) / U * ((n : ℚ) / U)) = a * ((m : ℚ) * n) / (U * U) := by
    field_simp
  have e2 : b * ((R : ℚ) / U) = b * ((R : ℚ) * U) / (U * U) := by
    field_simp
    ring
  rw [e1, e2]
  exact div_le_div_of_nonneg_right h (mul_pos hU hU).le

/-- From units to values, for a sum. -/
theorem F64.toRat_add_le (a b : ℚ) (m n R : Nat)
    (h : a * ((m : ℚ) + n) ≤ b * (R : ℚ)) :
    a * ((F64.fin false m).toRat + (F64.fin false n).toRat) ≤ b * (F64.fin false R).toRat := by
  simp only [F64.toRat_nonneg]
  have hU : (0 : ℚ) < 2 ^ 1074 := by positivity
  generalize (2 : ℚ) ^ 1074 = U at hU ⊢
  have e1 : a * ((m : ℚ) / U + (n : ℚ) / U) = a * ((m : ℚ) + n) / U := by
    field_simp
  have e2 : b * ((R : ℚ) / U) = b * (R : ℚ) / U := by
    field_simp
  rw [e1, e2]
  exact div_le_div_of_nonneg_right h hU.le

/-- The converse direction of `F64.toRat_add_le`. -/
theorem F64.toRat_le_add (a b : ℚ) (m n R : Nat)
    (h : b * (R : ℚ) ≤ a * ((m : ℚ) + n)) :
    b * (F64.fin false R).toRat ≤ a * ((F64.fin false m).toRat + (F64.fin false n).toRat) := by
  simp only [F64.toRat_nonneg]
  have hU : (0 : ℚ) < 2 ^ 1074 := by positivity
  generalize (2 : ℚ) ^ 1074 = U at hU ⊢
  have e1 : a * ((m : ℚ) / U + (n : ℚ) / U) = a * ((m : ℚ) + n) / U := by
    field_simp
  have e2 : b * ((R : ℚ) / U) = b * (R : ℚ) / U := by
    field_simp
  rw [e1, e2]
  exact div_le_div_of_nonneg_right h hU.le

theorem F64.scale_up (X Y : ℚ) (h : 9007199254740992 * X ≤ 9007199254740993 * Y) :
    X ≤ (1 + 1 / 2 ^ 53) * Y := by
  have e : (1 + 1 / 2 ^ 53 : ℚ) * Y = 9007199254740993 * Y / 9007199254740992 := by
    norm_num
    ring
  rw [e, le_div_iff₀ (by norm_num)]
  linarith

theorem F64.scale_down (X Y : ℚ) (h : 9007199254740991 * Y ≤ 9007199254740992 * X) :
    (1 - 1 / 2 ^ 53) * Y ≤ X := by
  have e : (1 - 1 / 2 ^ 53 : ℚ) * Y = 9007199254740991 * Y / 9007199254740992 := by
    norm_num
    ring
  rw [e, div_le_iff₀ (by norm_num)]
  linarith

set_option exponentiation.threshold 2200 in
/-- The magnitude of a product whose exact value is in the normal range, as a rational
value: it is the exact product up to the relative error `2^-53`. -/
theorem F64.mul_value_norm (s t r : Bool) (m n R : Nat)
    (hnorm : 2 ^ 52 * 2 ^ 1074 ≤ m * n)
    (h : F64.mul (F64.fin s m) (F64.fin t n) = F64.fin r R) :
    (1 - 1 / 2 ^ 53) * (F64.fin false R).toRat
        ≤ (F64.fin false m).toRat * (F64.fin false n).toRat
    ∧ (F64.fin false m).toRat * (F64.fin false n).toRat
        ≤ (1 + 1 / 2 ^ 53) * (F64.fin false R).toRat := by
  obtain ⟨_, h1, h2⟩ := F64.mul_rel s t r m n R hnorm h
  have c1 : (9007199254740991 : ℚ) * ((R : ℚ) * 2 ^ 1074)
      ≤ 9007199254740992 * ((m : ℚ) * n) := by
    have : 9007199254740991 * (R * 2 ^ 1074) ≤ 9007199254740992 * (m * n) := by omega
    exact_mod_cast this
  have c2 : (9007199254740992 : ℚ) * ((m : ℚ) * n)
      ≤ 9007199254740993 * ((R : ℚ) * 2 ^ 1074) := by
    have : 9007199254740992 * (m * n) ≤ 9007199254740993 * (R * 2 ^ 1074) := by omega
    exact_mod_cast this
  exact ⟨F64.scale_down _ _ (F64.toRat_le_mul _ _ m n R c1),
    F64.scale_up _ _ (F64.toRat_mul_le _ _ m n R c2)⟩

set_option exponentiation.threshold 2200 in
/-- The magnitude of a product of two numbers that are away from underflow, as a
rational value: it is the exact product up to the relative error `2^-53`. -/
theorem F64.mul_value (s t r : Bool) (m n R : Nat)
    (hm : m = 0 ∨ 2 ^ 564 ≤ m) (hn : n = 0 ∨ 2 ^ 564 ≤ n)
    (h : F64.mul (F64.fin s m) (F64.fin t n) = F64.fin r R) :
    r = xor s t
    ∧ (1 - 1 / 2 ^ 53) * (F64.fin false R).toRat
        ≤ (F64.fin false m).toRat * (F64.fin false n).toRat
    ∧ (F64.fin false m).toRat * (F64.fin false n).toRat
        ≤ (1 + 1 / 2 ^ 53) * (F64.fin false R).toRat := by
  have hr : r = xor s t := by
    simp only [F64.mul] at h
    exact (F64.round_sign _ _ _ _ _ h).1
  refine ⟨hr, ?_⟩
  by_cases h0 : m = 0 ∨ n = 0
  · have hR := F64.mul_zero_mag s t r m n R h0 h
    subst hR
    have hz : (F64.fin false m).toRat * (F64.fin false n).toRat = 0 := by
      rcases h0 with h0 | h0 <;> subst h0 <;> simp [F64.toRat_nonneg]
    rw [hz]
    simp [F64.toRat_nonneg]
  · have hm' : 2 ^ 564 ≤ m := by tauto
    have hn' : 2 ^ 564 ≤ n := by tauto
    have hnorm : 2 ^ 52 * 2 ^ 1074 ≤ m * n := by
      calc 2 ^ 52 * 2 ^ 1074 ≤ 2 ^ 564 * 2 ^ 564 := by
            rw [← Nat.pow_add, ← Nat.pow_add]
            exact Nat.pow_le_pow_right (by decide) (by decide)
        _ ≤ m * n := Nat.mul_le_mul hm' hn'
    exact F64.mul_value_norm s t r m n R hnorm h

/-- The magnitude of a sum, as a rational value: at most the sum of the magnitudes, up
to the relative error `2^-53`. -/
theorem F64.add_value (s t r : Bool) (m n R : Nat)
    (h : F64.add (F64.fin s m) (F64.fin t n) = F64.fin r R) :
    (1 - 1 / 2 ^ 53) * (F64.fin false R).toRat
      ≤ (F64.fin false m).toRat + (F64.fin false n).toRat := by
  have h1 := F64.add_rel s t r m n R h
  have c1 : (9007199254740991 : ℚ) * (R : ℚ) ≤ 9007199254740992 * ((m : ℚ) + n) := by
    exact_mod_cast h1
  exact F64.scale_down _ _ (F64.toRat_le_add _ _ m n R c1)

/-- The sum of two numbers that are not negative, as a rational value: at least the
exact sum, up to the relative error `2^-53`. -/
theorem F64.add_nonneg_value (r : Bool) (m n R : Nat)
    (h : F64.add (F64.fin false m) (F64.fin false n) = F64.fin r R) :
    (F64.fin false m).toRat + (F64.fin false n).toRat
      ≤ (1 + 1 / 2 ^ 53) * (F64.fin false R).toRat := by
  obtain ⟨_, h1, _, _⟩ := F64.add_nonneg_rel r m n R h
  have c1 : (9007199254740992 : ℚ) * ((m : ℚ) + n) ≤ 9007199254740993 * (R : ℚ) := by
    exact_mod_cast h1
  exact F64.scale_up _ _ (F64.toRat_add_le _ _ m n R c1)

/-- The square root, as a rational value: the argument is at most the square of the
result, up to the relative error `(1 + 2^-53)^2`. -/
theorem F64.sqrt_value (m : Nat) (hm : m ≠ 0) (r : Bool) (K : Nat)
    (h : F64.sqrt (F64.fin false m) = F64.fin r K) :
    (F64.fin false m).toRat
      ≤ (1 + 1 / 2 ^ 53) * ((1 + 1 / 2 ^ 53) *
          ((F64.fin false K).toRat * (F64.fin false K).toRat)) := by
  obtain ⟨_, h1, _⟩ := F64.sqrt_rel m hm r K h
  have c0 : ((9007199254740992 * 9007199254740992 * (m * 2 ^ 1074) : ℕ) : ℚ)
      ≤ ((9007199254740993 * 9007199254740993 * (K * K) : ℕ) : ℚ) := Nat.cast_le.mpr h1
  simp only [Nat.cast_mul, Nat.cast_pow, Nat.cast_ofNat] at c0
  simp only [F64.toRat_nonneg]
  have hU : (0 : ℚ) < 2 ^ 1074 := by positivity
  generalize (2 : ℚ) ^ 1074 = U at c0 hU ⊢
  have c1 : (9007199254740993 : ℚ) * ((9007199254740993 : ℚ) * ((K : ℚ) * K))
      ≥ 9007199254740992 * (9007199254740992 * ((m : ℚ) * U)) := by linarith
  have e : (1 + 1 / 2 ^ 53 : ℚ) * ((1 + 1 / 2 ^ 53) * ((K : ℚ) / U * ((K : ℚ) / U)))
      = 9007199254740993 * (9007199254740993 * ((K : ℚ) * K))
        / (9007199254740992 * 9007199254740992 * (U * U)) := by
    field_simp
    ring
  have e' : (m : ℚ) / U = 9007199254740992 * (9007199254740992 * ((m : ℚ) * U))
      / (9007199254740992 * 9007199254740992 * (U * U)) := by
    field_simp
    ring
  rw [e, e']
  exact div_le_div_of_nonneg_right c1 (by positivity)

set_option exponentiation.threshold 2200 in
/-- The quotient, as a rational value: its magnitude times the divisor is at most the
dividend, up to the relative error `2^-53`, or the quotient is at most 1. -/
theorem F64.div_value (s t r : Bool) (d p R : Nat) (hp : p ≠ 0)
    (h : F64.div (F64.fin s d) (F64.fin t p) = F64.fin r R) :
    (1 - 1 / 2 ^ 53) * ((F64.fin false R).toRat * (F64.fin false p).toRat)
      ≤ (F64.fin false d).toRat
    ∨ (F64.fin false R).toRat ≤ 1 := by
  rcases F64.div_rel s t r d p R hp h with h1 | h1
  · left
    have c1 : (9007199254740991 : ℚ) * ((R : ℚ) * p)
        ≤ 9007199254740992 * ((d : ℚ) * 2 ^ 1074) := by
      exact_mod_cast h1
    apply F64.scale_down
    have := F64.toRat_mul_le _ _ R p d c1
    exact this
  · right
    rw [F64.toRat_nonneg, div_le_one (by positivity)]
    have h2 : (R : ℚ) ≤ 2 ^ 52 := by exact_mod_cast h1
    have h3 : (2 : ℚ) ^ 52 ≤ 2 ^ 1074 := pow_le_pow_right₀ (by norm_num) (by norm_num)
    exact h2.trans h3

/-! ## Theorems: the three sums of the cosine, with their rounding errors -/

/-- A running sum that ends finite started finite. -/
theorem foldl_add_finite {ι : Type} (g : ι → F64) (l : List ι) :
    ∀ (z : F64) (r : Bool) (R : Nat),
      l.foldl (fun sum v => F64.add sum (g v)) z = F64.fin r R → ∃ s m, z = F64.fin s m := by
  induction l with
  | nil => intro z r R h; exact ⟨r, R, h⟩
  | cons x l ih =>
    intro z r R h
    rw [List.foldl_cons] at h
    obtain ⟨s, m, hz⟩ := ih _ r R h
    obtain ⟨s', m', _, _, hz', _⟩ := F64.add_finite _ _ _ _ hz
    exact ⟨s', m', hz'⟩

/-- The sum of squares `normA`, when it is finite: it is not negative, it is zero or at
least `2^-1020`, and it is at least the exact sum of the squares up to the factor
`(1 + 2^-53)^(2n)`. -/
theorem norm_fold_value (l : List F64) (hl : ∀ x ∈ l, x.AwayFromUnderflow) :
    ∀ (acc : Nat) (r : Bool) (R : Nat), (acc = 0 ∨ 2 ^ 54 ≤ acc) →
      l.foldl (fun sum v => F64.add sum (F64.mul v v)) (F64.fin false acc) = F64.fin r R →
      r = false ∧ (R = 0 ∨ 2 ^ 54 ≤ R)
      ∧ (F64.fin false acc).toRat + (l.map (fun x => x.toRat * x.toRat)).sum
          ≤ (1 + 1 / 2 ^ 53) ^ (2 * l.length) * (F64.fin false R).toRat := by
  induction l with
  | nil =>
    intro acc r R hacc h
    obtain ⟨hr, hR⟩ := F64.fin.inj h
    subst hR
    exact ⟨hr.symm, hacc, by simp⟩
  | cons x l ih =>
    intro acc r R hacc h
    rw [List.foldl_cons] at h
    obtain ⟨s1, m1, hz⟩ := foldl_add_finite (fun v => F64.mul v v) l _ r R h
    obtain ⟨_, _, t, M, _, hmul⟩ := F64.add_finite _ _ _ _ hz
    obtain ⟨s, m, rfl, hm⟩ := hl x (List.mem_cons_self _ _)
    obtain ⟨ht, _, hup⟩ := F64.mul_value s s t m m M hm hm hmul
    have ht' : t = false := by
      rw [ht]
      cases s <;> rfl
    subst ht'
    rw [hmul] at hz
    obtain ⟨hs1, _, hge, hzero⟩ := F64.add_nonneg_rel s1 acc M m1 hz
    subst hs1
    have hadd := F64.add_nonneg_value false acc M m1 hz
    have hM : M = 0 ∨ 2 ^ 54 ≤ M := by
      rcases hm with h0 | h0
      · left
        exact F64.mul_zero_mag s s false m m M (Or.inl h0) hmul
      · right
        exact F64.mul_self_ge s false m M h0 hmul
    have hm1 : m1 = 0 ∨ 2 ^ 54 ≤ m1 := by
      by_cases h0 : acc + M = 0
      · exact Or.inl (hzero h0)
      · exact Or.inr (hge (by omega))
    rw [hmul, hz] at h
    obtain ⟨hr, hR, hsum⟩ := ih (fun y hy => hl y (List.mem_cons_of_mem _ hy)) m1 r R hm1 h
    refine ⟨hr, hR, ?_⟩
    have hS : 0 ≤ (l.map (fun x => x.toRat * x.toRat)).sum := by
      apply List.sum_nonneg
      intro z hz
      obtain ⟨y, _, rfl⟩ := List.mem_map.mp hz
      exact mul_self_nonneg _
    have hA0 := F64.toRat_nonneg_nonneg acc
    have hA1 := F64.toRat_nonneg_nonneg m1
    have hα1 : (1 : ℚ) ≤ 1 + 1 / 2 ^ 53 := by norm_num
    have e : 2 * (l.length + 1) = 2 * l.length + 1 + 1 := by ring
    have e2 : (1 + 1 / 2 ^ 53 : ℚ) ^ (2 * l.length + 1 + 1) * (F64.fin false R).toRat
        = (1 + 1 / 2 ^ 53) * ((1 + 1 / 2 ^ 53)
          * ((1 + 1 / 2 ^ 53) ^ (2 * l.length) * (F64.fin false R).toRat)) := by ring
    simp only [List.map_cons, List.sum_cons, List.length_cons]
    rw [F64.toRat_mul_self, e, e2]
    generalize (F64.fin false acc).toRat = A0 at hadd hA0 ⊢
    generalize (F64.fin false m).toRat = X at hup ⊢
    generalize (F64.fin false M).toRat = Mv at hup hadd ⊢
    generalize (F64.fin false m1).toRat = A1 at hadd hsum hA1 ⊢
    generalize (l.map (fun x => x.toRat * x.toRat)).sum = S at hsum hS ⊢
    generalize (1 + 1 / 2 ^ 53 : ℚ) ^ (2 * l.length) * (F64.fin false R).toRat = T at hsum ⊢
    generalize (1 + 1 / 2 ^ 53 : ℚ) = α at hup hadd hα1 ⊢
    have hα0 : 0 ≤ α := by linarith
    have h1 : A0 ≤ α * A0 := by nlinarith
    have h2 : α * (A0 + Mv) ≤ α * (α * A1) := mul_le_mul_of_nonneg_left hadd hα0
    have h3 : S ≤ α * (α * S) := by nlinarith [mul_nonneg hα0 hS]
    have h4 : α * (α * (A1 + S)) ≤ α * (α * T) :=
      mul_le_mul_of_nonneg_left (mul_le_mul_of_nonneg_left hsum hα0) hα0
    nlinarith

/-- The dot product, when it is finite: its magnitude is at most the exact sum of the
magnitudes of the products, up to the factor `(1 - 2^-53)^(2n)`. -/
theorem dot_fold_value (l : List (F64 × F64))
    (hl : ∀ p ∈ l, p.1.AwayFromUnderflow ∧ p.2.AwayFromUnderflow) :
    ∀ (s0 : Bool) (m0 : Nat) (r : Bool) (R : Nat),
      l.foldl (fun sum p => F64.add sum (F64.mul p.1 p.2)) (F64.fin s0 m0) = F64.fin r R →
      (1 - 1 / 2 ^ 53) ^ (2 * l.length) * (F64.fin false R).toRat
        ≤ (F64.fin false m0).toRat + (l.map (fun p => |p.1.toRat| * |p.2.toRat|)).sum := by
  induction l with
  | nil =>
    intro s0 m0 r R h
    obtain ⟨_, hR⟩ := F64.fin.inj h
    subst hR
    simp
  | cons p l ih =>
    intro s0 m0 r R h
    rw [List.foldl_cons] at h
    obtain ⟨s1, m1, hz⟩ := foldl_add_finite (fun p : F64 × F64 => F64.mul p.1 p.2) l _ r R h
    obtain ⟨_, _, t, M, _, hmul⟩ := F64.add_finite _ _ _ _ hz
    obtain ⟨⟨s, m, hx, hm⟩, ⟨s', n, hy, hn⟩⟩ := hl p (List.mem_cons_self _ _)
    rw [hx, hy] at hmul
    obtain ⟨_, hlo, _⟩ := F64.mul_value s s' t m n M hm hn hmul
    rw [hx, hy, hmul] at hz
    have hadd := F64.add_value s0 t s1 m0 M m1 hz
    rw [hx, hy, hmul, hz] at h
    have hsum := ih (fun q hq => hl q (List.mem_cons_of_mem _ hq)) s1 m1 r R h
    have hS : 0 ≤ (l.map (fun p => |p.1.toRat| * |p.2.toRat|)).sum := by
      apply List.sum_nonneg
      intro z hz
      obtain ⟨q, _, rfl⟩ := List.mem_map.mp hz
      exact mul_nonneg (abs_nonneg _) (abs_nonneg _)
    have hA0 := F64.toRat_nonneg_nonneg m0
    have hA1 := F64.toRat_nonneg_nonneg m1
    have hMv := F64.toRat_nonneg_nonneg M
    have hβ1 : (1 - 1 / 2 ^ 53 : ℚ) ≤ 1 := by norm_num
    have hβ0 : (0 : ℚ) ≤ 1 - 1 / 2 ^ 53 := by norm_num
    have e : 2 * (l.length + 1) = 2 * l.length + 1 + 1 := by ring
    have e2 : (1 - 1 / 2 ^ 53 : ℚ) ^ (2 * l.length + 1 + 1) * (F64.fin false R).toRat
        = (1 - 1 / 2 ^ 53) * ((1 - 1 / 2 ^ 53)
          * ((1 - 1 / 2 ^ 53) ^ (2 * l.length) * (F64.fin false R).toRat)) := by ring
    simp only [List.map_cons, List.sum_cons, List.length_cons]
    rw [hx, hy, F64.abs_toRat, F64.abs_toRat, e, e2]
    generalize (F64.fin false m0).toRat = A0 at hadd hA0 ⊢
    generalize (F64.fin false m).toRat * (F64.fin false n).toRat = XY at hlo ⊢
    generalize (F64.fin false M).toRat = Mv at hlo hadd hMv ⊢
    generalize (F64.fin false m1).toRat = A1 at hadd hsum hA1 ⊢
    generalize (l.map (fun p => |p.1.toRat| * |p.2.toRat|)).sum = S at hsum hS ⊢
    generalize (1 - 1 / 2 ^ 53 : ℚ) ^ (2 * l.length) * (F64.fin false R).toRat = T at hsum ⊢
    generalize (1 - 1 / 2 ^ 53 : ℚ) = β at hlo hadd hβ1 hβ0 ⊢
    have h1 : β * (β * T) ≤ β * (β * (A1 + S)) :=
      mul_le_mul_of_nonneg_left (mul_le_mul_of_nonneg_left hsum hβ0) hβ0
    have h2 : β * (β * A1) ≤ β * (A0 + Mv) := mul_le_mul_of_nonneg_left hadd hβ0
    have h3 : β * (β * S) ≤ S := by nlinarith [mul_nonneg hβ0 hS]
    have h4 : β * A0 ≤ A0 := by nlinarith
    nlinarith

/-! ## Theorems: bounds of the cosine -/

/-- The inequality of Cauchy and Schwarz for the exact values of a list of pairs. -/
theorem cauchy_schwarz_values (l : List (F64 × F64)) :
    (l.map (fun p => |p.1.toRat| * |p.2.toRat|)).sum
        * (l.map (fun p => |p.1.toRat| * |p.2.toRat|)).sum
      ≤ (l.map (fun p => p.1.toRat * p.1.toRat)).sum
        * (l.map (fun p => p.2.toRat * p.2.toRat)).sum
    ∧ 0 ≤ (l.map (fun p => p.1.toRat * p.1.toRat)).sum
    ∧ 0 ≤ (l.map (fun p => p.2.toRat * p.2.toRat)).sum := by
  induction l with
  | nil => simp
  | cons p l ih =>
    obtain ⟨h, hA, hB⟩ := ih
    have := cauchy_schwarz_step |p.1.toRat| |p.2.toRat| _ _ _ h hA hB
    simp only [abs_mul_abs_self] at this
    simp only [List.map_cons, List.sum_cons]
    exact ⟨this, add_nonneg (mul_self_nonneg _) hA, add_nonneg (mul_self_nonneg _) hB⟩

theorem zip_sum_left (a b : List F64) (h : a.length = b.length) :
    ((a.zip b).map (fun p => p.1.toRat * p.1.toRat)).sum
      = (a.map (fun x => x.toRat * x.toRat)).sum := by
  have : (a.zip b).map (fun p => p.1.toRat * p.1.toRat)
      = ((a.zip b).map Prod.fst).map (fun x => x.toRat * x.toRat) := by
    rw [List.map_map]
    rfl
  rw [this, List.map_fst_zip _ _ (le_of_eq h)]

theorem zip_sum_right (a b : List F64) (h : a.length = b.length) :
    ((a.zip b).map (fun p => p.2.toRat * p.2.toRat)).sum
      = (b.map (fun x => x.toRat * x.toRat)).sum := by
  have : (a.zip b).map (fun p => p.2.toRat * p.2.toRat)
      = ((a.zip b).map Prod.snd).map (fun x => x.toRat * x.toRat) := by
    rw [List.map_map]
    rfl
  rw [this, List.map_snd_zip _ _ (le_of_eq h.symm)]

theorem cosineBound_ge_one (n : Nat) : 1 ≤ cosineBound n := by
  unfold cosineBound
  have hβ0 : (0 : ℚ) < 1 - 1 / 2 ^ 53 := by norm_num
  have hβ1 : (1 - 1 / 2 ^ 53 : ℚ) ≤ 1 := by norm_num
  have hα1 : (1 : ℚ) ≤ 1 + 1 / 2 ^ 53 := by norm_num
  rw [one_le_div (pow_pos hβ0 _)]
  exact (pow_le_one₀ hβ0.le hβ1).trans (one_le_pow₀ hα1)

/-- The algebra of the bound: from the bounds on the three sums, the two roots, their
product and the quotient to the bound on the quotient. -/
theorem cosine_bound_algebra (α β E G Vd Vp VKA VKB VA VB SA SB S VR : ℚ)
    (hα : 1 ≤ α) (hβ0 : 0 < β) (hE : 0 < E) (hG : 0 < G)
    (hVp : 0 < Vp) (hVKA : 0 ≤ VKA) (hVKB : 0 ≤ VKB) (hS : 0 ≤ S) (hSA : 0 ≤ SA)
    (hSB : 0 ≤ SB)
    (f1 : G * Vd ≤ S) (f2a : SA ≤ E * VA) (f2b : SB ≤ E * VB)
    (f3a : VA ≤ α * (α * (VKA * VKA))) (f3b : VB ≤ α * (α * (VKB * VKB)))
    (f4 : VKA * VKB ≤ α * Vp) (f5 : S * S ≤ SA * SB)
    (f6 : β * (VR * Vp) ≤ Vd) :
    VR ≤ E * (α * (α * α)) / (G * β) := by
  have hα0 : 0 ≤ α := by linarith
  have hK : 0 ≤ VKA * VKB := mul_nonneg hVKA hVKB
  have g1 : SA * SB ≤ (E * (α * (α * (VKA * VKA)))) * (E * (α * (α * (VKB * VKB)))) := by
    have ha : SA ≤ E * (α * (α * (VKA * VKA))) :=
      f2a.trans (mul_le_mul_of_nonneg_left f3a hE.le)
    have hb : SB ≤ E * (α * (α * (VKB * VKB))) :=
      f2b.trans (mul_le_mul_of_nonneg_left f3b hE.le)
    exact mul_le_mul ha hb hSB (hSA.trans ha)
  have g2 : (VKA * VKB) * (VKA * VKB) ≤ (α * Vp) * (α * Vp) :=
    mul_le_mul f4 f4 hK (hK.trans f4)
  have g3 : S * S ≤ (E * (α * (α * α)) * Vp) * (E * (α * (α * α)) * Vp) := by
    have e1 : (E * (α * (α * (VKA * VKA)))) * (E * (α * (α * (VKB * VKB))))
        = (E * E * (α * α * (α * α))) * ((VKA * VKB) * (VKA * VKB)) := by ring
    have e2 : (E * (α * (α * α)) * Vp) * (E * (α * (α * α)) * Vp)
        = (E * E * (α * α * (α * α))) * ((α * Vp) * (α * Vp)) := by ring
    rw [e2]
    refine (f5.trans g1).trans ?_
    rw [e1]
    exact mul_le_mul_of_nonneg_left g2 (by positivity)
  have hB : 0 ≤ E * (α * (α * α)) * Vp := by positivity
  have g4 : S ≤ E * (α * (α * α)) * Vp := (mul_self_le_mul_self_iff hS hB).mpr g3
  have g5 : G * (β * (VR * Vp)) ≤ E * (α * (α * α)) * Vp :=
    (mul_le_mul_of_nonneg_left f6 hG.le).trans (f1.trans g4)
  have g6 : (G * β * VR) * Vp ≤ (E * (α * (α * α))) * Vp := by
    have e : (G * β * VR) * Vp = G * (β * (VR * Vp)) := by ring
    rw [e]
    exact g5
  have g7 : G * β * VR ≤ E * (α * (α * α)) := le_of_mul_le_mul_right g6 hVp
  rw [le_div_iff₀ (mul_pos hG hβ0)]
  have e : VR * (G * β) = G * β * VR := by ring
  rw [e]
  exact g7

/-- The value returned by `cosineSimilarity` on vectors of equal length, in terms of the
three sums of the loop. -/
theorem Vectors.cosineSimilarity_eq_quotient (a b : List F64) (hlen : a.length = b.length) :
    Vectors.cosineSimilarity a b = .ok
      (if F64.eq (a.foldl (fun sum v => F64.add sum (F64.mul v v)) F64.zero) F64.zero
          || F64.eq (b.foldl (fun sum v => F64.add sum (F64.mul v v)) F64.zero) F64.zero
        then F64.zero
        else F64.div ((a.zip b).foldl (fun sum p => F64.add sum (F64.mul p.1 p.2)) F64.zero)
          (F64.mul (F64.sqrt (a.foldl (fun sum v => F64.add sum (F64.mul v v)) F64.zero))
            (F64.sqrt (b.foldl (fun sum v => F64.add sum (F64.mul v v)) F64.zero)))) := by
  unfold Vectors.cosineSimilarity
  rw [Vectors.assert_of_length_eq a b hlen]
  show (do
      let st ← cosineLoop (F64.zero, F64.zero, F64.zero) a b
      if F64.eq st.2.1 F64.zero || F64.eq st.2.2 F64.zero then pure F64.zero
      else pure (F64.div st.1 (F64.mul (F64.sqrt st.2.1) (F64.sqrt st.2.2)))) = _
  rw [cosineLoop_of_length_eq a b _ hlen]
  simp only [bind, Except.bind]
  split <;> rfl

set_option exponentiation.threshold 2200 in
/-- The bound on a finite quotient `dot / (Sqrt(normA) * Sqrt(normB))` of the three sums
of vectors whose entries are away from underflow. -/
theorem cosine_quotient_bound (a b : List F64) (hlen : a.length = b.length)
    (ha : ∀ x ∈ a, x.AwayFromUnderflow) (hb : ∀ y ∈ b, y.AwayFromUnderflow)
    (hA : F64.eq (a.foldl (fun sum v => F64.add sum (F64.mul v v)) F64.zero) F64.zero = false)
    (hB : F64.eq (b.foldl (fun sum v => F64.add sum (F64.mul v v)) F64.zero) F64.zero = false)
    (ρ : Bool) (R : Nat)
    (h : F64.div ((a.zip b).foldl (fun sum p => F64.add sum (F64.mul p.1 p.2)) F64.zero)
          (F64.mul (F64.sqrt (a.foldl (fun sum v => F64.add sum (F64.mul v v)) F64.zero))
            (F64.sqrt (b.foldl (fun sum v => F64.add sum (F64.mul v v)) F64.zero)))
        = F64.fin ρ R) :
    (F64.fin false R).toRat ≤ cosineBound a.length := by
  have hone := cosineBound_ge_one a.length
  obtain ⟨sd, d, hD, hP⟩ := F64.div_finite _ _ _ _ h
  rcases hP with ⟨t, _, hR0⟩ | ⟨t, p, hP, hp⟩
  · subst hR0
    have : (F64.fin false 0).toRat = 0 := by simp [F64.toRat_nonneg]
    rw [this]
    linarith
  obtain ⟨sa, KA, sb, KB, hsA, hsB⟩ := F64.mul_finite _ _ _ _ hP
  obtain ⟨s1, mA, hNA, _⟩ := F64.sqrt_finite _ _ _ hsA
  obtain ⟨s2, mB, hNB, _⟩ := F64.sqrt_finite _ _ _ hsB
  obtain ⟨hs1, hmA, fA⟩ := norm_fold_value a ha 0 s1 mA (Or.inl rfl) hNA
  obtain ⟨hs2, hmB, fB⟩ := norm_fold_value b hb 0 s2 mB (Or.inl rfl) hNB
  subst hs1 hs2
  rw [hNA] at hA hsA
  rw [hNB] at hB hsB
  have hmA0 : mA ≠ 0 := by
    intro h0
    subst h0
    have : F64.eq (F64.fin false 0) F64.zero = true := (F64.eq_zero_iff _).mpr ⟨false, rfl⟩
    rw [this] at hA
    cases hA
  have hmB0 : mB ≠ 0 := by
    intro h0
    subst h0
    have : F64.eq (F64.fin false 0) F64.zero = true := (F64.eq_zero_iff _).mpr ⟨false, rfl⟩
    rw [this] at hB
    cases hB
  have hmA54 : 2 ^ 54 ≤ mA := by omega
  have hmB54 : 2 ^ 54 ≤ mB := by omega
  obtain ⟨hsa, _, hKA⟩ := F64.sqrt_rel mA hmA0 sa KA hsA
  obtain ⟨hsb, _, hKB⟩ := F64.sqrt_rel mB hmB0 sb KB hsB
  have f3a := F64.sqrt_value mA hmA0 sa KA hsA
  have f3b := F64.sqrt_value mB hmB0 sb KB hsB
  rw [hNA, hNB, hsA, hsB] at hP
  have hnorm : 2 ^ 52 * 2 ^ 1074 ≤ KA * KB := by
    calc 2 ^ 52 * 2 ^ 1074 = 2 ^ 563 * 2 ^ 563 := by
          rw [← Nat.pow_add, ← Nat.pow_add]
      _ ≤ KA * KB := Nat.mul_le_mul (hKA hmA54) (hKB hmB54)
  obtain ⟨_, f4⟩ := F64.mul_value_norm sa sb t KA KB p hnorm hP
  rw [hD, hNA, hNB, hsA, hsB, hP] at h
  have f1 := dot_fold_value (a.zip b) (by
    intro q hq
    exact ⟨ha _ (List.of_mem_zip hq).1, hb _ (List.of_mem_zip hq).2⟩) false 0 sd d hD
  obtain ⟨f5, hSA, hSB⟩ := cauchy_schwarz_values (a.zip b)
  rw [zip_sum_left a b hlen, zip_sum_right a b hlen] at f5
  rw [zip_sum_left a b hlen] at hSA
  rw [zip_sum_right a b hlen] at hSB
  have hzip : (a.zip b).length = a.length := by
    rw [List.length_zip, hlen, min_self]
  rw [hzip] at f1
  have hz0 : (F64.fin false 0).toRat = 0 := by simp [F64.toRat_nonneg]
  rw [hz0, zero_add] at f1 fA fB
  have hS : 0 ≤ ((a.zip b).map (fun p => |p.1.toRat| * |p.2.toRat|)).sum := by
    apply List.sum_nonneg
    intro z hz
    obtain ⟨q, _, rfl⟩ := List.mem_map.mp hz
    exact mul_nonneg (abs_nonneg _) (abs_nonneg _)
  have hVp : 0 < (F64.fin false p).toRat := by
    rw [F64.toRat_nonneg]
    have : (0 : ℚ) < p := by exact_mod_cast Nat.pos_of_ne_zero hp
    positivity
  have hfB : (b.map (fun x => x.toRat * x.toRat)).sum
      ≤ (1 + 1 / 2 ^ 53) ^ (2 * a.length) * (F64.fin false mB).toRat := by
    rw [hlen]
    exact fB
  have hVKA := F64.toRat_nonneg_nonneg KA
  have hVKB := F64.toRat_nonneg_nonneg KB
  have hα : (1 : ℚ) ≤ 1 + 1 / 2 ^ 53 := by norm_num
  have hβ0 : (0 : ℚ) < 1 - 1 / 2 ^ 53 := by norm_num
  have hE : (0 : ℚ) < (1 + 1 / 2 ^ 53) ^ (2 * a.length) := pow_pos (by norm_num) _
  have hG : (0 : ℚ) < (1 - 1 / 2 ^ 53) ^ (2 * a.length) := pow_pos hβ0 _
  rcases F64.div_value sd t ρ d p R hp h with f6 | f6
  · unfold cosineBound
    have e1 : (1 + 1 / 2 ^ 53 : ℚ) ^ (2 * a.length + 3)
        = (1 + 1 / 2 ^ 53) ^ (2 * a.length)
          * ((1 + 1 / 2 ^ 53) * ((1 + 1 / 2 ^ 53) * (1 + 1 / 2 ^ 53))) := by
      rw [pow_add]
      ring
    have e2 : (1 - 1 / 2 ^ 53 : ℚ) ^ (2 * a.length + 1)
        = (1 - 1 / 2 ^ 53) ^ (2 * a.length) * (1 - 1 / 2 ^ 53) := pow_succ _ _
    rw [e1, e2]
    generalize (F64.fin false d).toRat = Vd at f1 f6 ⊢
    generalize (F64.fin false p).toRat = Vp at f4 f6 hVp ⊢
    generalize (F64.fin false KA).toRat = VKA at f3a f4 hVKA ⊢
    generalize (F64.fin false KB).toRat = VKB at f3b f4 hVKB ⊢
    generalize (F64.fin false mA).toRat = VA at fA f3a ⊢
    generalize (F64.fin false mB).toRat = VB at hfB f3b ⊢
    generalize (F64.fin false R).toRat = VR at f6 ⊢
    generalize (a.map (fun x => x.toRat * x.toRat)).sum = SA at fA f5 hSA ⊢
    generalize (b.map (fun x => x.toRat * x.toRat)).sum = SB at hfB f5 hSB ⊢
    generalize ((a.zip b).map (fun p => |p.1.toRat| * |p.2.toRat|)).sum = S at f1 f5 hS ⊢
    generalize (1 + 1 / 2 ^ 53 : ℚ) ^ (2 * a.length) = E at fA hfB hE ⊢
    generalize (1 - 1 / 2 ^ 53 : ℚ) ^ (2 * a.length) = G at f1 hG ⊢
    generalize (1 + 1 / 2 ^ 53 : ℚ) = α at fA hfB f3a f3b f4 hα ⊢
    generalize (1 - 1 / 2 ^ 53 : ℚ) = β at f6 hβ0 ⊢
    exact cosine_bound_algebra α β E G Vd Vp VKA VKB VA VB SA SB S VR hα hβ0 hE hG hVp
      hVKA hVKB hS hSA hSB f1 fA hfB f3a f3b f4 f5 f6
  · exact f6.trans hone

/-- Claim C10, amended. For all equal-length vectors `a` and `b` of `n` finite binary64
values each of which is zero or at least `2^-510` in magnitude, `cosineSimilarity(a, b)`
(the same function in vectors/main.go and bag-of-words/main.go) returns without a
panic, and whenever the value returned is finite its magnitude is at most
`(1 + 2^-53)^(2n+3) / (1 - 2^-53)^(2n+1)`: the interval `[-1, 1]` widened by the
rounding errors of the `2n` steps of each sum, the two square roots, their product and
the quotient. -/
theorem cosineSimilarity_rounding_bound (a b : List F64) (hlen : a.length = b.length)
    (ha : ∀ x ∈ a, x.AwayFromUnderflow) (hb : ∀ y ∈ b, y.AwayFromUnderflow) :
    ∃ c, Vectors.cosineSimilarity a b = .ok c
      ∧ BagOfWords.cosineSimilarity a b = .ok c
      ∧ (c.isFinite = true →
          -cosineBound a.length ≤ c.toRat ∧ c.toRat ≤ cosineBound a.length) := by
  have hcos := Vectors.cosineSimilarity_eq_quotient a b hlen
  refine ⟨_, hcos, hcos, ?_⟩
  have hone := cosineBound_ge_one a.length
  by_cases hg : (F64.eq (a.foldl (fun sum v => F64.add sum (F64.mul v v)) F64.zero) F64.zero
      || F64.eq (b.foldl (fun sum v => F64.add sum (F64.mul v v)) F64.zero) F64.zero) = true
  · rw [if_pos hg]
    intro _
    have : F64.zero.toRat = 0 := by simp [F64.zero, F64.toRat_nonneg]
    rw [← abs_le, this, abs_zero]
    linarith
  · rw [if_neg hg]
    simp only [Bool.or_eq_true, not_or, Bool.not_eq_true] at hg
    generalize hc : F64.div _ _ = c
    intro hfin
    rw [← abs_le]
    cases c with
    | nan => cases hfin
    | inf s => cases hfin
    | fin ρ R =>
      rw [F64.abs_toRat]
      exact cosine_quotient_bound a b hlen ha hb hg.1 hg.2 ρ R hc

/-- Counterexample to C10, in three parts.  For `a = b = [1, 1, 1]` the function returns
`1 + 2^-52` (printed `1.0000000000000002`), which is not `<= 1`: the rounded product
`Sqrt(3) * Sqrt(3)` is `3 - 2^-51`.  For `a = [19 * 2^-541]`, `b = [1]` the square of the
entry of `a` falls in the subnormal range and is rounded to `2^-1074`, and the function
returns `1.1875`.  For `a = b = [2^600]` the squares overflow to `+Inf` and the function
returns `Inf / (Inf * Inf) = NaN`, which is in no interval. -/
theorem cosineSimilarity_exceeds_one :
    Vectors.cosineSimilarity [F64.ofInt 1, F64.ofInt 1, F64.ofInt 1]
        [F64.ofInt 1, F64.ofInt 1, F64.ofInt 1]
      = .ok (F64.fin false (1 <<< 1074 + 1 <<< 1022))
    ∧ F64.valid (F64.fin false (1 <<< 1074 + 1 <<< 1022)) = true
    ∧ F64.le (F64.fin false (1 <<< 1074 + 1 <<< 1022)) F64.one = false
    ∧ F64.mul (F64.sqrt (F64.ofInt 3)) (F64.sqrt (F64.ofInt 3))
      = F64.fin false (3 <<< 1074 - 1 <<< 1023)
    ∧ Vectors.cosineSimilarity [F64.fin false (19 <<< 533)] [F64.ofInt 1]
      = .ok (F64.fin false (19 <<< 1070))
    ∧ F64.valid (F64.fin false (19 <<< 533)) = true
    ∧ F64.le (F64.fin false (19 <<< 1070)) F64.one = false
    ∧ F64.mul (F64.fin false (19 <<< 533)) (F64.fin false (19 <<< 533)) = F64.fin false 1
    ∧ Vectors.cosineSimilarity [F64.fin false (1 <<< 1674)] [F64.fin false (1 <<< 1674)]
      = .ok F64.nan
    ∧ F64.valid (F64.fin false (1 <<< 1674)) = true := by
  decide!

set_option exponentiation.threshold 2200 in
theorem F64.ofInt_one_awayFromUnderflow : (F64.ofInt 1).AwayFromUnderflow := by
  refine ⟨false, 1 <<< 1074, by decide!, Or.inr ?_⟩
  rw [Nat.shiftLeft_eq, Nat.one_mul]
  exact Nat.pow_le_pow_right (by decide) (by decide)

/-- Witness for C10 (amended): the vectors `a = b = [1, 1, 1]` of the counterexample have
equal lengths and entries away from underflow; their cosine `1 + 2^-52` is finite, and it
lies within the bound for `n = 3`. -/
theorem cosineSimilarity_rounding_bound_witness :
    ([F64.ofInt 1, F64.ofInt 1, F64.ofInt 1] : List F64).length
      = ([F64.ofInt 1, F64.ofInt 1, F64.ofInt 1] : List F64).length
    ∧ (∀ x ∈ [F64.ofInt 1, F64.ofInt 1, F64.ofInt 1], x.AwayFromUnderflow)
    ∧ Vectors.cosineSimilarity [F64.ofInt 1, F64.ofInt 1, F64.ofInt 1]
        [F64.ofInt 1, F64.ofInt 1, F64.ofInt 1]
      = .ok (F64.fin false (1 <<< 1074 + 1 <<< 1022))
    ∧ -cosineBound 3 ≤ (F64.fin false (1 <<< 1074 + 1 <<< 1022)).toRat
    ∧ (F64.fin false (1 <<< 1074 + 1 <<< 1022)).toRat ≤ cosineBound 3 := by
  have h : ∀ x ∈ [F64.ofInt 1, F64.ofInt 1, F64.ofInt 1], x.AwayFromUnderflow := by
    intro x hx
    simp only [List.mem_cons, List.mem_singleton, List.not_mem_nil, or_false, or_self] at hx
    rw [hx]
    exact F64.ofInt_one_awayFromUnderflow
  have hv : Vectors.cosineSimilarity [F64.ofInt 1, F64.ofInt 1, F64.ofInt 1]
      [F64.ofInt 1, F64.ofInt 1, F64.ofInt 1]
      = .ok (F64.fin false (1 <<< 1074 + 1 <<< 1022)) := by decide!
  obtain ⟨c, hc, _, hb⟩ := cosineSimilarity_rounding_bound
    [F64.ofInt 1, F64.ofInt 1, F64.ofInt 1] [F64.ofInt 1, F64.ofInt 1, F64.ofInt 1] rfl h h
  rw [hv] at hc
  have hcv := Except.ok.inj hc
  subst hcv
  exact ⟨rfl, h, hv, hb rfl⟩
